import Mathlib

/-!
Prim's algorithm over an indexed binary min-heap (`main.go`).

Shallow embedding of `main.go` and of the parts of Go's `container/heap`
it drives (`Init`, `Pop`, `Fix`, `up`, `down`).

Modelling decisions.

* A cost of an edge, and so the field `CheapestEdge`, is an element of
  `WithTop ℤ`: an integer or `⊤` for `math.Inf(1)`.  The program only copies
  and compares these values, and `<` on them is the `<` of `float64`.  Inputs
  with a cost `NaN` or `-Inf`, or with a cost that is not an integer, are
  outside the model.
* A `*Vertex` pointer is the `ID` of the vertex it points to.  `readFile`
  allocates exactly one `Vertex` per key of `VertexMap`, so pointers and keys
  are in bijection.  The registry `VertexMap` and the memory the pointers
  refer to are one list of `Vertex` records, one per key.  The pointer fields
  `HeadVertex` and `TailVertex` of an `Edge` are `VertexMap[HeadVertexID]` and
  `VertexMap[TailVertexID]`, so an `Edge` keeps the two ids only.
* Array positions are natural numbers; the field `Index`, which also takes
  the value `-1`, is an integer.  An access outside an array is `none`.
* Loops run on a fuel argument that the callers set high enough; running out
  of fuel is `none` as well, and the theorems show it does not happen.
* The running total of `prim` comes in two forms.  `prim` adds the costs
  exactly; it gives the total as a number and the states of the run.
  `primFloat` adds them as the program does, with the `float64` addition of
  the type `F64`: round to nearest, ties to even, overflow to an infinity and
  `NaN` for `-Inf + +Inf`.  Both pass through the same states.  The two totals
  agree as long as the costs are integers and the sums stay below `2^53` in
  absolute value (`computeMSTFloat_exact`).
-/

namespace Prim

/-- A cost: a finite number or `⊤` for `math.Inf(1)`. -/
abbrev Cost := WithTop ℤ

/-- The struct `Edge`; the pointers `HeadVertex`, `TailVertex` are the ids. -/
structure Edge where
  HeadVertexID : Int
  TailVertexID : Int
  Cost : Cost
deriving DecidableEq

/-- The struct `Vertex`. -/
structure Vertex where
  ID : Int
  EdgesFrom : List Edge
  EdgesTo : List Edge
  CheapestEdge : Cost
  Index : Int
deriving DecidableEq

/-- The two globals of `main.go`: the registry `VertexMap` (with the vertex
records its pointers refer to) and the heap array `vh` (pointers, as ids). -/
structure State where
  VertexMap : List Vertex
  vh : List Int
deriving DecidableEq

/-- The map read `VertexMap[id]`, also the dereference of the pointer `id`. -/
def lookup (m : List Vertex) (id : Int) : Option Vertex :=
  m.find? (fun v => v.ID == id)

/-- A write through the pointer `id`. -/
def modifyAt (m : List Vertex) (id : Int) (f : Vertex → Vertex) : List Vertex :=
  m.map (fun v => if v.ID = id then f v else v)

/-- Dereference of a pointer held in the heap array or in an edge. -/
def State.deref (s : State) (p : Int) : Option Vertex := lookup s.VertexMap p

/-- The assignment `p.Index = i`. -/
def State.setIndex (s : State) (p : Int) (i : Int) : State :=
  { s with VertexMap := modifyAt s.VertexMap p (fun v => { v with Index := i }) }

/-- The assignment `p.CheapestEdge = c`. -/
def State.setCheapestEdge (s : State) (p : Int) (c : Cost) : State :=
  { s with VertexMap := modifyAt s.VertexMap p (fun v => { v with CheapestEdge := c }) }

/-- The method `VertexHeap.Len`. -/
def Len (s : State) : Nat := s.vh.length

/-- The method `VertexHeap.Less`: `vh[i].CheapestEdge < vh[j].CheapestEdge`. -/
def Less (s : State) (i j : Nat) : Option Bool := do
  let a ← s.vh[i]?
  let b ← s.vh[j]?
  let va ← s.deref a
  let vb ← s.deref b
  pure (decide (va.CheapestEdge < vb.CheapestEdge))

/-- The method `VertexHeap.Swap`: exchange the two slots, then
`vh[i].Index = i` and `vh[j].Index = j`. -/
def Swap (s : State) (i j : Nat) : Option State := do
  let a ← s.vh[i]?
  let b ← s.vh[j]?
  let s1 : State := { s with vh := (s.vh.set i b).set j a }
  pure ((s1.setIndex b i).setIndex a j)

/-- The loop of `container/heap.down`; the result is the state and the final
value of `i`. -/
def downLoop (n : Nat) : Nat → State → Nat → Option (State × Nat)
  | 0, _, _ => none
  | fuel + 1, s, i =>
    let j1 := 2 * i + 1
    if n ≤ j1 then some (s, i)
    else do
      let r ← (if j1 + 1 < n then Less s (j1 + 1) j1 else some false)
      let j := if r then j1 + 1 else j1
      let lt ← Less s j i
      if lt then do
        let s1 ← Swap s i j
        downLoop n fuel s1 j
      else some (s, i)

/-- The function `container/heap.down(h, i0, n)`, which reports whether the
element moved. -/
def down (s : State) (i0 n : Nat) : Option (State × Bool) := do
  let r ← downLoop n (n + 1) s i0
  pure (r.1, decide (i0 < r.2))

/-- The function `container/heap.up(h, j)`; in Go `(j - 1) / 2` is `0` for
`j = 0`, as it is for natural numbers. -/
def upLoop : Nat → State → Nat → Option State
  | 0, _, _ => none
  | fuel + 1, s, j =>
    let i := (j - 1) / 2
    if i = j then some s
    else do
      let lt ← Less s j i
      if lt then do
        let s1 ← Swap s i j
        upLoop fuel s1 i
      else some s

/-- The function `container/heap.up(h, j)`. -/
def up (s : State) (j : Nat) : Option State := upLoop (j + 1) s j

/-- The function `container/heap.Fix(h, i)`:
`if !down(h, i, h.Len()) { up(h, i) }`. -/
def Fix (s : State) (i : Nat) : Option State := do
  let r ← down s i (Len s)
  if r.2 then some r.1 else up r.1 i

/-- The loop of `container/heap.Init`: `k` iterations remain, the next one
at `i = k - 1`. -/
def InitLoop (n : Nat) : Nat → State → Option State
  | 0, s => some s
  | k + 1, s => do
    let r ← down s k n
    InitLoop n k r.1

/-- The function `container/heap.Init(h)`:
`for i := n/2 - 1; i >= 0; i-- { down(h, i, n) }`. -/
def Init (s : State) : Option State := InitLoop (Len s) (Len s / 2) s

/-- The method `VertexHeap.Pop`: detach the last slot and set its vertex's
`Index` to `-1`; the result carries the pointer returned. -/
def VertexHeap.Pop (s : State) : Option (State × Int) := do
  let n := s.vh.length
  if n = 0 then none
  else do
    let v ← s.vh[n - 1]?
    let s1 := s.setIndex v (-1)
    pure ({ s1 with vh := s.vh.take (n - 1) }, v)

/-- The function `container/heap.Pop(h)`:
`n := h.Len() - 1; h.Swap(0, n); down(h, 0, n); return h.Pop()`.
On an empty heap `n = -1` and `Swap(0, -1)` indexes outside the array. -/
def heapPop (s : State) : Option (State × Int) :=
  if Len s = 0 then none
  else do
    let n := Len s - 1
    let s1 ← Swap s 0 n
    let r ← down s1 0 n
    VertexHeap.Pop r.1

/-- One iteration of either loop of `UpdateHeap`, for the far endpoint `far`
of an edge of cost `c`:
`if far.Index > -1 && c < far.CheapestEdge { far.CheapestEdge = c; heap.Fix(vh, far.Index) }`. -/
def relax (s : State) (far : Int) (c : Cost) : Option State := do
  let t ← s.deref far
  if -1 < t.Index ∧ c < t.CheapestEdge then
    Fix (s.setCheapestEdge far c) t.Index.toNat
  else some s

/-- A `for _, e := range` loop of `UpdateHeap` over a list of (far endpoint,
cost) pairs. -/
def relaxAll : List (Int × Cost) → State → Option State
  | [], s => some s
  | (far, c) :: rest, s => do
    let s1 ← relax s far c
    relaxAll rest s1

/-- The method `VertexHeap.UpdateHeap(v)`: first the loop over `v.EdgesTo`
with the far endpoint `e.TailVertex`, then the loop over `v.EdgesFrom` with
the far endpoint `e.HeadVertex`. -/
def UpdateHeap (s : State) (w : Int) : Option State := do
  let v ← s.deref w
  let s1 ← relaxAll (v.EdgesTo.map (fun e => (e.TailVertexID, e.Cost))) s
  relaxAll (v.EdgesFrom.map (fun e => (e.HeadVertexID, e.Cost))) s1

/-- The loop `for vh.Len() > 0` of `prim`, with the running `MinSpanCost`
added exactly; `primLoopFloat` is the loop with the `float64` addition. -/
def primLoop : Nat → State → Cost → Option Cost
  | 0, _, _ => none
  | fuel + 1, s, acc =>
    if 0 < Len s then do
      let r ← heapPop s
      let v ← r.1.deref r.2
      let s2 ← UpdateHeap r.1 r.2
      primLoop fuel s2 (acc + v.CheapestEdge)
    else some acc

/-- The function `prim`, the total added exactly; `primFloat` is the function
with the `float64` addition. -/
def prim (s : State) : Option Cost := do
  let r ← heapPop s
  let s2 ← UpdateHeap r.1 r.2
  primLoop (Len s2 + 1) s2 0

/-- The loop of `makeVertexHeap`: `v.Index = i; vh[i] = v; i++` for the
vertices in the order `order` in which the map is ranged over. -/
def fillLoop : List Int → Nat → State → State
  | [], _, s => s
  | p :: rest, i, s => fillLoop rest (i + 1) ((s.setIndex p i))

/-- The function `makeVertexHeap`.  Go ranges over a map in an unspecified
order: `order` is that order, a listing of the keys of `VertexMap`. -/
def makeVertexHeap (s : State) (order : List Int) : Option State :=
  Init { fillLoop order 0 s with vh := order }

/-- The method `AddFromEdge`: `v.EdgesFrom = append(v.EdgesFrom, e)`. -/
def Vertex.AddFromEdge (v : Vertex) (e : Edge) : Vertex :=
  { v with EdgesFrom := v.EdgesFrom ++ [e] }

/-- The method `AddToEdge`: `v.EdgesTo = append(v.EdgesTo, e)`. -/
def Vertex.AddToEdge (v : Vertex) (e : Edge) : Vertex :=
  { v with EdgesTo := v.EdgesTo ++ [e] }

/-- The fetch-or-create at the top of the loop body of `readFile`:
`h, ok := VertexMap[id]; if !ok { h = &Vertex{id, nil, nil, math.Inf(1), -1}; VertexMap[id] = h }`. -/
def getOrCreate (m : List Vertex) (id : Int) : List Vertex :=
  if (lookup m id).isSome then m
  else m ++ [{ ID := id, EdgesFrom := [], EdgesTo := [], CheapestEdge := ⊤, Index := -1 }]

/-- The loop body of `readFile` for a parsed line `h t c`; the spec calls it
`connect`.  The four calls are `h.AddToEdge(EdgeOneDir)`,
`h.AddFromEdge(EdgeOtherDir)`, `t.AddFromEdge(EdgeOneDir)` and
`t.AddToEdge(EdgeOtherDir)`, in this order. -/
def connect (s : State) (h t : Int) (c : Cost) : State :=
  let m1 := getOrCreate s.VertexMap h
  let m2 := getOrCreate m1 t
  let EdgeOneDir : Edge := ⟨h, t, c⟩
  let EdgeOtherDir : Edge := ⟨t, h, c⟩
  let m3 := modifyAt m2 h (fun v => v.AddToEdge EdgeOneDir)
  let m4 := modifyAt m3 h (fun v => v.AddFromEdge EdgeOtherDir)
  let m5 := modifyAt m4 t (fun v => v.AddFromEdge EdgeOneDir)
  let m6 := modifyAt m5 t (fun v => v.AddToEdge EdgeOtherDir)
  { s with VertexMap := m6 }

/-- A parsed input line `a b c`, one `connect(a, b, c)` step. -/
structure Step where
  a : Int
  b : Int
  c : Cost
deriving DecidableEq

/-- The state when the program starts: an empty map and a nil heap array. -/
def State.empty : State := ⟨[], []⟩

/-- The data loop of `readFile`: one `connect` per line. -/
def readFile (steps : List Step) : State :=
  steps.foldl (fun s e => connect s e.a e.b e.c) State.empty

/-- The keys of `VertexMap`, in registration order. -/
def State.ids (s : State) : List Int := s.VertexMap.map (fun v => v.ID)

/-- The body of `main` after parsing: `readFile`, `makeVertexHeap`, `prim`. -/
def computeMST (steps : List Step) (order : List Int) : Option Cost := do
  let s ← makeVertexHeap (readFile steps) order
  prim s

/-! ### The run of `prim`, with the states it passes through -/

/-- Which call of `prim` has just returned. -/
inductive Phase where
  | afterPop
  | afterUpdate
deriving DecidableEq

/-- The state right after a `heap.Pop` or an `UpdateHeap` of `prim`, with
the vertex that the latest `heap.Pop` returned. -/
structure Snapshot where
  phase : Phase
  popped : Int
  st : State

/-- The loop of `prim` as in `primLoop`, which also records the state after
every `heap.Pop` and after every `UpdateHeap`. -/
def primLoopRun : Nat → State → Cost → Option (Cost × List Snapshot)
  | 0, _, _ => none
  | fuel + 1, s, acc =>
    if 0 < Len s then do
      let r ← heapPop s
      let v ← r.1.deref r.2
      let s2 ← UpdateHeap r.1 r.2
      let out ← primLoopRun fuel s2 (acc + v.CheapestEdge)
      pure (out.1, ⟨Phase.afterPop, r.2, r.1⟩ :: ⟨Phase.afterUpdate, r.2, s2⟩ :: out.2)
    else some (acc, [])

/-- The function `prim` as in `prim`, with the recorded states. -/
def primRun (s : State) : Option (Cost × List Snapshot) := do
  let r ← heapPop s
  let s2 ← UpdateHeap r.1 r.2
  let out ← primLoopRun (Len s2 + 1) s2 0
  pure (out.1, ⟨Phase.afterPop, r.2, r.1⟩ :: ⟨Phase.afterUpdate, r.2, s2⟩ :: out.2)

/-! ### Views of a state and the heap predicates -/

/-- The field `CheapestEdge` behind the pointer `p` (`⊤` when `p` points to
no registered vertex). -/
def key (s : State) (p : Int) : Cost :=
  match s.deref p with
  | some v => v.CheapestEdge
  | none => ⊤

/-- The field `Index` behind the pointer `p` (`-1` when `p` points to no
registered vertex). -/
def idx (s : State) (p : Int) : Int :=
  match s.deref p with
  | some v => v.Index
  | none => -1

/-- The cost `vh[i].CheapestEdge` (`⊤` outside the array). -/
def kat (s : State) (i : Nat) : Cost :=
  match s.vh[i]? with
  | some p => key s p
  | none => ⊤

/-- Exchange of two positions of a cost array. -/
def swapFn (K : Nat → Cost) (i j : Nat) : Nat → Cost :=
  fun k => if k = i then K j else if k = j then K i else K k

/-- Heap order among the first `n` positions, for the children of the
positions from `lo` on. -/
def HeapOn (K : Nat → Cost) (lo n : Nat) : Prop :=
  ∀ c, 0 < c → c < n → lo ≤ (c - 1) / 2 → K ((c - 1) / 2) ≤ K c

/-- Loop invariant of `down` at position `i`: heap order except between `i`
and its children, whose costs are still bounded by the parent of `i`. -/
def DownInv (K : Nat → Cost) (lo n i : Nat) : Prop :=
  (∀ c, 0 < c → c < n → lo ≤ (c - 1) / 2 → (c - 1) / 2 ≠ i → K ((c - 1) / 2) ≤ K c) ∧
  (∀ c, 0 < c → c < n → (c - 1) / 2 = i → 0 < i → lo ≤ (i - 1) / 2 → K ((i - 1) / 2) ≤ K c)

/-- Loop invariant of `up` at position `j`: heap order except between `j`
and its parent, the children of `j` being bounded by the parent of `j`. -/
def UpInv (K : Nat → Cost) (n j : Nat) : Prop :=
  (∀ c, 0 < c → c < n → c ≠ j → K ((c - 1) / 2) ≤ K c) ∧
  (∀ c, 0 < c → c < n → (c - 1) / 2 = j → 0 < j → K ((j - 1) / 2) ≤ K c)

/-- Every slot of the heap array holds a vertex whose `Index` is the slot. -/
def PosOK (s : State) : Prop := ∀ (i : Nat) (p : Int), s.vh[i]? = some p → idx s p = i

/-- A vertex that is not in the heap array has `Index = -1`. -/
def OutOK (s : State) : Prop := ∀ p, p ∉ s.vh → idx s p = -1

/-- A vertex record without its heap position. -/
def eraseIndex (v : Vertex) : Vertex := { v with Index := 0 }

/-- The two states hold the same vertex records up to the `Index` fields. -/
def SameData (s t : State) : Prop :=
  t.VertexMap.map eraseIndex = s.VertexMap.map eraseIndex

/-- What every heap operation built from `Swap` keeps: the vertex records up
to `Index`, the contents of the array and the index bookkeeping. -/
def HeapRel (s t : State) : Prop :=
  SameData s t ∧ t.vh.Perm s.vh ∧ PosOK t ∧ (OutOK s → OutOK t)

/-- The child that `down` compares with position `i`: the right one when it
is in range and strictly cheaper than the left one. -/
def minChild (K : Nat → Cost) (n i : Nat) : Nat :=
  if 2 * i + 2 < n ∧ K (2 * i + 2) < K (2 * i + 1) then 2 * i + 2 else 2 * i + 1

/-- A vertex record without its two fields that `prim` writes. -/
def eraseMutable (v : Vertex) : Vertex := { v with Index := 0, CheapestEdge := ⊤ }

/-- The two states hold the same vertices with the same adjacency lists. -/
def SameGraph (s t : State) : Prop :=
  t.VertexMap.map eraseMutable = s.VertexMap.map eraseMutable

/-- The heap invariant on the views: index bookkeeping and heap order. -/
def HeapInv (s : State) : Prop :=
  PosOK s ∧ OutOK s ∧ HeapOn (kat s) 0 s.vh.length

/-- The (far endpoint, cost) pairs that `UpdateHeap(v)` visits, in order. -/
def incident (v : Vertex) : List (Int × Cost) :=
  v.EdgesTo.map (fun e => (e.TailVertexID, e.Cost)) ++
    v.EdgesFrom.map (fun e => (e.HeadVertexID, e.Cost))

/-! ### The graph of an input and its spanning trees -/

/-- The undirected edge of a step joins `x` and `y`. -/
def joins (e : Step) (x y : Int) : Prop :=
  (e.a = x ∧ e.b = y) ∨ (e.a = y ∧ e.b = x)

/-- The vertex `p` occurs in some step, so `readFile` registers it. -/
def Registered (steps : List Step) (p : Int) : Prop :=
  ∃ e ∈ steps, e.a = p ∨ e.b = p

/-- The record `readFile` creates for a key it has not seen. -/
def freshVertex (id : Int) : Vertex :=
  { ID := id, EdgesFrom := [], EdgesTo := [], CheapestEdge := ⊤, Index := -1 }

/-- What one `connect(h, t, c)` appends to the lists of its vertex `h`. -/
def asHead (h t : Int) (c : Cost) (v : Vertex) : Vertex :=
  { v with EdgesTo := v.EdgesTo ++ [⟨h, t, c⟩], EdgesFrom := v.EdgesFrom ++ [⟨t, h, c⟩] }

/-- What one `connect(h, t, c)` appends to the lists of its vertex `t`. -/
def asTail (h t : Int) (c : Cost) (v : Vertex) : Vertex :=
  { v with EdgesFrom := v.EdgesFrom ++ [⟨h, t, c⟩], EdgesTo := v.EdgesTo ++ [⟨t, h, c⟩] }

/-- The (far endpoint, cost) pairs behind the pointer `p`. -/
def pairs (s : State) (p : Int) : List (Int × Cost) :=
  match s.deref p with
  | some v => incident v
  | none => []

/-- The vertex `u` has been popped: it is registered and no longer in the
heap array. -/
def popped (steps : List Step) (s : State) (u : Int) : Prop :=
  Registered steps u ∧ u ∉ s.vh

/-- The invariant of `prim` between two iterations, for the input `steps`:
the heap invariant, the graph as `readFile` built it, and the frontier costs. -/
structure PrimInv (steps : List Step) (s : State) : Prop where
  heap : HeapInv s
  reg : ∀ p, (s.deref p).isSome ↔ Registered steps p
  adj : ∀ p x, x ∈ pairs s p ↔ ∃ e ∈ steps, joins e p x.1 ∧ e.c = x.2
  low : ∀ p ∈ s.vh, ∀ e ∈ steps, ∀ u, joins e p u → popped steps s u → key s p ≤ e.c
  att : ∀ p ∈ s.vh, key s p = ⊤ ∨
    ∃ e ∈ steps, ∃ u, joins e p u ∧ popped steps s u ∧ key s p = e.c

/-- One iteration of `prim` from the state `s`: `heap.Pop` returns `w` and
leaves `t`, then `UpdateHeap(w)` leaves `s2`. -/
structure PrimStep (steps : List Step) (s t : State) (w : Int) (s2 : State) : Prop where
  pop : heapPop s = some (t, w)
  upd : UpdateHeap t w = some s2
  inv : PrimInv steps s2
  root : s.vh[0]? = some w
  mid : HeapInv t
  data : SameData s t
  graph : SameGraph t s2
  permPop : (t.vh ++ [w]).Perm s.vh
  permUpd : s2.vh.Perm t.vh
  gone : idx t w = -1
  least : ∀ p ∈ s.vh, key s w ≤ key s p
  mono : ∀ p, key s2 p ≤ key t p

/-- From `p` one reaches the set `S` along edges of `T`. -/
inductive Hits (T : List Step) (S : Int → Prop) : Int → Prop
  | here {p : Int} : S p → Hits T S p
  | step {p q : Int} {e : Step} : e ∈ T → joins e p q → Hits T S q → Hits T S p

/-- The sum of the costs of a list of edges. -/
def weight (T : List Step) : Cost := (T.map (fun e => e.c)).sum

/-- Some edge of `T` joins `x` and `y`. -/
def Adj (T : List Step) (x y : Int) : Prop := ∃ e ∈ T, joins e x y

/-- The edges `T` connect every two vertices of the input `steps`. -/
def Connects (steps T : List Step) : Prop :=
  ∀ x y, Registered steps x → Registered steps y → Relation.ReflTransGen (Adj T) x y

/-- The vertices of the graph of an input, each once. -/
def vertices (steps : List Step) : List Int :=
  (steps.flatMap (fun e => [e.a, e.b])).dedup

/-- A spanning tree of the graph of `steps`: a choice of edges of the graph
(each edge of the input at most as often as the input has it), one fewer
than there are vertices, that connects all the vertices. -/
def IsSpanningTree (steps T : List Step) : Prop :=
  T.Subperm steps ∧ T.length + 1 = (vertices steps).length ∧ Connects steps T

/-- The run of the loop of `prim` from the state `s` on: the sum of the costs
of the vertices popped, and the states passed through. -/
inductive Run (steps : List Step) : State → Cost → List Snapshot → Prop
  | done {s : State} : s.vh = [] → Run steps s 0 []
  | step {s t s2 : State} {w : Int} {r : Cost} {tr : List Snapshot} :
      PrimStep steps s t w s2 → Run steps s2 r tr →
      Run steps s (key s w + r)
        (⟨Phase.afterPop, w, t⟩ :: ⟨Phase.afterUpdate, w, s2⟩ :: tr)

/-! ### The properties of the specification, on the records themselves -/

/-- The field `vh[i].CheapestEdge`. -/
def costAt (s : State) (i : Nat) : Option Cost :=
  (s.vh[i]?.bind s.deref).map (fun v => v.CheapestEdge)

/-- The field `vh[i].Index`. -/
def indexAt (s : State) (i : Nat) : Option Int :=
  (s.vh[i]?.bind s.deref).map (fun v => v.Index)

/-- The heap invariant: for every position `i > 0` of the array,
`vh[(i-1)/2].CheapestEdge <= vh[i].CheapestEdge`, and for every position `i`,
`vh[i].Index = i`. -/
def HeapInvariant (s : State) : Prop :=
  (∀ i, 0 < i → i < s.vh.length →
    ∃ a b, costAt s ((i - 1) / 2) = some a ∧ costAt s i = some b ∧ a ≤ b) ∧
  (∀ i, i < s.vh.length → indexAt s i = some (i : Int))

/-- The index bookkeeping of a state: a registered vertex has `Index >= 0`
exactly when it is in the heap array, and then `vh[Index]` is that vertex. -/
def IndexIff (s : State) : Prop :=
  ∀ p v, s.deref p = some v →
    ((0 ≤ v.Index ↔ p ∈ s.vh) ∧ (p ∈ s.vh → s.vh[v.Index.toNat]? = some p))

/-- The least element of a list of costs, `⊤` for the empty list. -/
def minCost (l : List Cost) : Cost := l.foldr min ⊤

/-- The costs of the edges of the input that join `p` to a vertex of `P`. -/
def costsInto (steps : List Step) (P : List Int) (p : Int) : List Cost :=
  (steps.filter (fun e => decide ((e.a = p ∧ e.b ∈ P) ∨ (e.b = p ∧ e.a ∈ P)))).map
    (fun e => e.c)

/-- The vertices popped up to and including the snapshot at position `k`. -/
def poppedUpTo (tr : List Snapshot) (k : Nat) : List Int :=
  (tr.take (k + 1)).map (fun x => x.popped)

/-- What holds of a state that a run from `s` passes through, `P` being the
vertices popped since `s`. -/
structure SnapOK (steps : List Step) (s : State) (P : List Int) (snap : Snapshot) : Prop where
  heap : HeapInv snap.st
  reg : ∀ p, (snap.st.deref p).isSome ↔ Registered steps p
  pop : ∀ u, popped steps snap.st u ↔ popped steps s u ∨ u ∈ P
  inv : snap.phase = Phase.afterUpdate → PrimInv steps snap.st
  last : snap.popped ∈ P

/-! ### Further views, for the frame and safety properties -/

/-- The vertex `p` is not in the heap array and its record is `d`. -/
def Outside (p : Int) (d : Option Vertex) (s : State) : Prop :=
  p ∉ s.vh ∧ s.deref p = d

/-- The list `EdgesTo` behind the pointer `p` (empty when `p` points to no
registered vertex). -/
def edgesTo (s : State) (p : Int) : List Edge :=
  match s.deref p with
  | some v => v.EdgesTo
  | none => []

/-- The list `EdgesFrom` behind the pointer `p` (empty when `p` points to no
registered vertex). -/
def edgesFrom (s : State) (p : Int) : List Edge :=
  match s.deref p with
  | some v => v.EdgesFrom
  | none => []

/-- The record of a vertex before a `connect` step touches it: the registered
one, or the one `readFile` creates for a new key. -/
def recordOr (s : State) (p : Int) : Vertex :=
  match s.deref p with
  | some v => v
  | none => freshVertex p

/-- The values `workingVertex.CheapestEdge` read right after each `heap.Pop`
of a run, in order; the first one is the one of the seed. -/
def popCosts (tr : List Snapshot) : List Cost :=
  (tr.filter (fun x => decide (x.phase = Phase.afterPop))).map (fun x => key x.st x.popped)

/-- The vertices that the calls of `heap.Pop` of a run returned, in order. -/
def pops (tr : List Snapshot) : List Int :=
  (tr.filter (fun x => decide (x.phase = Phase.afterPop))).map (fun x => x.popped)

/-- The calls `heap.Fix(vh, far.Index)` that a loop of `UpdateHeap` over the
(far endpoint, cost) pairs makes, as `relaxAll` runs it: for each call, the
state at the call (after the assignment `far.CheapestEdge = c`), the vertex
`far` just updated and the index `far.Index` passed. -/
def fixCalls : List (Int × Cost) → State → List (State × Int × Int)
  | [], _ => []
  | (far, c) :: rest, s =>
    match s.deref far with
    | none => []
    | some t =>
      if -1 < t.Index ∧ c < t.CheapestEdge then
        (s.setCheapestEdge far c, far, t.Index) ::
          (match Fix (s.setCheapestEdge far c) t.Index.toNat with
            | some s1 => fixCalls rest s1
            | none => [])
      else fixCalls rest s

/-- The calls of `heap.Fix` that `UpdateHeap(w)` makes from the state `s`. -/
def UpdateHeapFixCalls (s : State) (w : Int) : List (State × Int × Int) :=
  match s.deref w with
  | some v => fixCalls (incident v) s
  | none => []

/-- A call `heap.Fix(vh, i)` for the vertex `far` is in range: `0 <= i < len(vh)`,
`vh[i]` is `far`, and the call returns. -/
def FixCallOK (call : State × Int × Int) : Prop :=
  0 ≤ call.2.2 ∧ call.2.2.toNat < call.1.vh.length ∧
    call.1.vh[call.2.2.toNat]? = some call.2.1 ∧ (Fix call.1 call.2.2.toNat).isSome

/-- Two consecutive recorded states `a`, `b` of a run: when `b` follows a
`heap.Pop`, the heap of `a` was not empty and the call returned `b`; when `b`
follows an `UpdateHeap`, the call returned `b` and every `heap.Fix` it made
was in range. -/
def StepOK (a b : Snapshot) : Prop :=
  (b.phase = Phase.afterPop →
    0 < a.st.vh.length ∧ heapPop a.st = some (b.st, b.popped)) ∧
  (b.phase = Phase.afterUpdate →
    UpdateHeap a.st b.popped = some b.st ∧
      ∀ call ∈ UpdateHeapFixCalls a.st b.popped, FixCallOK call)

/-! ### The total as the `float64` it is

`prim` above adds the costs exactly.  The program adds them with the
`float64` operation `+=`, which rounds, overflows to an infinity and yields
`NaN` for `-Inf + +Inf`.  What follows is `prim` with that addition.  The
states that the loop passes through are the same for both, since they do not
depend on the running total. -/

/-- A `float64` value that a running total can take when the costs are
integers or `+Inf`: an integer, `+Inf`, `-Inf` or `NaN`.  The two zeros are
one value, as they are for `==` and `<`. -/
inductive F64 where
  | fin (x : ℤ)
  | posInf
  | negInf
  | nan
deriving DecidableEq

/-- The number of binary digits of `n`, for `n < 2^fuel`. -/
def bitLen : Nat → Nat → Nat
  | 0, _ => 0
  | fuel + 1, n => if n = 0 then 0 else bitLen fuel (n / 2) + 1

/-- Rounding of a natural number below `2^1024` to the 53 significant bits
of a `float64`, to nearest, ties to the even significand. -/
def roundNat (m : Nat) : Nat :=
  let b := bitLen 1024 m
  if b ≤ 53 then m
  else
    let k := b - 53
    let q := m / 2 ^ k
    let rem := m % 2 ^ k
    let half := 2 ^ (k - 1)
    if half < rem ∨ (rem = half ∧ q % 2 = 1) then (q + 1) * 2 ^ k else q * 2 ^ k

/-- The least magnitude that rounds to an infinity: `2^1024 - 2^970`, halfway
between the largest `float64`, `(2^53 - 1) * 2^971`, and `2^1024`. -/
def overflowF64 : Nat := (2 ^ 256) ^ 4 - (2 ^ 194) ^ 5

/-- The `float64` nearest to the integer `n` (IEEE 754 round to nearest, ties
to even), an infinity when the magnitude overflows. -/
def roundF64 (n : ℤ) : F64 :=
  if overflowF64 ≤ n.natAbs then (if n < 0 then F64.negInf else F64.posInf)
  else F64.fin (if n < 0 then -(roundNat n.natAbs : ℤ) else (roundNat n.natAbs : ℤ))

/-- The `float64` operation `+`: the exact sum, rounded. -/
def F64.add : F64 → F64 → F64
  | F64.nan, _ => F64.nan
  | _, F64.nan => F64.nan
  | F64.posInf, F64.negInf => F64.nan
  | F64.negInf, F64.posInf => F64.nan
  | F64.posInf, _ => F64.posInf
  | _, F64.posInf => F64.posInf
  | F64.negInf, _ => F64.negInf
  | _, F64.negInf => F64.negInf
  | F64.fin a, F64.fin b => roundF64 (a + b)

/-- A cost as the `float64` it stands for: `math.Inf(1)` for `⊤`, and the
integer itself, which is the value that `ParseFloat` returns for an integer
that is a `float64`. -/
def toF64 : Cost → F64
  | none => F64.posInf
  | some a => F64.fin a

/-- The loop `for vh.Len() > 0` of `prim`, with the running `MinSpanCost` as
a `float64`: `MinSpanCost += workingVertex.CheapestEdge`. -/
def primLoopFloat : Nat → State → F64 → Option F64
  | 0, _, _ => none
  | fuel + 1, s, acc =>
    if 0 < Len s then do
      let r ← heapPop s
      let v ← r.1.deref r.2
      let s2 ← UpdateHeap r.1 r.2
      primLoopFloat fuel s2 (F64.add acc (toF64 v.CheapestEdge))
    else some acc

/-- The function `prim`, with `MinSpanCost` as a `float64` that starts at
`0.0`. -/
def primFloat (s : State) : Option F64 := do
  let r ← heapPop s
  let s2 ← UpdateHeap r.1 r.2
  primLoopFloat (Len s2 + 1) s2 (F64.fin 0)

/-- The body of `main` after parsing, with the total as a `float64`. -/
def computeMSTFloat (steps : List Step) (order : List Int) : Option F64 := do
  let s ← makeVertexHeap (readFile steps) order
  primFloat s

/-- A running total that no negative cost has entered: an integer `>= 0` or
`+Inf`. -/
def NonNegF : F64 → Prop
  | F64.fin a => 0 ≤ a
  | F64.posInf => True
  | F64.negInf => False
  | F64.nan => False

/-! ### The registry -/

theorem lookup_some_ID {m : List Vertex} {p : Int} {v : Vertex} (h : lookup m p = some v) :
    v.ID = p := by
  have := List.find?_some h
  simpa using this

theorem lookup_map {m : List Vertex} {g : Vertex → Vertex} (hg : ∀ v, (g v).ID = v.ID)
    (p : Int) : lookup (m.map g) p = (lookup m p).map g := by
  induction m with
  | nil => rfl
  | cons a m ih =>
    unfold lookup at ih ⊢
    simp only [List.map_cons, List.find?_cons, hg]
    cases h : (a.ID == p) with
    | true => simp
    | false => simpa using ih

theorem lookup_modifyAt {m : List Vertex} {p q : Int} {f : Vertex → Vertex}
    (hf : ∀ v, (f v).ID = v.ID) :
    lookup (modifyAt m p f) q = if q = p then (lookup m q).map f else lookup m q := by
  unfold modifyAt
  rw [lookup_map (by intro v; split <;> simp [hf])]
  cases h : lookup m q with
  | none => simp
  | some v =>
    have hv := lookup_some_ID h
    by_cases hq : q = p
    · simp [hq, hv ▸ hq]
    · simp [hq, hv]

theorem map_modifyAt_of_eq {α : Type} {m : List Vertex} {p : Int} {f : Vertex → Vertex}
    {g : Vertex → α} (h : ∀ v, g (f v) = g v) : (modifyAt m p f).map g = m.map g := by
  unfold modifyAt
  rw [List.map_map]
  apply List.map_congr_left
  intro v _
  simp only [Function.comp]
  split <;> simp [h]

theorem deref_setIndex (s : State) (p q : Int) (i : Int) :
    (s.setIndex p i).deref q =
      if q = p then (s.deref q).map (fun v => { v with Index := i }) else s.deref q := by
  unfold State.deref State.setIndex
  exact lookup_modifyAt (by intro v; rfl)

theorem deref_setCheapestEdge (s : State) (p q : Int) (c : Cost) :
    (s.setCheapestEdge p c).deref q =
      if q = p then (s.deref q).map (fun v => { v with CheapestEdge := c }) else s.deref q := by
  unfold State.deref State.setCheapestEdge
  exact lookup_modifyAt (by intro v; rfl)

@[simp]
theorem vh_setIndex (s : State) (p : Int) (i : Int) : (s.setIndex p i).vh = s.vh := rfl

@[simp]
theorem vh_setCheapestEdge (s : State) (p : Int) (c : Cost) :
    (s.setCheapestEdge p c).vh = s.vh := rfl

theorem key_setIndex (s : State) (p q : Int) (i : Int) : key (s.setIndex p i) q = key s q := by
  unfold key
  rw [deref_setIndex]
  split_ifs with h
  · cases s.deref q <;> rfl
  · rfl

theorem idx_setIndex (s : State) (p q : Int) (i : Int) :
    idx (s.setIndex p i) q = if q = p ∧ (s.deref p).isSome then i else idx s q := by
  unfold idx
  rw [deref_setIndex]
  by_cases h : q = p
  · subst h
    cases s.deref q <;> simp
  · simp [h]

theorem key_setCheapestEdge (s : State) (p q : Int) (c : Cost) :
    key (s.setCheapestEdge p c) q = if q = p ∧ (s.deref p).isSome then c else key s q := by
  unfold key
  rw [deref_setCheapestEdge]
  by_cases h : q = p
  · subst h
    cases s.deref q <;> simp
  · simp [h]

theorem idx_setCheapestEdge (s : State) (p q : Int) (c : Cost) :
    idx (s.setCheapestEdge p c) q = idx s q := by
  unfold idx
  rw [deref_setCheapestEdge]
  split_ifs with h
  · cases s.deref q <;> rfl
  · rfl

theorem deref_isSome_of_idx {s : State} {p : Int} (h : idx s p ≠ -1) : (s.deref p).isSome := by
  unfold idx at h
  cases hd : s.deref p with
  | none => simp [hd] at h
  | some v => rfl

theorem SameData.same_refl (s : State) : SameData s s := rfl

theorem SameData.same_trans {s t u : State} (h1 : SameData s t) (h2 : SameData t u) :
    SameData s u := by
  unfold SameData at *
  rw [h2, h1]

theorem SameData.setIndex (s : State) (p : Int) (i : Int) : SameData s (s.setIndex p i) := by
  unfold SameData State.setIndex
  exact map_modifyAt_of_eq (by intro v; rfl)

theorem SameData.deref_eq {s t : State} (h : SameData s t) (p : Int) :
    (t.deref p).map eraseIndex = (s.deref p).map eraseIndex := by
  unfold SameData at h
  unfold State.deref
  rw [← lookup_map (by intro v; rfl), ← lookup_map (by intro v; rfl), h]

theorem SameData.key_eq {s t : State} (h : SameData s t) (p : Int) : key t p = key s p := by
  have := h.deref_eq p
  unfold Prim.key
  cases h1 : t.deref p <;> cases h2 : s.deref p <;> simp [h1, h2] at this ⊢
  exact congrArg (fun v => v.CheapestEdge) this

theorem SameData.isSome_eq {s t : State} (h : SameData s t) (p : Int) :
    (t.deref p).isSome = (s.deref p).isSome := by
  have := h.deref_eq p
  cases h1 : t.deref p <;> cases h2 : s.deref p <;> simp [h1, h2] at this ⊢

/-! ### `Less` and `Swap` -/

theorem Swap_some_iff {s t : State} {i j : Nat} :
    Swap s i j = some t ↔ ∃ a b, s.vh[i]? = some a ∧ s.vh[j]? = some b ∧
      t = (({ s with vh := (s.vh.set i b).set j a } : State).setIndex b i).setIndex a j := by
  unfold Swap
  cases ha : s.vh[i]? with
  | none => simp
  | some a =>
    cases hb : s.vh[j]? with
    | none => simp
    | some b =>
      simp only [Option.bind_eq_bind, Option.some_bind, Option.pure_def, Option.some.injEq]
      constructor
      · intro h; exact ⟨a, b, rfl, rfl, h.symm⟩
      · rintro ⟨a', b', h1, h2, h3⟩
        cases h1; cases h2; exact h3.symm

theorem getElem?_lt {l : List Int} {i : Nat} {a : Int} (h : l[i]? = some a) : i < l.length := by
  by_contra hc
  rw [List.getElem?_eq_none (by omega)] at h
  cases h

theorem Swap_vh_getElem? {s t : State} {i j : Nat} {a b : Int} (h : Swap s i j = some t)
    (ha : s.vh[i]? = some a) (hb : s.vh[j]? = some b) (k : Nat) :
    t.vh[k]? = if k = j then some a else if k = i then some b else s.vh[k]? := by
  obtain ⟨a', b', ha', hb', rfl⟩ := Swap_some_iff.1 h
  rw [ha] at ha'; rw [hb] at hb'; cases ha'; cases hb'
  have hi := getElem?_lt ha
  have hj := getElem?_lt hb
  simp only [vh_setIndex, List.getElem?_set, List.length_set]
  by_cases h1 : k = j
  · simp [h1, hj]
  · by_cases h2 : k = i
    · subst h2
      simp [h1, Ne.symm h1, hi]
    · simp [h1, h2, Ne.symm h1, Ne.symm h2]

theorem Swap_length {s t : State} {i j : Nat} (h : Swap s i j = some t) :
    t.vh.length = s.vh.length := by
  obtain ⟨a, b, _, _, rfl⟩ := Swap_some_iff.1 h
  simp

theorem Swap_sameData {s t : State} {i j : Nat} (h : Swap s i j = some t) : SameData s t := by
  obtain ⟨a, b, _, _, rfl⟩ := Swap_some_iff.1 h
  exact SameData.same_trans (SameData.setIndex _ b i) (SameData.setIndex _ a j)

theorem Swap_perm {s t : State} {i j : Nat} (h : Swap s i j = some t) : t.vh.Perm s.vh := by
  obtain ⟨a, b, ha, hb, rfl⟩ := Swap_some_iff.1 h
  have hi := getElem?_lt ha
  have hj := getElem?_lt hb
  have hia : s.vh[i] = a := by
    rw [List.getElem?_eq_getElem hi] at ha; exact Option.some.inj ha
  have hjb : s.vh[j] = b := by
    rw [List.getElem?_eq_getElem hj] at hb; exact Option.some.inj hb
  simp only [vh_setIndex]
  rw [List.perm_iff_count]
  intro x
  rw [List.count_set _ _ _ _ (by simpa using hj), List.count_set _ _ _ _ hi]
  have hca : 0 < s.vh.count a := List.count_pos_iff.2 (hia ▸ List.getElem_mem hi)
  have hcb : 0 < s.vh.count b := List.count_pos_iff.2 (hjb ▸ List.getElem_mem hj)
  rw [List.getElem_set, hia]
  by_cases hij : i = j
  · subst hij
    have hab : a = b := hia.symm.trans hjb
    subst hab
    by_cases hx : a = x
    · subst hx; simp; omega
    · simp [hx]
  · simp only [hij, if_false, hjb]
    by_cases hxa : a = x <;> by_cases hxb : b = x
    · subst hxa; subst hxb; simp; omega
    · subst hxa; simp [hxb]; omega
    · subst hxb; simp [hxa]
    · simp [hxa, hxb]

theorem Swap_mem {s t : State} {i j : Nat} (h : Swap s i j = some t) (p : Int) :
    p ∈ t.vh ↔ p ∈ s.vh := (Swap_perm h).mem_iff

theorem Swap_key {s t : State} {i j : Nat} (h : Swap s i j = some t) (p : Int) :
    key t p = key s p := (Swap_sameData h).key_eq p

theorem Swap_kat {s t : State} {i j : Nat} (h : Swap s i j = some t) :
    kat t = swapFn (kat s) i j := by
  obtain ⟨a, b, ha, hb, _⟩ := Swap_some_iff.1 h
  funext k
  unfold kat swapFn
  rw [Swap_vh_getElem? h ha hb k]
  simp only [Swap_key h]
  by_cases h1 : k = j
  · by_cases h2 : k = i
    · subst h1; subst h2; simp [ha]
    · subst h1; simp [h2, ha]
  · by_cases h2 : k = i
    · subst h2; simp [h1, hb]
    · simp [h1, h2]

theorem PosOK.nodup {s : State} (h : PosOK s) : s.vh.Nodup := by
  rw [List.nodup_iff_getElem?_ne_getElem?]
  intro i j hij hj heq
  have hi : i < s.vh.length := by omega
  have h1 := h i (s.vh[i]) (List.getElem?_eq_getElem hi)
  have h2 := h j (s.vh[i]) (by rw [← heq]; exact List.getElem?_eq_getElem hi)
  omega

theorem PosOK.pos_isSome {s : State} (h : PosOK s) {i : Nat} {p : Int} (hp : s.vh[i]? = some p) :
    (s.deref p).isSome := by
  apply deref_isSome_of_idx
  rw [h i p hp]
  omega

theorem PosOK.inj {s : State} (h : PosOK s) {i j : Nat} {p : Int} (hi : s.vh[i]? = some p)
    (hj : s.vh[j]? = some p) : i = j := by
  have h1 := h i p hi
  have h2 := h j p hj
  omega

theorem Swap_idx {s t : State} {i j : Nat} {a b : Int} (h : Swap s i j = some t)
    (ha : s.vh[i]? = some a) (hb : s.vh[j]? = some b) (hpos : PosOK s) (p : Int) :
    idx t p = if p = a then (j : Int) else if p = b then (i : Int) else idx s p := by
  obtain ⟨a', b', ha', hb', rfl⟩ := Swap_some_iff.1 h
  rw [ha] at ha'; rw [hb] at hb'; cases ha'; cases hb'
  have hra := hpos.pos_isSome ha
  have hrb := hpos.pos_isSome hb
  rw [idx_setIndex, idx_setIndex]
  have hra' : ((({ s with vh := (s.vh.set i b).set j a } : State).setIndex b ↑i).deref a).isSome := by
    rw [(SameData.setIndex _ b i).isSome_eq]; exact hra
  have hrb' : (({ s with vh := (s.vh.set i b).set j a } : State).deref b).isSome := hrb
  simp only [hra', hrb', and_true]
  rfl

theorem Swap_posOK {s t : State} {i j : Nat} (h : Swap s i j = some t) (hpos : PosOK s) :
    PosOK t := by
  obtain ⟨a, b, ha, hb, _⟩ := Swap_some_iff.1 h
  intro k p hk
  rw [Swap_vh_getElem? h ha hb k] at hk
  rw [Swap_idx h ha hb hpos]
  by_cases h1 : k = j
  · rw [if_pos h1] at hk; cases hk; simp [h1]
  · rw [if_neg h1] at hk
    by_cases h2 : k = i
    · rw [if_pos h2] at hk; cases hk
      by_cases hab : b = a
      · subst hab
        have := hpos.inj ha hb
        simp; omega
      · simp [hab, h2]
    · rw [if_neg h2] at hk
      have hpa : p ≠ a := fun e => h2 (hpos.inj hk (e ▸ ha))
      have hpb : p ≠ b := fun e => h1 (hpos.inj hk (e ▸ hb))
      simp [hpa, hpb, hpos k p hk]

theorem Swap_outOK {s t : State} {i j : Nat} (h : Swap s i j = some t) (hpos : PosOK s)
    (hout : OutOK s) : OutOK t := by
  obtain ⟨a, b, ha, hb, _⟩ := Swap_some_iff.1 h
  intro p hp
  rw [Swap_mem h] at hp
  rw [Swap_idx h ha hb hpos]
  have hpa : p ≠ a := fun e => hp (e ▸ List.getElem?_mem ha)
  have hpb : p ≠ b := fun e => hp (e ▸ List.getElem?_mem hb)
  simp [hpa, hpb, hout p hp]

theorem Swap_isSome {s : State} {i j : Nat} (hi : i < s.vh.length) (hj : j < s.vh.length) :
    ∃ t, Swap s i j = some t := by
  refine ⟨_, Swap_some_iff.2 ⟨s.vh[i], s.vh[j], List.getElem?_eq_getElem hi,
    List.getElem?_eq_getElem hj, rfl⟩⟩

theorem Less_eq {s : State} {i j : Nat} (hpos : PosOK s) (hi : i < s.vh.length)
    (hj : j < s.vh.length) : Less s i j = some (decide (kat s i < kat s j)) := by
  have h1 := List.getElem?_eq_getElem hi
  have h2 := List.getElem?_eq_getElem hj
  have r1 := hpos.pos_isSome h1
  have r2 := hpos.pos_isSome h2
  unfold Less kat key
  rw [h1, h2]
  cases d1 : s.deref s.vh[i] with
  | none => simp [d1] at r1
  | some va =>
    cases d2 : s.deref s.vh[j] with
    | none => simp [d2] at r2
    | some vb => simp [d1, d2]

/-! ### Heap order on cost arrays -/

theorem down_step {K : Nat → Cost} {lo n i j : Nat} (hD : DownInv K lo n i) (hlo : lo ≤ i)
    (hj : j = 2 * i + 1 ∨ j = 2 * i + 2) (hjn : j < n) (hlt : K j < K i)
    (hmin : ∀ c, 0 < c → c < n → (c - 1) / 2 = i → K j ≤ K c) :
    DownInv (swapFn K i j) lo n j := by
  obtain ⟨hD1, hD2⟩ := hD
  have hji : (j - 1) / 2 = i := by omega
  have hj0 : 0 < j := by omega
  constructor
  · intro c hc0 hcn hloc hpc
    by_cases h1 : (c - 1) / 2 = i
    · have hci : c ≠ i := by omega
      by_cases h2 : c = j
      · subst h2
        simp only [swapFn, h1, if_true, hci, if_false]
        exact le_of_lt hlt
      · simp only [swapFn, h1, if_true, hci, h2, if_false]
        exact hmin c hc0 hcn h1
    · have hcj : c ≠ j := by
        intro e; subst e; exact h1 hji
      by_cases h2 : c = i
      · subst h2
        simp only [swapFn, h1, hpc, if_false, if_true]
        exact hD2 j hj0 hjn hji hc0 hloc
      · simp only [swapFn, h1, hpc, h2, hcj, if_false]
        exact hD1 c hc0 hcn hloc h1
  · intro c hc0 hcn hpc hj0' hloj
    have hci : c ≠ i := by omega
    have hcj : c ≠ j := by omega
    simp only [swapFn, hji, if_true, hci, hcj, if_false]
    have := hD1 c hc0 hcn (by omega) (by omega)
    rwa [hpc] at this


theorem down_done {K : Nat → Cost} {lo n i : Nat} (hD : DownInv K lo n i)
    (hle : ∀ c, 0 < c → c < n → (c - 1) / 2 = i → K i ≤ K c) : HeapOn K lo n := by
  intro c hc0 hcn hloc
  by_cases h1 : (c - 1) / 2 = i
  · rw [h1]; exact hle c hc0 hcn h1
  · exact hD.1 c hc0 hcn hloc h1

theorem up_step {K : Nat → Cost} {n j : Nat} (hU : UpInv K n j) (hj0 : 0 < j) (hjn : j < n)
    (hlt : K j < K ((j - 1) / 2)) : UpInv (swapFn K ((j - 1) / 2) j) n ((j - 1) / 2) := by
  obtain ⟨hU1, hU2⟩ := hU
  have hij : (j - 1) / 2 ≠ j := by omega
  constructor
  · intro c hc0 hcn hci
    by_cases h1 : c = j
    · subst h1
      simp only [swapFn, if_true, hij, if_false]
      simp only [Ne.symm hij, if_false, if_true]
      exact le_of_lt hlt
    · by_cases h2 : (c - 1) / 2 = (j - 1) / 2
      · simp only [swapFn, h2, if_true, hci, h1, if_false]
        have := hU1 c hc0 hcn h1
        rw [h2] at this
        exact le_trans (le_of_lt hlt) this
      · by_cases h3 : (c - 1) / 2 = j
        · simp only [swapFn, h3, hij, Ne.symm hij, hci, h1, if_false, if_true]
          exact hU2 c hc0 hcn h3 hj0
        · simp only [swapFn, h2, h3, hci, h1, if_false]
          exact hU1 c hc0 hcn h1
  · intro c hc0 hcn hpc hi0
    have hpi : (((j - 1) / 2) - 1) / 2 ≠ (j - 1) / 2 := by omega
    have hpj : (((j - 1) / 2) - 1) / 2 ≠ j := by omega
    have hci : c ≠ (j - 1) / 2 := by omega
    have hparent := hU1 ((j - 1) / 2) hi0 (by omega) hij
    by_cases h1 : c = j
    · subst h1
      simp only [swapFn, hpi, hpj, hij, Ne.symm hij, if_false, if_true]
      exact hparent
    · simp only [swapFn, hpi, hpj, hci, h1, if_false]
      have := hU1 c hc0 hcn h1
      rw [hpc] at this
      exact le_trans hparent this

theorem up_done {K : Nat → Cost} {n j : Nat} (hU : UpInv K n j)
    (h : j = 0 ∨ K ((j - 1) / 2) ≤ K j) : HeapOn K 0 n := by
  intro c hc0 hcn _
  by_cases h1 : c = j
  · subst h1
    rcases h with h | h
    · omega
    · exact h
  · exact hU.1 c hc0 hcn h1

theorem HeapOn.upInv {K : Nat → Cost} {n : Nat} (h : HeapOn K 0 n) (j : Nat) : UpInv K n j := by
  constructor
  · intro c hc0 hcn _
    exact h c hc0 hcn (Nat.zero_le _)
  · intro c hc0 hcn hpc hj0
    have h1 := h c hc0 hcn (Nat.zero_le _)
    have h2 := h j hj0 (by omega) (Nat.zero_le _)
    rw [hpc] at h1
    exact le_trans h2 h1

theorem HeapOn.root_le {K : Nat → Cost} {n : Nat} (h : HeapOn K 0 n) :
    ∀ c, c < n → K 0 ≤ K c := by
  intro c
  induction c using Nat.strong_induction_on with
  | _ c ih =>
    intro hcn
    by_cases hc0 : c = 0
    · subst hc0; exact le_refl _
    · have h1 := h c (by omega) hcn (Nat.zero_le _)
      have h2 := ih ((c - 1) / 2) (by omega) (by omega)
      exact le_trans h2 h1

theorem minChild_cases (K : Nat → Cost) (n i : Nat) :
    minChild K n i = 2 * i + 1 ∨ minChild K n i = 2 * i + 2 := by
  unfold minChild
  split_ifs <;> simp

theorem minChild_lt {K : Nat → Cost} {n i : Nat} (h : 2 * i + 1 < n) : minChild K n i < n := by
  unfold minChild
  split_ifs with h1
  · exact h1.1
  · exact h

theorem minChild_le {K : Nat → Cost} {n i : Nat} :
    ∀ c, 0 < c → c < n → (c - 1) / 2 = i → K (minChild K n i) ≤ K c := by
  intro c hc0 hcn hpc
  have hc : c = 2 * i + 1 ∨ c = 2 * i + 2 := by omega
  unfold minChild
  split_ifs with h1
  · rcases hc with hc | hc
    · subst hc; exact le_of_lt h1.2
    · subst hc; exact le_refl _
  · rcases hc with hc | hc
    · subst hc; exact le_refl _
    · subst hc
      have : ¬ K (2 * i + 2) < K (2 * i + 1) := fun h => h1 ⟨hcn, h⟩
      exact not_lt.1 this

/-! ### The loops of `down` and `up` -/

theorem downLoop_ge {n f : Nat} {s : State} {i : Nat} (h : n ≤ 2 * i + 1) :
    downLoop n (f + 1) s i = some (s, i) := by
  rw [downLoop]
  simp [h]

theorem downLoop_succ {n f : Nat} {s : State} {i : Nat} (hpos : PosOK s)
    (hn : n ≤ s.vh.length) (h : 2 * i + 1 < n) :
    downLoop n (f + 1) s i =
      if kat s (minChild (kat s) n i) < kat s i then
        (Swap s i (minChild (kat s) n i)).bind
          (fun s1 => downLoop n f s1 (minChild (kat s) n i))
      else some (s, i) := by
  rw [downLoop]
  simp only [not_le.2 h, if_false]
  have hi : i < s.vh.length := by omega
  have hj1 : 2 * i + 1 < s.vh.length := by omega
  by_cases h2 : 2 * i + 1 + 1 < n
  · have hj2 : 2 * i + 1 + 1 < s.vh.length := by omega
    rw [if_pos h2, Less_eq hpos hj2 hj1]
    simp only [Option.bind_eq_bind, Option.some_bind]
    have hm : (if decide (kat s (2 * i + 1 + 1) < kat s (2 * i + 1)) = true then 2 * i + 1 + 1
        else 2 * i + 1) = minChild (kat s) n i := by
      unfold minChild
      by_cases h3 : kat s (2 * i + 1 + 1) < kat s (2 * i + 1)
      · rw [if_pos (by simpa using h3), if_pos ⟨h2, h3⟩]
      · rw [if_neg (by simpa using h3), if_neg (fun h => h3 h.2)]
    rw [hm]
    have hmn : minChild (kat s) n i < s.vh.length := by
      have := @minChild_lt (kat s) n i h; omega
    rw [Less_eq hpos hmn hi]
    simp only [Option.some_bind, decide_eq_true_eq]
  · rw [if_neg h2]
    simp only [Option.bind_eq_bind, Option.some_bind]
    have hm : (2 * i + 1) = minChild (kat s) n i := by
      unfold minChild
      rw [if_neg (fun h => h2 h.1)]
    simp only [Bool.false_eq_true, if_false]
    rw [hm]
    have hmn : minChild (kat s) n i < s.vh.length := by
      have := @minChild_lt (kat s) n i h; omega
    rw [Less_eq hpos hmn hi]
    simp only [Option.some_bind, decide_eq_true_eq]

theorem upLoop_zero {f : Nat} {s : State} : upLoop (f + 1) s 0 = some s := by
  rw [upLoop]
  simp

theorem upLoop_succ {f : Nat} {s : State} {j : Nat} (hpos : PosOK s) (hj0 : 0 < j)
    (hj : j < s.vh.length) :
    upLoop (f + 1) s j =
      if kat s j < kat s ((j - 1) / 2) then
        (Swap s ((j - 1) / 2) j).bind (fun s1 => upLoop f s1 ((j - 1) / 2))
      else some s := by
  rw [upLoop]
  have hij : (j - 1) / 2 ≠ j := by omega
  simp only [hij, if_false]
  rw [Less_eq hpos hj (by omega)]
  simp only [Option.bind_eq_bind, Option.some_bind, decide_eq_true_eq]

theorem HeapRel.rel_refl {s : State} (h : PosOK s) : HeapRel s s :=
  ⟨SameData.same_refl s, List.Perm.refl _, h, id⟩

theorem HeapRel.rel_trans {s t u : State} (h1 : HeapRel s t) (h2 : HeapRel t u) : HeapRel s u :=
  ⟨h1.1.same_trans h2.1, h2.2.1.trans h1.2.1, h2.2.2.1, fun h => h2.2.2.2 (h1.2.2.2 h)⟩

theorem Swap_heapRel {s t : State} {i j : Nat} (h : Swap s i j = some t) (hpos : PosOK s) :
    HeapRel s t :=
  ⟨Swap_sameData h, Swap_perm h, Swap_posOK h hpos, Swap_outOK h hpos⟩

theorem HeapRel.rel_length {s t : State} (h : HeapRel s t) : t.vh.length = s.vh.length :=
  h.2.1.length_eq

theorem HeapRel.rel_key {s t : State} (h : HeapRel s t) (p : Int) : key t p = key s p :=
  h.1.key_eq p

theorem downLoop_rel (n : Nat) : ∀ (f : Nat) (s : State) (i : Nat), n < f + i → 0 < f →
    n ≤ s.vh.length → PosOK s →
    ∃ t i', downLoop n f s i = some (t, i') ∧ i ≤ i' ∧ HeapRel s t ∧
      (∀ k, n ≤ k → t.vh[k]? = s.vh[k]?) ∧ (i' = i → t = s) := by
  intro f
  induction f with
  | zero => intro s i _ h; omega
  | succ f ih =>
    intro s i hf _ hn hpos
    by_cases h1 : n ≤ 2 * i + 1
    · exact ⟨s, i, downLoop_ge h1, le_refl _, HeapRel.rel_refl hpos, fun _ _ => rfl, fun _ => rfl⟩
    · have h1' : 2 * i + 1 < n := by omega
      rw [downLoop_succ hpos hn h1']
      have hmn := @minChild_lt (kat s) n i h1'
      have hmc := minChild_cases (kat s) n i
      by_cases h2 : kat s (minChild (kat s) n i) < kat s i
      · rw [if_pos h2]
        obtain ⟨s1, hs1⟩ := @Swap_isSome s i (minChild (kat s) n i) (by omega) (by omega)
        rw [hs1]
        simp only [Option.some_bind]
        have hrel := Swap_heapRel hs1 hpos
        obtain ⟨t, i', ht, hle, hrel', htail, _⟩ :=
          ih s1 (minChild (kat s) n i) (by omega) (by omega) (by rw [hrel.rel_length]; exact hn)
            hrel.2.2.1
        refine ⟨t, i', ht, by omega, hrel.rel_trans hrel', ?_, by intro h; omega⟩
        intro k hk
        rw [htail k hk]
        obtain ⟨a, b, ha, hb, _⟩ := Swap_some_iff.1 hs1
        rw [Swap_vh_getElem? hs1 ha hb k, if_neg (by omega), if_neg (by omega)]
      · rw [if_neg h2]
        exact ⟨s, i, rfl, le_refl _, HeapRel.rel_refl hpos, fun _ _ => rfl, fun _ => rfl⟩

theorem downLoop_heap (n lo : Nat) : ∀ (f : Nat) (s : State) (i : Nat) (t : State) (i' : Nat),
    n ≤ s.vh.length → PosOK s → lo ≤ i → DownInv (kat s) lo n i →
    downLoop n f s i = some (t, i') → HeapOn (kat t) lo n := by
  intro f
  induction f with
  | zero => intro s i t i' _ _ _ _ h; simp [downLoop] at h
  | succ f ih =>
    intro s i t i' hn hpos hlo hD h
    by_cases h1 : n ≤ 2 * i + 1
    · rw [downLoop_ge h1] at h
      cases h
      exact down_done hD (by intro c hc0 hcn hpc; omega)
    · have h1' : 2 * i + 1 < n := by omega
      rw [downLoop_succ hpos hn h1'] at h
      have hmn := @minChild_lt (kat s) n i h1'
      have hmc := minChild_cases (kat s) n i
      by_cases h2 : kat s (minChild (kat s) n i) < kat s i
      · rw [if_pos h2] at h
        obtain ⟨s1, hs1⟩ := @Swap_isSome s i (minChild (kat s) n i) (by omega) (by omega)
        rw [hs1] at h
        simp only [Option.some_bind] at h
        have hrel := Swap_heapRel hs1 hpos
        refine ih s1 _ t i' (by rw [hrel.rel_length]; exact hn) hrel.2.2.1 (by omega) ?_ h
        rw [Swap_kat hs1]
        exact down_step hD hlo hmc hmn h2 minChild_le
      · rw [if_neg h2] at h
        cases h
        refine down_done hD ?_
        intro c hc0 hcn hpc
        exact le_trans (not_lt.1 h2) (minChild_le c hc0 hcn hpc)

theorem upLoop_rel : ∀ (f : Nat) (s : State) (j : Nat), j < f → j < s.vh.length → PosOK s →
    ∃ t, upLoop f s j = some t ∧ HeapRel s t := by
  intro f
  induction f with
  | zero => intro s j h; omega
  | succ f ih =>
    intro s j hf hj hpos
    by_cases hj0 : j = 0
    · subst hj0
      exact ⟨s, upLoop_zero, HeapRel.rel_refl hpos⟩
    · rw [upLoop_succ hpos (by omega) hj]
      by_cases h2 : kat s j < kat s ((j - 1) / 2)
      · rw [if_pos h2]
        obtain ⟨s1, hs1⟩ := @Swap_isSome s ((j - 1) / 2) j (by omega) hj
        rw [hs1]
        simp only [Option.some_bind]
        have hrel := Swap_heapRel hs1 hpos
        obtain ⟨t, ht, hrel'⟩ := ih s1 ((j - 1) / 2) (by omega) (by rw [hrel.rel_length]; omega)
          hrel.2.2.1
        exact ⟨t, ht, hrel.rel_trans hrel'⟩
      · rw [if_neg h2]
        exact ⟨s, rfl, HeapRel.rel_refl hpos⟩

theorem upLoop_heap : ∀ (f : Nat) (s : State) (j : Nat) (t : State),
    j < s.vh.length → PosOK s → UpInv (kat s) s.vh.length j →
    upLoop f s j = some t → HeapOn (kat t) 0 t.vh.length := by
  intro f
  induction f with
  | zero => intro s j t _ _ _ h; simp [upLoop] at h
  | succ f ih =>
    intro s j t hj hpos hU h
    by_cases hj0 : j = 0
    · subst hj0
      rw [upLoop_zero] at h
      cases h
      exact up_done hU (Or.inl rfl)
    · rw [upLoop_succ hpos (by omega) hj] at h
      by_cases h2 : kat s j < kat s ((j - 1) / 2)
      · rw [if_pos h2] at h
        obtain ⟨s1, hs1⟩ := @Swap_isSome s ((j - 1) / 2) j (by omega) hj
        rw [hs1] at h
        simp only [Option.some_bind] at h
        have hrel := Swap_heapRel hs1 hpos
        refine ih s1 _ t (by rw [hrel.rel_length]; omega) hrel.2.2.1 ?_ h
        rw [Swap_kat hs1, hrel.rel_length]
        exact up_step hU (by omega) hj h2
      · rw [if_neg h2] at h
        cases h
        exact up_done hU (Or.inr (not_lt.1 h2))

/-! ### `down`, `up`, `Fix`, `Init` -/

theorem down_rel {s : State} {n : Nat} (i0 : Nat) (hn : n ≤ s.vh.length) (hpos : PosOK s) :
    ∃ t b, down s i0 n = some (t, b) ∧ HeapRel s t ∧
      (∀ k, n ≤ k → t.vh[k]? = s.vh[k]?) ∧ (b = false → t = s) := by
  obtain ⟨t, i', h, hle, hrel, htail, hsame⟩ :=
    downLoop_rel n (n + 1) s i0 (by omega) (by omega) hn hpos
  refine ⟨t, decide (i0 < i'), ?_, hrel, htail, ?_⟩
  · unfold down
    rw [h]
    rfl
  · intro hb
    apply hsame
    have : ¬ i0 < i' := by simpa using hb
    omega

theorem down_heap {s t : State} {n lo i0 : Nat} {b : Bool} (hn : n ≤ s.vh.length)
    (hpos : PosOK s) (hlo : lo ≤ i0) (hD : DownInv (kat s) lo n i0)
    (h : down s i0 n = some (t, b)) : HeapOn (kat t) lo n := by
  unfold down at h
  cases hl : downLoop n (n + 1) s i0 with
  | none => simp [hl] at h
  | some r =>
    rw [hl] at h
    simp only [Option.bind_eq_bind, Option.some_bind, Option.pure_def, Option.some.injEq,
      Prod.mk.injEq] at h
    obtain ⟨rfl, _⟩ := h
    exact downLoop_heap n lo (n + 1) s i0 r.1 r.2 hn hpos hlo hD hl

theorem down_noop {s : State} {n i0 : Nat} (hn : n ≤ s.vh.length) (hpos : PosOK s)
    (hle : ∀ c, 0 < c → c < n → (c - 1) / 2 = i0 → kat s i0 ≤ kat s c) :
    down s i0 n = some (s, false) := by
  unfold down
  by_cases h1 : n ≤ 2 * i0 + 1
  · rw [downLoop_ge h1]
    simp
  · have h1' : 2 * i0 + 1 < n := by omega
    rw [downLoop_succ hpos hn h1']
    have hmn := @minChild_lt (kat s) n i0 h1'
    have hmc := minChild_cases (kat s) n i0
    have := hle (minChild (kat s) n i0) (by omega) hmn (by omega)
    rw [if_neg (not_lt.2 this)]
    simp

theorem up_rel {s : State} {j : Nat} (hj : j < s.vh.length) (hpos : PosOK s) :
    ∃ t, up s j = some t ∧ HeapRel s t :=
  upLoop_rel (j + 1) s j (by omega) hj hpos

theorem up_heap {s t : State} {j : Nat} (hj : j < s.vh.length) (hpos : PosOK s)
    (hU : UpInv (kat s) s.vh.length j) (h : up s j = some t) :
    HeapOn (kat t) 0 t.vh.length :=
  upLoop_heap (j + 1) s j t hj hpos hU h

theorem Fix_lowered {s : State} {i : Nat} (hi : i < s.vh.length) (hpos : PosOK s)
    (hU : UpInv (kat s) s.vh.length i)
    (hle : ∀ c, 0 < c → c < s.vh.length → (c - 1) / 2 = i → kat s i ≤ kat s c) :
    ∃ t, Fix s i = some t ∧ up s i = some t ∧ HeapRel s t ∧ HeapOn (kat t) 0 t.vh.length := by
  obtain ⟨t, ht, hrel⟩ := up_rel hi hpos
  refine ⟨t, ?_, ht, hrel, up_heap hi hpos hU ht⟩
  unfold Fix Len
  rw [down_noop (le_refl _) hpos hle]
  simpa using ht

theorem InitLoop_spec (n : Nat) : ∀ (k : Nat) (s : State), n = s.vh.length → PosOK s →
    HeapOn (kat s) k n → ∃ t, InitLoop n k s = some t ∧ HeapRel s t ∧ HeapOn (kat t) 0 n := by
  intro k
  induction k with
  | zero =>
    intro s _ hpos hh
    exact ⟨s, rfl, HeapRel.rel_refl hpos, hh⟩
  | succ k ih =>
    intro s hn hpos hh
    obtain ⟨t, b, hd, hrel, _, _⟩ := down_rel (n := n) k (by omega) hpos
    have hD : DownInv (kat s) k n k := by
      constructor
      · intro c hc0 hcn hlo hne
        exact hh c hc0 hcn (by omega)
      · intro c hc0 hcn hpc hk0 hlo
        omega
    have hheap := down_heap (by omega) hpos (le_refl k) hD hd
    obtain ⟨u, hu, hrel', hheap'⟩ := ih t (by rw [hrel.rel_length]; exact hn) hrel.2.2.1 hheap
    refine ⟨u, ?_, hrel.rel_trans hrel', hheap'⟩
    rw [InitLoop, hd]
    exact hu

theorem Init_spec {s : State} (hpos : PosOK s) :
    ∃ t, Init s = some t ∧ HeapRel s t ∧ HeapOn (kat t) 0 t.vh.length := by
  obtain ⟨t, ht, hrel, hh⟩ := InitLoop_spec s.vh.length (s.vh.length / 2) s rfl hpos (by
    intro c hc0 hcn hlo
    omega)
  refine ⟨t, ht, hrel, ?_⟩
  rw [hrel.rel_length]
  exact hh

/-! ### `heap.Pop` -/

theorem VertexHeapPop_eq {s : State} {n : Nat} {w : Int} (hlen : s.vh.length = n + 1)
    (hw : s.vh[n]? = some w) :
    VertexHeap.Pop s = some ({ s.setIndex w (-1) with vh := s.vh.take n }, w) := by
  unfold VertexHeap.Pop
  simp [hlen, hw]

theorem kat_eq_key {s : State} {i : Nat} {p : Int} (h : s.vh[i]? = some p) :
    kat s i = key s p := by
  unfold kat
  rw [h]

theorem heapPop_spec {s : State} (hpos : PosOK s) (hheap : HeapOn (kat s) 0 s.vh.length)
    (hne : 0 < s.vh.length) :
    ∃ t w, heapPop s = some (t, w) ∧ s.vh[0]? = some w ∧ SameData s t ∧
      (t.vh ++ [w]).Perm s.vh ∧ PosOK t ∧ HeapOn (kat t) 0 t.vh.length ∧
      (OutOK s → OutOK t) ∧ idx t w = -1 ∧ (∀ p ∈ s.vh, key s w ≤ key s p) := by
  obtain ⟨n, hn⟩ : ∃ n, s.vh.length = n + 1 := ⟨s.vh.length - 1, by omega⟩
  have hw : s.vh[0]? = some s.vh[0] := List.getElem?_eq_getElem hne
  have hl : s.vh[n]? = some s.vh[n] := List.getElem?_eq_getElem (by omega)
  generalize s.vh[0] = w at hw
  generalize s.vh[n] = l at hl
  obtain ⟨s1, hs1⟩ := @Swap_isSome s 0 n hne (by omega)
  have hrel1 := Swap_heapRel hs1 hpos
  have hs1n : s1.vh[n]? = some w := by
    rw [Swap_vh_getElem? hs1 hw hl n, if_pos rfl]
  obtain ⟨s2, b, hd, hrel2, htail, _⟩ := down_rel (n := n) 0 (by rw [hrel1.rel_length]; omega)
    hrel1.2.2.1
  have hD : DownInv (kat s1) 0 n 0 := by
    constructor
    · intro c hc0 hcn _ hpc
      rw [Swap_kat hs1]
      have e1 : (c - 1) / 2 ≠ n := by omega
      have e2 : c ≠ n := by omega
      have e3 : c ≠ 0 := by omega
      simp only [swapFn, hpc, e1, e2, e3, if_false]
      exact hheap c hc0 (by omega) (Nat.zero_le _)
    · intro c _ _ _ h0
      omega
  have hheap2 := down_heap (by rw [hrel1.rel_length]; omega) hrel1.2.2.1 (le_refl 0) hD hd
  have hs2n : s2.vh[n]? = some w := by rw [htail n (le_refl n)]; exact hs1n
  have hlen2 : s2.vh.length = n + 1 := by rw [hrel2.rel_length, hrel1.rel_length]; exact hn
  have hpos2 := hrel2.2.2.1
  have hregw : (s2.deref w).isSome := hpos2.pos_isSome hs2n
  have hsplit : s2.vh = s2.vh.take n ++ [w] := by
    have h1 := List.take_append_drop n s2.vh
    have h2 : s2.vh.drop n = [w] := by
      apply List.ext_getElem?
      intro k
      rw [List.getElem?_drop]
      by_cases hk : k = 0
      · subst hk; simpa using hs2n
      · rw [List.getElem?_eq_none (by omega)]
        cases k with
        | zero => exact absurd rfl hk
        | succ k => rfl
    rw [h2] at h1
    exact h1.symm
  refine ⟨{ s2.setIndex w (-1) with vh := s2.vh.take n }, w, ?_, hw, ?_, ?_, ?_, ?_, ?_, ?_, ?_⟩
  · unfold heapPop Len
    rw [if_neg (by omega)]
    have : s.vh.length - 1 = n := by omega
    rw [this]
    simp only [hs1, Option.bind_eq_bind, Option.some_bind, hd]
    exact VertexHeapPop_eq hlen2 hs2n
  · exact (hrel1.1.same_trans hrel2.1).same_trans (SameData.setIndex s2 w (-1))
  · show (s2.vh.take n ++ [w]).Perm s.vh
    rw [← hsplit]
    exact hrel2.2.1.trans hrel1.2.1
  · intro k p hk
    have hk' : (s2.vh.take n)[k]? = some p := hk
    rw [List.getElem?_take] at hk'
    by_cases hkn : k < n
    · rw [if_pos hkn] at hk'
      have hpw : p ≠ w := by
        intro e
        have := hpos2.inj hk' (e ▸ hs2n)
        omega
      show idx (s2.setIndex w (-1)) p = k
      rw [idx_setIndex, if_neg (fun h => hpw h.1)]
      exact hpos2 k p hk'
    · rw [if_neg hkn] at hk'
      cases hk'
  · have hlen : ({ s2.setIndex w (-1) with vh := s2.vh.take n } : State).vh.length = n := by
      show (s2.vh.take n).length = n
      rw [List.length_take]; omega
    rw [hlen]
    intro c hc0 hcn hlo
    have e : ∀ k, k < n → kat ({ s2.setIndex w (-1) with vh := s2.vh.take n } : State) k
        = kat s2 k := by
      intro k hk
      unfold kat
      show (match (s2.vh.take n)[k]? with
        | some p => key (s2.setIndex w (-1)) p
        | none => ⊤) = _
      rw [List.getElem?_take, if_pos hk]
      cases s2.vh[k]? with
      | none => rfl
      | some p => exact key_setIndex s2 w p (-1)
    rw [e c hcn, e _ (by omega)]
    exact hheap2 c hc0 hcn hlo
  · intro hout p hp
    have hp' : p ∉ s2.vh.take n := hp
    show idx (s2.setIndex w (-1)) p = -1
    rw [idx_setIndex]
    by_cases hpw : p = w
    · rw [if_pos ⟨hpw, hregw⟩]
    · rw [if_neg (fun h => hpw h.1)]
      apply hrel2.2.2.2 (hrel1.2.2.2 hout)
      rw [hsplit]
      simp [hp', hpw]
  · show idx (s2.setIndex w (-1)) w = -1
    rw [idx_setIndex, if_pos ⟨rfl, hregw⟩]
  · intro p hp
    obtain ⟨k, hk⟩ := List.mem_iff_getElem?.1 hp
    rw [← kat_eq_key hw, ← kat_eq_key hk]
    exact hheap.root_le k (getElem?_lt hk)

/-! ### `UpdateHeap` -/

theorem SameGraph.graph_refl (s : State) : SameGraph s s := rfl

theorem SameGraph.graph_trans {s t u : State} (h1 : SameGraph s t) (h2 : SameGraph t u) :
    SameGraph s u := by
  unfold SameGraph at *
  rw [h2, h1]

theorem SameData.sameGraph {s t : State} (h : SameData s t) : SameGraph s t := by
  unfold SameData at h
  unfold SameGraph
  have e : eraseMutable = eraseMutable ∘ eraseIndex := by
    funext v; rfl
  rw [e, ← List.map_map, ← List.map_map, h]

theorem SameGraph.setCheapestEdge (s : State) (p : Int) (c : Cost) :
    SameGraph s (s.setCheapestEdge p c) := by
  unfold SameGraph State.setCheapestEdge
  exact map_modifyAt_of_eq (by intro v; rfl)

theorem SameGraph.graph_deref {s t : State} (h : SameGraph s t) (p : Int) :
    (t.deref p).map eraseMutable = (s.deref p).map eraseMutable := by
  unfold SameGraph at h
  unfold State.deref
  rw [← lookup_map (by intro v; rfl), ← lookup_map (by intro v; rfl), h]

theorem SameGraph.graph_isSome {s t : State} (h : SameGraph s t) (p : Int) :
    (t.deref p).isSome = (s.deref p).isSome := by
  have := h.graph_deref p
  cases h1 : t.deref p <;> cases h2 : s.deref p <;> simp [h1, h2] at this ⊢

theorem SameGraph.edges {s t : State} (h : SameGraph s t) {p : Int} {v : Vertex}
    (hv : s.deref p = some v) :
    ∃ u, t.deref p = some u ∧ u.EdgesTo = v.EdgesTo ∧ u.EdgesFrom = v.EdgesFrom := by
  have := h.graph_deref p
  rw [hv] at this
  cases h1 : t.deref p with
  | none => simp [h1] at this
  | some u =>
    rw [h1] at this
    simp only [Option.map_some', Option.some.injEq] at this
    exact ⟨u, rfl, congrArg (fun v => v.EdgesTo) this, congrArg (fun v => v.EdgesFrom) this⟩

theorem SameGraph.ids {s t : State} (h : SameGraph s t) : t.ids = s.ids := by
  unfold SameGraph at h
  have e : (fun v : Vertex => v.ID) = (fun v : Vertex => v.ID) ∘ eraseMutable := by
    funext v; rfl
  unfold State.ids
  rw [e, ← List.map_map, ← List.map_map, h]

theorem idx_pos_of_mem {s : State} (hpos : PosOK s) {p : Int} (hp : p ∈ s.vh) :
    ∃ i : Nat, s.vh[i]? = some p ∧ idx s p = i := by
  obtain ⟨i, hi⟩ := List.mem_iff_getElem?.1 hp
  exact ⟨i, hi, hpos i p hi⟩

theorem mem_iff_idx {s : State} (hpos : PosOK s) (hout : OutOK s) (p : Int) :
    p ∈ s.vh ↔ -1 < idx s p := by
  constructor
  · intro hp
    obtain ⟨i, _, hi⟩ := idx_pos_of_mem hpos hp
    omega
  · intro h
    by_contra hc
    have := hout p hc
    omega

theorem key_eq_of_deref {s : State} {p : Int} {v : Vertex} (h : s.deref p = some v) :
    key s p = v.CheapestEdge := by
  unfold key; rw [h]

theorem idx_eq_of_deref {s : State} {p : Int} {v : Vertex} (h : s.deref p = some v) :
    idx s p = v.Index := by
  unfold idx; rw [h]

theorem relax_spec {s : State} {far : Int} {c : Cost} (h : HeapInv s)
    (hreg : (s.deref far).isSome) :
    ∃ t, relax s far c = some t ∧ HeapInv t ∧ t.vh.Perm s.vh ∧ SameGraph s t ∧
      (∀ p, key t p = if p = far ∧ far ∈ s.vh ∧ c < key s far then c else key s p) := by
  obtain ⟨hpos, hout, hheap⟩ := h
  cases hd : s.deref far with
  | none => simp [hd] at hreg
  | some v =>
    have hk := key_eq_of_deref hd
    have hix := idx_eq_of_deref hd
    unfold relax
    rw [hd]
    simp only [Option.bind_eq_bind, Option.some_bind]
    by_cases hc : -1 < v.Index ∧ c < v.CheapestEdge
    · rw [if_pos hc]
      have hmem : far ∈ s.vh := (mem_iff_idx hpos hout far).2 (by rw [hix]; exact hc.1)
      obtain ⟨i, hi, hii⟩ := idx_pos_of_mem hpos hmem
      have hilt := getElem?_lt hi
      have hto : v.Index.toNat = i := by rw [← hix, hii]; simp
      rw [hto]
      have hpos1 : PosOK (s.setCheapestEdge far c) := by
        intro k p hkp
        rw [idx_setCheapestEdge]
        exact hpos k p hkp
      have hout1 : OutOK (s.setCheapestEdge far c) := by
        intro p hp
        rw [idx_setCheapestEdge]
        exact hout p hp
      have hkat : ∀ k, kat (s.setCheapestEdge far c) k = if k = i then c else kat s k := by
        intro k
        unfold kat
        rw [vh_setCheapestEdge]
        by_cases hki : k = i
        · subst hki
          rw [hi, if_pos rfl]
          show key (s.setCheapestEdge far c) far = c
          rw [key_setCheapestEdge, if_pos ⟨rfl, hreg⟩]
        · rw [if_neg hki]
          cases hkp : s.vh[k]? with
          | none => rfl
          | some p =>
            show key (s.setCheapestEdge far c) p = key s p
            rw [key_setCheapestEdge, if_neg]
            rintro ⟨e, _⟩
            exact hki (hpos.inj (e ▸ hkp) hi)
      have hci : c < kat s i := by rw [kat_eq_key hi, hk]; exact hc.2
      have hU : UpInv (kat (s.setCheapestEdge far c)) (s.setCheapestEdge far c).vh.length i := by
        rw [vh_setCheapestEdge]
        constructor
        · intro k hk0 hkn hki
          rw [hkat, hkat, if_neg hki]
          have := hheap k hk0 hkn (Nat.zero_le _)
          split_ifs with h1
          · rw [h1] at this
            exact le_trans (le_of_lt hci) this
          · exact this
        · intro k hk0 hkn hpk hi0
          rw [hkat, hkat, if_neg (by omega), if_neg (by omega)]
          have h1 := hheap k hk0 hkn (Nat.zero_le _)
          have h2 := hheap i hi0 hilt (Nat.zero_le _)
          rw [hpk] at h1
          exact le_trans h2 h1
      have hle : ∀ k, 0 < k → k < (s.setCheapestEdge far c).vh.length → (k - 1) / 2 = i →
          kat (s.setCheapestEdge far c) i ≤ kat (s.setCheapestEdge far c) k := by
        intro k hk0 hkn hpk
        rw [hkat, hkat, if_pos rfl, if_neg (by omega)]
        have h1 := hheap k hk0 hkn (Nat.zero_le _)
        rw [hpk] at h1
        exact le_trans (le_of_lt hci) h1
      obtain ⟨t, ht, _, hrel, hheapt⟩ :=
        Fix_lowered (s := s.setCheapestEdge far c) (i := i) hilt hpos1 hU hle
      refine ⟨t, ht, ⟨hrel.2.2.1, hrel.2.2.2 hout1, hheapt⟩, hrel.2.1, ?_, ?_⟩
      · exact (SameGraph.setCheapestEdge s far c).graph_trans hrel.1.sameGraph
      · intro p
        rw [hrel.rel_key, key_setCheapestEdge]
        by_cases hp : p = far
        · subst hp
          rw [if_pos ⟨rfl, hreg⟩, if_pos ⟨rfl, hmem, by rw [hk]; exact hc.2⟩]
        · rw [if_neg (fun h => hp h.1), if_neg (fun h => hp h.1)]
    · rw [if_neg hc]
      refine ⟨s, rfl, ⟨hpos, hout, hheap⟩, List.Perm.refl _, SameGraph.graph_refl s, ?_⟩
      intro p
      rw [if_neg]
      rintro ⟨_, hmem, hlt⟩
      apply hc
      refine ⟨?_, by rw [← hk]; exact hlt⟩
      rw [← hix]
      exact (mem_iff_idx hpos hout far).1 hmem

theorem relaxAll_append (L1 L2 : List (Int × Cost)) (s : State) :
    relaxAll (L1 ++ L2) s = (relaxAll L1 s).bind (relaxAll L2) := by
  induction L1 generalizing s with
  | nil => rfl
  | cons x L1 ih =>
    obtain ⟨far, c⟩ := x
    simp only [List.cons_append, relaxAll]
    cases relax s far c with
    | none => rfl
    | some s1 => simpa using ih s1

theorem UpdateHeap_eq {s : State} {w : Int} {v : Vertex} (hv : s.deref w = some v) :
    UpdateHeap s w = relaxAll (incident v) s := by
  unfold UpdateHeap incident
  rw [hv, relaxAll_append]
  rfl

theorem relaxAll_spec (L : List (Int × Cost)) : ∀ (s : State), HeapInv s →
    (∀ x ∈ L, (s.deref x.1).isSome) →
    ∃ t, relaxAll L s = some t ∧ HeapInv t ∧ t.vh.Perm s.vh ∧ SameGraph s t ∧
      (∀ p, key t p ≤ key s p) ∧ (∀ x ∈ L, x.1 ∈ s.vh → key t x.1 ≤ x.2) ∧
      (∀ p, key t p = key s p ∨ (p ∈ s.vh ∧ ∃ c, (p, c) ∈ L ∧ key t p = c)) := by
  induction L with
  | nil =>
    intro s h _
    exact ⟨s, rfl, h, List.Perm.refl _, SameGraph.graph_refl s, fun _ => le_refl _,
      fun x hx => absurd hx (List.not_mem_nil x), fun _ => Or.inl rfl⟩
  | cons x L ih =>
    intro s h hreg
    obtain ⟨far, c⟩ := x
    obtain ⟨s1, hs1, hinv1, hperm1, hg1, hkey1⟩ :=
      relax_spec (c := c) h (hreg (far, c) (List.mem_cons_self _ _))
    obtain ⟨t, ht, hinvt, hpermt, hgt, hle, hlow, hatt⟩ := ih s1 hinv1 (by
      intro y hy
      rw [hg1.graph_isSome]
      exact hreg y (List.mem_cons_of_mem _ hy))
    have hstep : ∀ p, key s1 p ≤ key s p := by
      intro p
      rw [hkey1]
      split_ifs with hp
      · rw [hp.1]; exact le_of_lt hp.2.2
      · exact le_refl _
    refine ⟨t, ?_, hinvt, hpermt.trans hperm1, hg1.graph_trans hgt, ?_, ?_, ?_⟩
    · rw [relaxAll, hs1]
      exact ht
    · intro p
      exact le_trans (hle p) (hstep p)
    · intro y hy hmem
      rcases List.mem_cons.1 hy with hy | hy
      · subst hy
        refine le_trans (hle far) ?_
        rw [hkey1]
        split_ifs with hp
        · exact le_refl _
        · exact not_lt.1 (fun hlt => hp ⟨rfl, hmem, hlt⟩)
      · exact hlow y hy (hperm1.mem_iff.2 hmem)
    · intro p
      rcases hatt p with h1 | ⟨hm, c', hc', hk⟩
      · rw [h1, hkey1]
        split_ifs with hp
        · right
          exact ⟨hp.1 ▸ hp.2.1, c, by rw [hp.1]; exact List.mem_cons_self _ _, rfl⟩
        · left; rfl
      · right
        exact ⟨hperm1.mem_iff.1 hm, c', List.mem_cons_of_mem _ hc', hk⟩

theorem UpdateHeap_spec {s : State} {w : Int} {v : Vertex} (h : HeapInv s)
    (hv : s.deref w = some v) (hreg : ∀ x ∈ incident v, (s.deref x.1).isSome) :
    ∃ t, UpdateHeap s w = some t ∧ HeapInv t ∧ t.vh.Perm s.vh ∧ SameGraph s t ∧
      (∀ p, key t p ≤ key s p) ∧ (∀ x ∈ incident v, x.1 ∈ s.vh → key t x.1 ≤ x.2) ∧
      (∀ p, key t p = key s p ∨ (p ∈ s.vh ∧ ∃ c, (p, c) ∈ incident v ∧ key t p = c)) := by
  rw [UpdateHeap_eq hv]
  exact relaxAll_spec (incident v) s h hreg

/-! ### `readFile` -/

theorem lookup_append (m : List Vertex) (v : Vertex) (q : Int) :
    lookup (m ++ [v]) q =
      match lookup m q with
      | some u => some u
      | none => if v.ID = q then some v else none := by
  unfold lookup
  rw [List.find?_append]
  cases h : List.find? (fun v => v.ID == q) m with
  | some u => rfl
  | none =>
    simp only [Option.none_or, List.find?_cons, List.find?_nil]
    by_cases hq : v.ID = q
    · simp [hq]
    · have : (v.ID == q) = false := by simpa using hq
      simp [hq, this]

theorem lookup_getOrCreate (m : List Vertex) (id q : Int) :
    lookup (getOrCreate m id) q =
      match lookup m q with
      | some u => some u
      | none => if q = id then some (freshVertex id) else none := by
  unfold getOrCreate
  by_cases h : (lookup m id).isSome
  · rw [if_pos h]
    cases hq : lookup m q with
    | some u => rfl
    | none =>
      simp only []
      rw [if_neg]
      intro e
      rw [e] at hq
      rw [hq] at h
      cases h
  · rw [if_neg h, lookup_append]
    cases hq : lookup m q with
    | some u => rfl
    | none =>
      simp only []
      by_cases e : q = id
      · rw [if_pos e.symm, if_pos e]; rfl
      · rw [if_neg (Ne.symm e), if_neg e]

theorem deref_connect (s : State) (h t : Int) (c : Cost) (q : Int) :
    (connect s h t c).deref q =
      (match s.deref q with
        | some u => some u
        | none => if q = h ∨ q = t then some (freshVertex q) else none).map
      (fun v => (if q = t then asTail h t c else id) ((if q = h then asHead h t c else id) v)) := by
  unfold connect State.deref
  simp only []
  rw [lookup_modifyAt (by intro v; rfl), lookup_modifyAt (by intro v; rfl),
    lookup_modifyAt (by intro v; rfl), lookup_modifyAt (by intro v; rfl),
    lookup_getOrCreate, lookup_getOrCreate]
  cases hq : lookup s.VertexMap q with
  | some u =>
    by_cases e1 : q = h
    · subst e1
      by_cases e2 : q = t
      · subst e2; simp [asHead, asTail, Vertex.AddToEdge, Vertex.AddFromEdge]
      · simp [e2, asHead, asTail, Vertex.AddToEdge, Vertex.AddFromEdge]
    · by_cases e2 : q = t
      · subst e2; simp [e1, asHead, asTail, Vertex.AddToEdge, Vertex.AddFromEdge]
      · simp [e1, e2, asHead, asTail, Vertex.AddToEdge, Vertex.AddFromEdge]
  | none =>
    by_cases e1 : q = h
    · subst e1
      by_cases e2 : q = t
      · subst e2; simp [asHead, asTail, freshVertex, Vertex.AddToEdge, Vertex.AddFromEdge]
      · simp [e2, asHead, asTail, freshVertex, Vertex.AddToEdge, Vertex.AddFromEdge]
    · by_cases e2 : q = t
      · subst e2; simp [e1, asHead, asTail, freshVertex, Vertex.AddToEdge, Vertex.AddFromEdge]
      · simp [e1, e2, asHead, asTail, freshVertex, Vertex.AddToEdge, Vertex.AddFromEdge]

theorem lookup_isSome_iff (m : List Vertex) (p : Int) :
    (lookup m p).isSome ↔ p ∈ m.map (fun v => v.ID) := by
  unfold lookup
  rw [List.find?_isSome]
  simp

theorem mem_ids_iff (s : State) (p : Int) : p ∈ s.ids ↔ (s.deref p).isSome :=
  (lookup_isSome_iff s.VertexMap p).symm

theorem mem_incident_asHead (h t : Int) (c : Cost) (v : Vertex) (x : Int × Cost) :
    x ∈ incident (asHead h t c v) ↔ x ∈ incident v ∨ x = (t, c) := by
  simp only [incident, asHead, List.map_append, List.mem_append, List.map_cons, List.map_nil,
    List.mem_singleton]
  tauto

theorem mem_incident_asTail (h t : Int) (c : Cost) (v : Vertex) (x : Int × Cost) :
    x ∈ incident (asTail h t c v) ↔ x ∈ incident v ∨ x = (h, c) := by
  simp only [incident, asTail, List.map_append, List.mem_append, List.map_cons, List.map_nil,
    List.mem_singleton]
  tauto

theorem incident_fresh (q : Int) : incident (freshVertex q) = [] := rfl

theorem mem_pairs_connect (s : State) (h t : Int) (c : Cost) (q : Int) (x : Int × Cost) :
    x ∈ pairs (connect s h t c) q ↔
      x ∈ pairs s q ∨ (q = h ∧ x = (t, c)) ∨ (q = t ∧ x = (h, c)) := by
  unfold pairs
  rw [deref_connect]
  cases hq : s.deref q with
  | some u =>
    simp only [Option.map_some']
    by_cases e1 : q = h
    · subst e1
      by_cases e2 : q = t
      · subst e2
        simp only [if_true, mem_incident_asHead, mem_incident_asTail]
        tauto
      · simp only [e2, if_true, if_false, id, mem_incident_asHead]
        tauto
    · by_cases e2 : q = t
      · subst e2
        simp only [e1, if_true, if_false, id, mem_incident_asTail]
        tauto
      · simp only [e1, e2, if_false, id]
        tauto
  | none =>
    by_cases e1 : q = h
    · subst e1
      by_cases e2 : q = t
      · subst e2
        simp only [or_self, if_true, Option.map_some', mem_incident_asHead, mem_incident_asTail,
          incident_fresh, List.not_mem_nil]
        tauto
      · simp only [e2, or_false, if_true, if_false, id, Option.map_some', mem_incident_asHead,
          incident_fresh, List.not_mem_nil]
        tauto
    · by_cases e2 : q = t
      · subst e2
        simp only [e1, false_or, if_true, if_false, id, Option.map_some', mem_incident_asTail,
          incident_fresh, List.not_mem_nil]
        tauto
      · simp only [e1, e2, or_self, if_false, Option.map_none', List.not_mem_nil]
        tauto

theorem key_connect (s : State) (h t : Int) (c : Cost) (q : Int) :
    key (connect s h t c) q = key s q := by
  unfold key
  rw [deref_connect]
  cases hq : s.deref q with
  | some u =>
    by_cases e1 : q = h
    · subst e1
      by_cases e2 : q = t
      · subst e2; simp [asHead, asTail]
      · simp [e2, asHead, asTail]
    · by_cases e2 : q = t
      · subst e2; simp [e1, asHead, asTail]
      · simp [e1, e2]
  | none =>
    by_cases e1 : q = h
    · subst e1
      by_cases e2 : q = t
      · subst e2; simp [asHead, asTail, freshVertex]
      · simp [e2, asHead, asTail, freshVertex]
    · by_cases e2 : q = t
      · subst e2; simp [e1, asHead, asTail, freshVertex]
      · simp [e1, e2]

theorem idx_connect (s : State) (h t : Int) (c : Cost) (q : Int) :
    idx (connect s h t c) q = idx s q := by
  unfold idx
  rw [deref_connect]
  cases hq : s.deref q with
  | some u =>
    by_cases e1 : q = h
    · subst e1
      by_cases e2 : q = t
      · subst e2; simp [asHead, asTail]
      · simp [e2, asHead, asTail]
    · by_cases e2 : q = t
      · subst e2; simp [e1, asHead, asTail]
      · simp [e1, e2]
  | none =>
    by_cases e1 : q = h
    · subst e1
      by_cases e2 : q = t
      · subst e2; simp [asHead, asTail, freshVertex]
      · simp [e2, asHead, asTail, freshVertex]
    · by_cases e2 : q = t
      · subst e2; simp [e1, asHead, asTail, freshVertex]
      · simp [e1, e2]

theorem isSome_connect (s : State) (h t : Int) (c : Cost) (q : Int) :
    ((connect s h t c).deref q).isSome ↔ (s.deref q).isSome ∨ q = h ∨ q = t := by
  rw [deref_connect]
  cases hq : s.deref q with
  | some u => simp
  | none =>
    by_cases e1 : q = h <;> by_cases e2 : q = t <;> simp [e1, e2]

theorem ids_modifyAt (m : List Vertex) (p : Int) (f : Vertex → Vertex)
    (hf : ∀ v, (f v).ID = v.ID) :
    (modifyAt m p f).map (fun v => v.ID) = m.map (fun v => v.ID) := by
  unfold modifyAt
  rw [List.map_map]
  apply List.map_congr_left
  intro v _
  simp only [Function.comp]
  split <;> simp [hf]

theorem nodup_getOrCreate (m : List Vertex) (id : Int)
    (h : (m.map (fun v => v.ID)).Nodup) :
    ((getOrCreate m id).map (fun v => v.ID)).Nodup := by
  unfold getOrCreate
  split_ifs with hs
  · exact h
  · rw [List.map_append]
    apply List.Nodup.append h (List.nodup_singleton _)
    intro x hx hx'
    simp only [List.map_cons, List.map_nil, List.mem_singleton] at hx'
    subst hx'
    exact hs ((lookup_isSome_iff m _).2 hx)

theorem ids_connect_nodup (s : State) (h t : Int) (c : Cost) (hn : s.ids.Nodup) :
    (connect s h t c).ids.Nodup := by
  unfold State.ids connect
  simp only []
  rw [ids_modifyAt _ _ _ (by intro v; rfl), ids_modifyAt _ _ _ (by intro v; rfl),
    ids_modifyAt _ _ _ (by intro v; rfl), ids_modifyAt _ _ _ (by intro v; rfl)]
  exact nodup_getOrCreate _ _ (nodup_getOrCreate _ _ hn)

theorem vh_connect (s : State) (h t : Int) (c : Cost) : (connect s h t c).vh = s.vh := rfl

theorem readFile_append (l : List Step) (e : Step) :
    readFile (l ++ [e]) = connect (readFile l) e.a e.b e.c := by
  unfold readFile
  rw [List.foldl_append]
  rfl

theorem readFile_vh (steps : List Step) : (readFile steps).vh = [] := by
  induction steps using List.reverseRecOn with
  | nil => rfl
  | append_singleton l e ih => rw [readFile_append, vh_connect, ih]

theorem readFile_key (steps : List Step) (p : Int) : key (readFile steps) p = ⊤ := by
  induction steps using List.reverseRecOn with
  | nil => rfl
  | append_singleton l e ih => rw [readFile_append, key_connect, ih]

theorem readFile_idx (steps : List Step) (p : Int) : idx (readFile steps) p = -1 := by
  induction steps using List.reverseRecOn with
  | nil => rfl
  | append_singleton l e ih => rw [readFile_append, idx_connect, ih]

theorem readFile_ids_nodup (steps : List Step) : (readFile steps).ids.Nodup := by
  induction steps using List.reverseRecOn with
  | nil => exact List.nodup_nil
  | append_singleton l e ih => rw [readFile_append]; exact ids_connect_nodup _ _ _ _ ih

theorem readFile_isSome (steps : List Step) (p : Int) :
    ((readFile steps).deref p).isSome ↔ Registered steps p := by
  induction steps using List.reverseRecOn with
  | nil => simp [readFile, State.empty, State.deref, lookup, Registered]
  | append_singleton l e ih =>
    rw [readFile_append, isSome_connect, ih]
    unfold Registered
    simp only [List.mem_append, List.mem_singleton]
    constructor
    · rintro (⟨e', he', h⟩ | h | h)
      · exact ⟨e', Or.inl he', h⟩
      · exact ⟨e, Or.inr rfl, Or.inl h.symm⟩
      · exact ⟨e, Or.inr rfl, Or.inr h.symm⟩
    · rintro ⟨e', he' | he', h⟩
      · exact Or.inl ⟨e', he', h⟩
      · subst he'
        rcases h with h | h
        · exact Or.inr (Or.inl h.symm)
        · exact Or.inr (Or.inr h.symm)

theorem readFile_pairs (steps : List Step) (p : Int) (x : Int × Cost) :
    x ∈ pairs (readFile steps) p ↔ ∃ e ∈ steps, joins e p x.1 ∧ e.c = x.2 := by
  induction steps using List.reverseRecOn with
  | nil => simp [readFile, State.empty, pairs, State.deref, lookup]
  | append_singleton l e ih =>
    rw [readFile_append, mem_pairs_connect, ih]
    obtain ⟨far, c⟩ := x
    simp only [List.mem_append, List.mem_singleton, Prod.mk.injEq]
    constructor
    · rintro (⟨e', he', h⟩ | ⟨h1, h2, h3⟩ | ⟨h1, h2, h3⟩)
      · exact ⟨e', Or.inl he', h⟩
      · exact ⟨e, Or.inr rfl, Or.inl ⟨h1.symm, h2.symm⟩, h3.symm⟩
      · exact ⟨e, Or.inr rfl, Or.inr ⟨h2.symm, h1.symm⟩, h3.symm⟩
    · rintro ⟨e', he' | he', h, hc⟩
      · exact Or.inl ⟨e', he', h, hc⟩
      · subst he'
        rcases h with ⟨h1, h2⟩ | ⟨h1, h2⟩
        · exact Or.inr (Or.inl ⟨h1.symm, h2.symm, hc.symm⟩)
        · exact Or.inr (Or.inr ⟨h2.symm, h1.symm, hc.symm⟩)

/-! ### `makeVertexHeap` -/

theorem fillLoop_sameData (order : List Int) : ∀ (i : Nat) (s : State),
    SameData s (fillLoop order i s) := by
  induction order with
  | nil => intro i s; exact SameData.same_refl s
  | cons p rest ih =>
    intro i s
    exact (SameData.setIndex s p i).same_trans (ih (i + 1) _)

theorem fillLoop_vh (order : List Int) : ∀ (i : Nat) (s : State),
    (fillLoop order i s).vh = s.vh := by
  induction order with
  | nil => intro i s; rfl
  | cons p rest ih =>
    intro i s
    rw [fillLoop, ih]
    rfl

theorem fillLoop_idx_not_mem (order : List Int) : ∀ (i : Nat) (s : State) (q : Int),
    q ∉ order → idx (fillLoop order i s) q = idx s q := by
  induction order with
  | nil => intro i s q _; rfl
  | cons p rest ih =>
    intro i s q hq
    rw [fillLoop, ih (i + 1) _ q (fun h => hq (List.mem_cons_of_mem _ h)), idx_setIndex,
      if_neg]
    rintro ⟨e, _⟩
    exact hq (e ▸ List.mem_cons_self _ _)

theorem fillLoop_idx (order : List Int) : ∀ (i : Nat) (s : State), order.Nodup →
    (∀ q ∈ order, (s.deref q).isSome) →
    ∀ (k : Nat) (q : Int), order[k]? = some q → idx (fillLoop order i s) q = ((i + k : Nat) : Int) := by
  induction order with
  | nil => intro i s _ _ k q h; simp at h
  | cons p rest ih =>
    intro i s hnd hreg k q hk
    rw [fillLoop]
    cases k with
    | zero =>
      simp only [List.getElem?_cons_zero, Option.some.injEq] at hk
      subst hk
      rw [fillLoop_idx_not_mem rest _ _ _ (List.nodup_cons.1 hnd).1, idx_setIndex,
        if_pos ⟨rfl, hreg _ (List.mem_cons_self _ _)⟩]
      simp
    | succ k =>
      simp only [List.getElem?_cons_succ] at hk
      rw [ih (i + 1) _ (List.nodup_cons.1 hnd).2 (by
        intro q' hq'
        rw [(SameData.setIndex s p i).isSome_eq]
        exact hreg q' (List.mem_cons_of_mem _ hq')) k q hk]
      congr 1
      omega

theorem makeVertexHeap_spec {s : State} {order : List Int} (hnd : order.Nodup)
    (hreg : ∀ q ∈ order, (s.deref q).isSome) (hout : ∀ q, q ∉ order → idx s q = -1) :
    ∃ t, makeVertexHeap s order = some t ∧ HeapInv t ∧ t.vh.Perm order ∧ SameData s t := by
  have hpos : PosOK ({ fillLoop order 0 s with vh := order } : State) := by
    intro k q hk
    have := fillLoop_idx order 0 s hnd hreg k q hk
    simp only [Nat.zero_add] at this
    exact this
  have hout0 : OutOK ({ fillLoop order 0 s with vh := order } : State) := by
    intro q hq
    have : idx (fillLoop order 0 s) q = -1 := by
      rw [fillLoop_idx_not_mem order 0 s q hq]
      exact hout q hq
    exact this
  obtain ⟨t, ht, hrel, hheap⟩ := Init_spec hpos
  refine ⟨t, ht, ⟨hrel.2.2.1, hrel.2.2.2 hout0, hheap⟩, hrel.2.1, ?_⟩
  have h1 : SameData s ({ fillLoop order 0 s with vh := order } : State) :=
    fillLoop_sameData order 0 s
  exact h1.same_trans hrel.1

/-! ### One iteration of `prim` -/

theorem joins_symm {e : Step} {x y : Int} (h : joins e x y) : joins e y x := by
  rcases h with h | h
  · exact Or.inr h
  · exact Or.inl h

theorem joins_registered_left {steps : List Step} {e : Step} {x y : Int} (he : e ∈ steps)
    (h : joins e x y) : Registered steps x := by
  rcases h with ⟨h1, _⟩ | ⟨_, h2⟩
  · exact ⟨e, he, Or.inl h1⟩
  · exact ⟨e, he, Or.inr h2⟩

theorem joins_registered_right {steps : List Step} {e : Step} {x y : Int} (he : e ∈ steps)
    (h : joins e x y) : Registered steps y :=
  joins_registered_left he (joins_symm h)

theorem SameGraph.pairs {s t : State} (h : SameGraph s t) (p : Int) :
    pairs t p = pairs s p := by
  unfold Prim.pairs
  cases hs : s.deref p with
  | none =>
    have := h.graph_isSome p
    rw [hs] at this
    cases ht : t.deref p with
    | none => rfl
    | some u => rw [ht] at this; cases this
  | some v =>
    obtain ⟨u, hu, h1, h2⟩ := h.edges hs
    rw [hu]
    simp only [incident, h1, h2]

theorem pairs_eq_incident {s : State} {p : Int} {v : Vertex} (h : s.deref p = some v) :
    pairs s p = incident v := by
  unfold pairs; rw [h]

theorem PosOK.mem_isSome {s : State} (h : PosOK s) {p : Int} (hp : p ∈ s.vh) :
    (s.deref p).isSome := by
  obtain ⟨i, hi⟩ := List.mem_iff_getElem?.1 hp
  exact h.pos_isSome hi

theorem prim_step {steps : List Step} {s : State} (h : PrimInv steps s)
    (hne : 0 < s.vh.length) : ∃ t w s2, PrimStep steps s t w s2 := by
  obtain ⟨hpos, hout, hheap⟩ := h.heap
  obtain ⟨t, w, hpop, hroot, hdata, hperm, hpost, hheapt, houtt, hgone, hleast⟩ :=
    heapPop_spec hpos hheap hne
  have hwmem : w ∈ s.vh := List.getElem?_mem hroot
  have hnd : (t.vh ++ [w]).Nodup := hperm.nodup_iff.2 hpos.nodup
  have hwt : w ∉ t.vh := by
    intro hw
    have := List.disjoint_of_nodup_append hnd hw
    exact this (List.mem_singleton_self w)
  have hmemt : ∀ p, p ∈ s.vh ↔ p ∈ t.vh ∨ p = w := by
    intro p
    rw [← hperm.mem_iff]
    simp
  have hregw : (t.deref w).isSome := by
    rw [hdata.isSome_eq]
    exact hpos.mem_isSome hwmem
  cases hv : t.deref w with
  | none => rw [hv] at hregw; cases hregw
  | some v =>
    have hg1 : SameGraph s t := hdata.sameGraph
    have hinc : ∀ x, x ∈ incident v ↔ ∃ e ∈ steps, joins e w x.1 ∧ e.c = x.2 := by
      intro x
      rw [← pairs_eq_incident hv, hg1.pairs, h.adj]
    have hreg : ∀ x ∈ incident v, (t.deref x.1).isSome := by
      intro x hx
      obtain ⟨e, he, hj, _⟩ := (hinc x).1 hx
      rw [hdata.isSome_eq, h.reg]
      exact joins_registered_right he hj
    obtain ⟨s2, hupd, hinv2, hperm2, hg2, hle, hlow, hatt⟩ :=
      UpdateHeap_spec ⟨hpost, houtt hout, hheapt⟩ hv hreg
    have hmem2 : ∀ p, p ∈ s2.vh ↔ p ∈ t.vh := fun p => hperm2.mem_iff
    have hpop2 : ∀ u, popped steps s2 u ↔ popped steps s u ∨ u = w := by
      intro u
      unfold popped
      rw [hmem2, hmemt]
      constructor
      · rintro ⟨hr, hn⟩
        by_cases e : u = w
        · exact Or.inr e
        · exact Or.inl ⟨hr, fun hc => hc.elim hn e⟩
      · rintro (⟨hr, hn⟩ | e)
        · exact ⟨hr, fun hc => hn (Or.inl hc)⟩
        · subst e
          exact ⟨(h.reg u).1 (hpos.mem_isSome hwmem), hwt⟩
    refine ⟨t, w, s2, ⟨hpop, hupd, ?_, hroot, ⟨hpost, houtt hout, hheapt⟩, hdata, hg2, hperm,
      hperm2, hgone, hleast, hle⟩⟩
    refine ⟨hinv2, ?_, ?_, ?_, ?_⟩
    · intro p
      rw [hg2.graph_isSome, hg1.graph_isSome, h.reg]
    · intro p x
      rw [hg2.pairs, hg1.pairs, h.adj]
    · intro p hp e he u hj hu
      have hpt : p ∈ t.vh := (hmem2 p).1 hp
      have hps : p ∈ s.vh := (hmemt p).2 (Or.inl hpt)
      rcases (hpop2 u).1 hu with hu | hu
      · calc key s2 p ≤ key t p := hle p
          _ = key s p := hdata.key_eq p
          _ ≤ e.c := h.low p hps e he u hj hu
      · subst hu
        exact hlow (p, e.c) ((hinc (p, e.c)).2 ⟨e, he, joins_symm hj, rfl⟩) hpt
    · intro p hp
      have hpt : p ∈ t.vh := (hmem2 p).1 hp
      have hps : p ∈ s.vh := (hmemt p).2 (Or.inl hpt)
      rcases hatt p with h1 | ⟨_, c, hc, hk⟩
      · rw [h1, hdata.key_eq]
        rcases h.att p hps with h2 | ⟨e, he, u, hj, hu, hk⟩
        · exact Or.inl h2
        · exact Or.inr ⟨e, he, u, hj, (hpop2 u).2 (Or.inl hu), hk⟩
      · obtain ⟨e, he, hj, hec⟩ := (hinc (p, c)).1 hc
        refine Or.inr ⟨e, he, w, joins_symm hj, (hpop2 w).2 (Or.inr rfl), ?_⟩
        rw [hk]
        exact hec.symm

theorem PrimStep.mem {steps : List Step} {s t s2 : State} {w : Int}
    (h : PrimStep steps s t w s2) (hs : PosOK s) (p : Int) :
    p ∈ s2.vh ↔ p ∈ s.vh ∧ p ≠ w := by
  rw [h.permUpd.mem_iff, ← h.permPop.mem_iff]
  have hnd : (t.vh ++ [w]).Nodup := h.permPop.nodup_iff.2 hs.nodup
  have hwt : w ∉ t.vh := by
    intro hw
    exact List.disjoint_of_nodup_append hnd hw (List.mem_singleton_self w)
  simp only [List.mem_append, List.mem_singleton]
  constructor
  · intro hp
    exact ⟨Or.inl hp, fun e => hwt (e ▸ hp)⟩
  · rintro ⟨hp | hp, hne⟩
    · exact hp
    · exact absurd hp hne

theorem PrimStep.step_length {steps : List Step} {s t s2 : State} {w : Int}
    (h : PrimStep steps s t w s2) : s2.vh.length + 1 = s.vh.length := by
  rw [h.permUpd.length_eq, ← h.permPop.length_eq]
  simp

theorem PrimStep.root_mem {steps : List Step} {s t s2 : State} {w : Int}
    (h : PrimStep steps s t w s2) : w ∈ s.vh := List.getElem?_mem h.root

theorem PrimStep.popped_iff {steps : List Step} {s t s2 : State} {w : Int}
    (h : PrimStep steps s t w s2) (hs : PrimInv steps s) (u : Int) :
    popped steps s2 u ↔ popped steps s u ∨ u = w := by
  unfold popped
  rw [h.mem hs.heap.1]
  constructor
  · rintro ⟨hr, hn⟩
    by_cases e : u = w
    · exact Or.inr e
    · exact Or.inl ⟨hr, fun hc => hn ⟨hc, e⟩⟩
  · rintro (⟨hr, hn⟩ | e)
    · exact ⟨hr, fun hc => hn hc.1⟩
    · subst e
      exact ⟨(hs.reg u).1 (hs.heap.1.mem_isSome h.root_mem), fun hc => hc.2 rfl⟩

theorem PrimStep.key_popped {steps : List Step} {s t s2 : State} {w : Int}
    (h : PrimStep steps s t w s2) :
    ∃ v, t.deref w = some v ∧ v.CheapestEdge = key s w := by
  have hu := h.upd
  unfold UpdateHeap at hu
  cases hv : t.deref w with
  | none => rw [hv] at hu; simp at hu
  | some v =>
    refine ⟨v, rfl, ?_⟩
    rw [← key_eq_of_deref hv, h.data.key_eq]

/-! ### The run of `prim` and the exchange argument -/

theorem primLoop_eq_run : ∀ (f : Nat) (s : State) (acc : Cost),
    primLoop f s acc = (primLoopRun f s acc).map Prod.fst := by
  intro f
  induction f with
  | zero => intro s acc; rfl
  | succ f ih =>
    intro s acc
    rw [primLoop, primLoopRun]
    split_ifs with h
    · cases heapPop s with
      | none => rfl
      | some r =>
        simp only [Option.bind_eq_bind, Option.some_bind]
        cases r.1.deref r.2 with
        | none => rfl
        | some v =>
          simp only [Option.some_bind]
          cases UpdateHeap r.1 r.2 with
          | none => rfl
          | some s2 =>
            simp only [Option.some_bind]
            rw [ih]
            cases primLoopRun f s2 (acc + v.CheapestEdge) with
            | none => rfl
            | some out => rfl
    · rfl

theorem prim_eq_run (s : State) : prim s = (primRun s).map Prod.fst := by
  unfold prim primRun
  cases heapPop s with
  | none => rfl
  | some r =>
    simp only [Option.bind_eq_bind, Option.some_bind]
    cases UpdateHeap r.1 r.2 with
    | none => rfl
    | some s2 =>
      simp only [Option.some_bind]
      rw [primLoop_eq_run]
      cases primLoopRun (Len s2 + 1) s2 0 with
      | none => rfl
      | some out => rfl

theorem primLoopRun_done {s : State} (f : Nat) (acc : Cost) (h : s.vh = []) :
    primLoopRun (f + 1) s acc = some (acc, []) := by
  rw [primLoopRun]
  simp [Len, h]

theorem primLoopRun_step {steps : List Step} {s t s2 : State} {w : Int}
    (h : PrimStep steps s t w s2) (f : Nat) (acc : Cost) :
    primLoopRun (f + 1) s acc = (primLoopRun f s2 (acc + key s w)).map
      (fun out => (out.1, ⟨Phase.afterPop, w, t⟩ :: ⟨Phase.afterUpdate, w, s2⟩ :: out.2)) := by
  obtain ⟨v, hv, hk⟩ := h.key_popped
  have hne : 0 < Len s := by
    have := h.step_length
    unfold Len; omega
  rw [primLoopRun, if_pos hne, h.pop]
  simp only [Option.bind_eq_bind, Option.some_bind, hv, h.upd, hk]
  cases primLoopRun f s2 (acc + key s w) with
  | none => rfl
  | some out => rfl

theorem run_exists (steps : List Step) : ∀ (n : Nat) (s : State), s.vh.length = n →
    PrimInv steps s →
    ∃ r tr, Run steps s r tr ∧
      ∀ f acc, n < f → primLoopRun f s acc = some (acc + r, tr) := by
  intro n
  induction n with
  | zero =>
    intro s hn _
    have hnil : s.vh = [] := List.length_eq_zero.1 hn
    refine ⟨0, [], Run.done hnil, ?_⟩
    intro f acc hf
    obtain ⟨f, rfl⟩ : ∃ g, f = g + 1 := ⟨f - 1, by omega⟩
    rw [primLoopRun_done f acc hnil, add_zero]
  | succ n ih =>
    intro s hn hinv
    obtain ⟨t, w, s2, hstep⟩ := prim_step hinv (by omega)
    obtain ⟨r, tr, hr, hloop⟩ := ih s2 (by have := hstep.step_length; omega) hstep.inv
    refine ⟨key s w + r, _, Run.step hstep hr, ?_⟩
    intro f acc hf
    obtain ⟨f, rfl⟩ : ∃ g, f = g + 1 := ⟨f - 1, by omega⟩
    rw [primLoopRun_step hstep, hloop f _ (by omega), add_assoc]
    rfl

theorem hits_cross {T : List Step} {S : Int → Prop} {p : Int} (h : Hits T S p) (hp : ¬ S p) :
    ∃ f ∈ T, ∃ y x, joins f y x ∧ ¬ S y ∧ S x ∧
      Relation.ReflTransGen (fun a b => ∃ g ∈ T, joins g a b ∧ ¬ S a ∧ ¬ S b) p y := by
  induction h with
  | here hs => exact absurd hs hp
  | @step p q e he hj _ ih =>
    by_cases hq : S q
    · exact ⟨e, he, p, q, hj, hp, hq, Relation.ReflTransGen.refl⟩
    · obtain ⟨f, hf, y, x, hfj, hy, hx, hpath⟩ := ih hq
      exact ⟨f, hf, y, x, hfj, hy, hx, Relation.ReflTransGen.head ⟨e, he, hj, hp, hq⟩ hpath⟩

theorem hits_mono {T T2 : List Step} {S S2 : Int → Prop} (hT : ∀ e ∈ T, e ∈ T2)
    (hS : ∀ u, S u → S2 u) {p : Int} (h : Hits T S p) : Hits T2 S2 p := by
  induction h with
  | here hs => exact Hits.here (hS _ hs)
  | step he hj _ ih => exact Hits.step (hT _ he) hj ih

theorem joins_ends {f : Step} {a b y x : Int} (h1 : joins f a b) (h2 : joins f y x) :
    (a = y ∧ b = x) ∨ (a = x ∧ b = y) := by
  rcases h1 with ⟨h1, h1'⟩ | ⟨h1, h1'⟩ <;> rcases h2 with ⟨h2, h2'⟩ | ⟨h2, h2'⟩
  · exact Or.inl ⟨h1.symm.trans h2, h1'.symm.trans h2'⟩
  · exact Or.inr ⟨h1.symm.trans h2, h1'.symm.trans h2'⟩
  · exact Or.inr ⟨h1'.symm.trans h2', h1.symm.trans h2⟩
  · exact Or.inl ⟨h1'.symm.trans h2', h1.symm.trans h2⟩

theorem hits_erase {T : List Step} {S S2 : Int → Prop} {f : Step} {y x w : Int}
    (hf : joins f y x) (hx : S x) (hS : ∀ u, S u → S2 u) (hw : S2 w)
    (hpath : Relation.ReflTransGen (fun a b => ∃ g ∈ T, joins g a b ∧ ¬ S a ∧ ¬ S b) w y)
    {p : Int} (h : Hits T S p) : Hits (T.erase f) S2 p := by
  have hall : ∀ z, Relation.ReflTransGen
      (fun a b => ∃ g ∈ T, joins g a b ∧ ¬ S a ∧ ¬ S b) w z → Hits (T.erase f) S2 z := by
    intro z hz
    induction hz with
    | refl => exact Hits.here hw
    | @tail a b _ hab ih =>
      obtain ⟨g, hg, hgj, ha, hb⟩ := hab
      have hne : g ≠ f := by
        intro e
        subst e
        rcases joins_ends hgj hf with ⟨_, h2⟩ | ⟨h1, _⟩
        · exact hb (h2 ▸ hx)
        · exact ha (h1 ▸ hx)
      exact Hits.step ((List.mem_erase_of_ne hne).2 hg) (joins_symm hgj) ih
  have hy : Hits (T.erase f) S2 y := hall y hpath
  induction h with
  | here hs => exact Hits.here (hS _ hs)
  | @step p q e he hj _ ih =>
    by_cases hef : e = f
    · subst hef
      rcases joins_ends hj hf with ⟨h1, _⟩ | ⟨h1, _⟩
      · rw [h1]; exact hy
      · rw [h1]; exact Hits.here (hS _ hx)
    · exact Hits.step ((List.mem_erase_of_ne hef).2 he) hj ih

theorem weight_cons (e : Step) (T : List Step) : weight (e :: T) = e.c + weight T := by
  simp [weight]

theorem weight_erase {T : List Step} {f : Step} (h : f ∈ T) :
    weight T = f.c + weight (T.erase f) := by
  rw [← weight_cons]
  unfold weight
  exact ((List.perm_cons_erase h).map _).sum_eq

theorem mem_vh_of_not_popped {steps : List Step} {s : State} {y : Int}
    (hr : Registered steps y) (hy : ¬ popped steps s y) : y ∈ s.vh := by
  by_contra hc
  exact hy ⟨hr, hc⟩

theorem run_lower {steps : List Step} {s : State} {r : Cost} {tr : List Snapshot}
    (hrun : Run steps s r tr) :
    PrimInv steps s → ∀ T : List Step,
    (∀ e ∈ T, ∃ d ∈ steps, (∀ x y, joins e x y → joins d x y) ∧ d.c ≤ e.c) →
    T.length = s.vh.length → (∀ p ∈ s.vh, Hits T (popped steps s) p) → r ≤ weight T := by
  induction hrun with
  | done hnil =>
    intro _ T _ hlen _
    rw [hnil] at hlen
    rw [List.length_eq_zero.1 hlen]
    exact le_refl _
  | @step s t s2 w r tr hstep _ ih =>
    intro hinv T hdom hlen hhits
    have hw := hstep.root_mem
    have hwnp : ¬ popped steps s w := fun h => h.2 hw
    obtain ⟨f, hf, y, x, hfj, hy, hx, hpath⟩ := hits_cross (hhits w hw) hwnp
    obtain ⟨d, hd, hdj, hdc⟩ := hdom f hf
    have hymem : y ∈ s.vh := mem_vh_of_not_popped (joins_registered_left hd (hdj _ _ hfj)) hy
    have hkey : key s w ≤ f.c :=
      le_trans (hstep.least y hymem) (le_trans (hinv.low y hymem d hd x (hdj _ _ hfj) hx) hdc)
    have hrest : r ≤ weight (T.erase f) := by
      apply ih hstep.inv
      · intro e he
        exact hdom e (List.mem_of_mem_erase he)
      · rw [List.length_erase_of_mem hf]
        have := hstep.step_length
        omega
      · intro p hp
        have hps := ((hstep.mem hinv.heap.1 p).1 hp).1
        exact hits_erase hfj hx (fun u hu => (hstep.popped_iff hinv u).2 (Or.inl hu))
          ((hstep.popped_iff hinv w).2 (Or.inr rfl)) hpath (hhits p hps)
    rw [weight_erase hf]
    exact add_le_add hkey hrest

theorem hits_extend {T : List Step} {S S2 : Int → Prop} {e : Step} {w : Int}
    (hS : ∀ u, S2 u → S u ∨ u = w) (hw : Hits (e :: T) S w) {p : Int}
    (h : Hits T S2 p) : Hits (e :: T) S p := by
  induction h with
  | @here p hs =>
    rcases hS p hs with h1 | h1
    · exact Hits.here h1
    · rw [h1]; exact hw
  | step he hj _ ih => exact Hits.step (List.mem_cons_of_mem _ he) hj ih

theorem run_attained {steps : List Step} {s : State} {r : Cost} {tr : List Snapshot}
    (hrun : Run steps s r tr) :
    PrimInv steps s → r = ⊤ ∨ ∃ T : List Step, T.Nodup ∧ (∀ e ∈ T, e ∈ steps) ∧
      (∀ e ∈ T, ¬ (popped steps s e.a ∧ popped steps s e.b)) ∧
      T.length = s.vh.length ∧ (∀ p ∈ s.vh, Hits T (popped steps s) p) ∧ r = weight T := by
  induction hrun with
  | done hnil =>
    intro _
    refine Or.inr ⟨[], List.nodup_nil, ?_, ?_, ?_, ?_, rfl⟩
    · intro e he; cases he
    · intro e he; cases he
    · rw [hnil]; rfl
    · intro p hp; rw [hnil] at hp; cases hp
  | @step s t s2 w r tr hstep _ ih =>
    intro hinv
    have hw := hstep.root_mem
    rcases hinv.att w hw with htop | ⟨e, he, u, hj, hu, hk⟩
    · left
      rw [htop]
      exact WithTop.top_add _
    · rcases ih hstep.inv with hr | ⟨T, hnd, hsub, hnp, hlen, hhits, hr⟩
      · left
        rw [hr]
        exact WithTop.add_top _
      · right
        have hw2 : popped steps s2 w := (hstep.popped_iff hinv w).2 (Or.inr rfl)
        have hu2 : popped steps s2 u := (hstep.popped_iff hinv u).2 (Or.inl hu)
        have hends : (e.a = w ∧ e.b = u) ∨ (e.a = u ∧ e.b = w) := hj
        have heT : e ∉ T := by
          intro hmem
          apply hnp e hmem
          rcases hends with ⟨h1, h2⟩ | ⟨h1, h2⟩
          · rw [h1, h2]; exact ⟨hw2, hu2⟩
          · rw [h1, h2]; exact ⟨hu2, hw2⟩
        have hwnp : ¬ popped steps s w := fun h => h.2 hw
        have hhw : Hits (e :: T) (popped steps s) w :=
          Hits.step (List.mem_cons_self _ _) hj (Hits.here hu)
        refine ⟨e :: T, List.nodup_cons.2 ⟨heT, hnd⟩, ?_, ?_, ?_, ?_, ?_⟩
        · intro d hd
          rcases List.mem_cons.1 hd with h1 | h1
          · rw [h1]; exact he
          · exact hsub d h1
        · intro d hd
          rcases List.mem_cons.1 hd with h1 | h1
          · rw [h1]
            rcases hends with ⟨h2, _⟩ | ⟨_, h2⟩
            · rw [h2]; exact fun h => hwnp h.1
            · rw [h2]; exact fun h => hwnp h.2
          · intro hboth
            exact hnp d h1 ⟨(hstep.popped_iff hinv _).2 (Or.inl hboth.1),
              (hstep.popped_iff hinv _).2 (Or.inl hboth.2)⟩
        · rw [List.length_cons, hlen]
          exact hstep.step_length
        · intro p hp
          by_cases hpw : p = w
          · rw [hpw]; exact hhw
          · exact hits_extend (fun v hv => (hstep.popped_iff hinv v).1 hv) hhw
              (hhits p ((hstep.mem hinv.heap.1 p).2 ⟨hp, hpw⟩))
        · rw [weight_cons, hk, hr]

theorem run_finite {steps : List Step} {s : State} {r : Cost} {tr : List Snapshot}
    (hrun : Run steps s r tr) :
    PrimInv steps s → (∀ e ∈ steps, e.c ≠ ⊤) →
    (∀ p ∈ s.vh, Hits steps (popped steps s) p) → r ≠ ⊤ := by
  induction hrun with
  | done hnil =>
    intro _ _ _
    exact WithTop.zero_ne_top
  | @step s t s2 w r tr hstep _ ih =>
    intro hinv hfin hhits
    have hw := hstep.root_mem
    have hwnp : ¬ popped steps s w := fun h => h.2 hw
    obtain ⟨f, hf, y, x, hfj, hy, hx, _⟩ := hits_cross (hhits w hw) hwnp
    have hymem : y ∈ s.vh := mem_vh_of_not_popped (joins_registered_left hf hfj) hy
    have hkey : key s w ≤ f.c :=
      le_trans (hstep.least y hymem) (hinv.low y hymem f hf x hfj hx)
    have hk : key s w ≠ ⊤ := by
      intro h
      rw [h] at hkey
      exact hfin f hf (top_le_iff.1 hkey)
    have hr : r ≠ ⊤ := by
      apply ih hstep.inv hfin
      intro p hp
      have hps := ((hstep.mem hinv.heap.1 p).1 hp).1
      exact hits_mono (fun e he => he)
        (fun u hu => (hstep.popped_iff hinv u).2 (Or.inl hu)) (hhits p hps)
    exact WithTop.add_ne_top.2 ⟨hk, hr⟩

/-! ### The whole program -/

theorem mem_vertices (steps : List Step) (p : Int) : p ∈ vertices steps ↔ Registered steps p := by
  unfold vertices Registered
  rw [List.mem_dedup, List.mem_flatMap]
  constructor
  · rintro ⟨e, he, hp⟩
    simp only [List.mem_cons, List.mem_singleton, List.not_mem_nil, or_false] at hp
    exact ⟨e, he, hp.imp Eq.symm Eq.symm⟩
  · rintro ⟨e, he, hp⟩
    refine ⟨e, he, ?_⟩
    simp only [List.mem_cons, List.mem_singleton, List.not_mem_nil, or_false]
    exact hp.imp Eq.symm Eq.symm

theorem vertices_nodup (steps : List Step) : (vertices steps).Nodup := List.nodup_dedup _

theorem vertices_perm_ids (steps : List Step) : (vertices steps).Perm (readFile steps).ids := by
  rw [List.perm_ext_iff_of_nodup (vertices_nodup steps) (readFile_ids_nodup steps)]
  intro p
  rw [mem_vertices, mem_ids_iff, readFile_isSome]

theorem vertices_length_congr {steps1 steps2 : List Step}
    (h : ∀ p, Registered steps1 p ↔ Registered steps2 p) :
    (vertices steps1).length = (vertices steps2).length := by
  apply List.Perm.length_eq
  rw [List.perm_ext_iff_of_nodup (vertices_nodup _) (vertices_nodup _)]
  intro p
  rw [mem_vertices, mem_vertices, h]

theorem init_inv {steps : List Step} {order : List Int}
    (hperm : order.Perm (readFile steps).ids) :
    ∃ s0, makeVertexHeap (readFile steps) order = some s0 ∧ PrimInv steps s0 ∧
      s0.vh.Perm order ∧ (∀ p, ¬ popped steps s0 p) ∧ (∀ p, key s0 p = ⊤) ∧
      SameData (readFile steps) s0 := by
  have hnd : order.Nodup := hperm.nodup_iff.2 (readFile_ids_nodup steps)
  have hmem : ∀ q, q ∈ order ↔ Registered steps q := by
    intro q
    rw [hperm.mem_iff, mem_ids_iff, readFile_isSome]
  obtain ⟨s0, hs0, hinv, hp, hdata⟩ := makeVertexHeap_spec (s := readFile steps) hnd
    (fun q hq => (readFile_isSome steps q).2 ((hmem q).1 hq))
    (fun q _ => readFile_idx steps q)
  have hkey : ∀ p, key s0 p = ⊤ := by
    intro p
    rw [hdata.key_eq, readFile_key]
  have hpop : ∀ p, ¬ popped steps s0 p := by
    rintro p ⟨hr, hn⟩
    exact hn (hp.mem_iff.2 ((hmem p).2 hr))
  refine ⟨s0, hs0, ⟨hinv, ?_, ?_, ?_, ?_⟩, hp, hpop, hkey, hdata⟩
  · intro p
    rw [hdata.isSome_eq, readFile_isSome]
  · intro p x
    rw [hdata.sameGraph.pairs, readFile_pairs]
  · intro p _ e _ u _ hu
    exact absurd hu (hpop u)
  · intro p _
    exact Or.inl (hkey p)

theorem rtg_hits {T : List Step} {S : Int → Prop} {p w : Int}
    (h : Relation.ReflTransGen (Adj T) p w) (hw : S w) : Hits T S p := by
  induction h using Relation.ReflTransGen.head_induction_on with
  | refl => exact Hits.here hw
  | head hab _ ih =>
    obtain ⟨e, he, hj⟩ := hab
    exact Hits.step he hj ih

theorem hits_rtg {T : List Step} {S : Int → Prop} {p : Int} (h : Hits T S p) :
    ∃ u, S u ∧ Relation.ReflTransGen (Adj T) p u := by
  induction h with
  | @here p hs => exact ⟨p, hs, Relation.ReflTransGen.refl⟩
  | step he hj _ ih =>
    obtain ⟨u, hu, hpath⟩ := ih
    exact ⟨u, hu, Relation.ReflTransGen.head ⟨_, he, hj⟩ hpath⟩

theorem adj_symm (T : List Step) : Symmetric (Adj T) := by
  rintro x y ⟨e, he, hj⟩
  exact ⟨e, he, joins_symm hj⟩

theorem primRun_eq {steps : List Step} {s t s2 : State} {w : Int} {r : Cost}
    {tr : List Snapshot} (hstep : PrimStep steps s t w s2)
    (hloop : ∀ f acc, s2.vh.length < f → primLoopRun f s2 acc = some (acc + r, tr)) :
    primRun s = some (r, ⟨Phase.afterPop, w, t⟩ :: ⟨Phase.afterUpdate, w, s2⟩ :: tr) := by
  unfold primRun
  rw [hstep.pop]
  simp only [Option.bind_eq_bind, Option.some_bind, hstep.upd]
  rw [hloop _ _ (by unfold Len; omega), zero_add]
  rfl

theorem prim_eq {steps : List Step} {s t s2 : State} {w : Int} {r : Cost}
    {tr : List Snapshot} (hstep : PrimStep steps s t w s2)
    (hloop : ∀ f acc, s2.vh.length < f → primLoopRun f s2 acc = some (acc + r, tr)) :
    prim s = some r := by
  rw [prim_eq_run, primRun_eq hstep hloop]
  rfl

theorem computeMST_char {steps : List Step} {order : List Int}
    (hperm : order.Perm (readFile steps).ids) (hne : steps ≠ []) :
    ∃ r, computeMST steps order = some r ∧
      (∀ T : List Step,
        (∀ e ∈ T, ∃ d ∈ steps, (∀ x y, joins e x y → joins d x y) ∧ d.c ≤ e.c) →
        T.length + 1 = (vertices steps).length → Connects steps T → r ≤ weight T) ∧
      (r = ⊤ ∨ ∃ T, IsSpanningTree steps T ∧ r = weight T) ∧
      ((∀ e ∈ steps, e.c ≠ ⊤) → Connects steps steps → r ≠ ⊤) := by
  obtain ⟨s0, hs0, hinv0, hp0, hpop0, _, _⟩ := init_inv hperm
  have hlen0 : s0.vh.length = (vertices steps).length := by
    rw [hp0.length_eq, hperm.length_eq, (vertices_perm_ids steps).length_eq]
  have hpos : 0 < s0.vh.length := by
    obtain ⟨e, l, rfl⟩ := List.exists_cons_of_ne_nil hne
    have : e.a ∈ s0.vh := by
      rw [hp0.mem_iff, hperm.mem_iff, mem_ids_iff, readFile_isSome]
      exact ⟨e, List.mem_cons_self _ _, Or.inl rfl⟩
    exact List.length_pos_of_mem this
  obtain ⟨t, w, s2, hstep⟩ := prim_step hinv0 hpos
  obtain ⟨r, tr, hrun, hloop⟩ := run_exists steps s2.vh.length s2 rfl hstep.inv
  have hpop2 : ∀ u, popped steps s2 u ↔ u = w := by
    intro u
    rw [hstep.popped_iff hinv0]
    constructor
    · rintro (h | h)
      · exact absurd h (hpop0 u)
      · exact h
    · exact Or.inr
  have hwreg : Registered steps w := ((hpop2 w).2 rfl).1
  have hreg2 : ∀ p ∈ s2.vh, Registered steps p := by
    intro p hp
    exact (hinv0.reg p).1 (hinv0.heap.1.mem_isSome ((hstep.mem hinv0.heap.1 p).1 hp).1)
  have hlen2 : s2.vh.length + 1 = (vertices steps).length := by
    rw [← hlen0]; exact hstep.step_length
  refine ⟨r, ?_, ?_, ?_, ?_⟩
  · unfold computeMST
    rw [hs0]
    exact prim_eq hstep hloop
  · intro T hdom hlen hconn
    apply run_lower hrun hstep.inv T hdom (by omega)
    intro p hp
    exact rtg_hits (hconn p w (hreg2 p hp) hwreg) ((hpop2 w).2 rfl)
  · rcases run_attained hrun hstep.inv with h | ⟨T, hnd, hsub, _, hlen, hhits, hr⟩
    · exact Or.inl h
    · refine Or.inr ⟨T, ⟨List.subperm_of_subset hnd hsub, by omega, ?_⟩, hr⟩
      have hto : ∀ x, Registered steps x → Relation.ReflTransGen (Adj T) x w := by
        intro x hx
        by_cases hxw : x = w
        · rw [hxw]
        · have hx0 : x ∈ s0.vh := by
            rw [hp0.mem_iff, hperm.mem_iff, mem_ids_iff, readFile_isSome]
            exact hx
          obtain ⟨u, hu, hpath⟩ := hits_rtg (hhits x ((hstep.mem hinv0.heap.1 x).2 ⟨hx0, hxw⟩))
          rw [(hpop2 u).1 hu] at hpath
          exact hpath
      intro x y hx hy
      exact (hto x hx).trans (Relation.ReflTransGen.symmetric (adj_symm T) (hto y hy))
  · intro hfin hconn
    apply run_finite hrun hstep.inv hfin
    intro p hp
    exact rtg_hits (hconn p w (hreg2 p hp) hwreg) ((hpop2 w).2 rfl)

theorem spanning_dominated {steps T : List Step} (h : T.Subperm steps) :
    ∀ e ∈ T, ∃ d ∈ steps, (∀ x y, joins e x y → joins d x y) ∧ d.c ≤ e.c :=
  fun e he => ⟨e, h.subset he, fun _ _ hj => hj, le_refl _⟩

/-! ### The states of a run -/

theorem PrimStep.mem_mid {steps : List Step} {s t s2 : State} {w : Int}
    (h : PrimStep steps s t w s2) (hs : PosOK s) (p : Int) :
    p ∈ t.vh ↔ p ∈ s.vh ∧ p ≠ w := by
  rw [← h.mem hs, h.permUpd.mem_iff]

theorem PrimStep.popped_mid {steps : List Step} {s t s2 : State} {w : Int}
    (h : PrimStep steps s t w s2) (hs : PrimInv steps s) (u : Int) :
    popped steps t u ↔ popped steps s u ∨ u = w := by
  rw [← h.popped_iff hs]
  unfold popped
  rw [h.permUpd.mem_iff]

theorem poppedUpTo_succ_succ (a b : Snapshot) (tr : List Snapshot) (k : Nat) :
    poppedUpTo (a :: b :: tr) (k + 2) = a.popped :: b.popped :: poppedUpTo tr k := by
  simp [poppedUpTo]

theorem run_snap {steps : List Step} {s : State} {r : Cost} {tr : List Snapshot}
    (hrun : Run steps s r tr) : PrimInv steps s →
    ∀ k snap, tr[k]? = some snap → SnapOK steps s (poppedUpTo tr k) snap := by
  induction hrun with
  | done _ =>
    intro _ k snap h
    simp at h
  | @step s t s2 w r tr hstep _ ih =>
    intro hinv k snap hk
    match k with
    | 0 =>
      simp only [List.getElem?_cons_zero, Option.some.injEq] at hk
      subst hk
      refine ⟨hstep.mid, ?_, ?_, ?_, ?_⟩
      · intro p
        show (t.deref p).isSome ↔ _
        rw [hstep.data.isSome_eq, hinv.reg]
      · intro u
        show popped steps t u ↔ _
        rw [hstep.popped_mid hinv]
        simp [poppedUpTo]
      · intro h
        cases h
      · simp [poppedUpTo]
    | 1 =>
      simp only [List.getElem?_cons_succ, List.getElem?_cons_zero, Option.some.injEq] at hk
      subst hk
      refine ⟨hstep.inv.heap, hstep.inv.reg, ?_, fun _ => hstep.inv, ?_⟩
      · intro u
        show popped steps s2 u ↔ _
        rw [hstep.popped_iff hinv]
        simp [poppedUpTo]
      · simp [poppedUpTo]
    | k + 2 =>
      simp only [List.getElem?_cons_succ] at hk
      have h := ih hstep.inv k snap hk
      refine ⟨h.heap, h.reg, ?_, h.inv, ?_⟩
      · intro u
        rw [h.pop, hstep.popped_iff hinv, poppedUpTo_succ_succ]
        simp only [List.mem_cons]
        tauto
      · rw [poppedUpTo_succ_succ]
        exact List.mem_cons_of_mem _ (List.mem_cons_of_mem _ h.last)

theorem run_length {steps : List Step} {s : State} {r : Cost} {tr : List Snapshot}
    (hrun : Run steps s r tr) : tr.length = 2 * s.vh.length := by
  induction hrun with
  | done h => simp [h]
  | step hstep _ ih =>
    have := hstep.step_length
    simp only [List.length_cons, ih]
    omega

/-! ### The heap invariant on the records -/

theorem costAt_eq {s : State} (hpos : PosOK s) {i : Nat} (hi : i < s.vh.length) :
    costAt s i = some (kat s i) := by
  have h1 := List.getElem?_eq_getElem hi
  have r1 := hpos.pos_isSome h1
  unfold costAt kat key
  rw [h1]
  simp only [Option.some_bind]
  cases d : s.deref s.vh[i] with
  | none => rw [d] at r1; cases r1
  | some v => rfl

theorem indexAt_eq {s : State} (hpos : PosOK s) {i : Nat} (hi : i < s.vh.length) :
    indexAt s i = some (i : Int) := by
  have h1 := List.getElem?_eq_getElem hi
  have r1 := hpos.pos_isSome h1
  have h2 := hpos i _ h1
  unfold indexAt
  rw [h1]
  simp only [Option.some_bind]
  unfold idx at h2
  cases d : s.deref s.vh[i] with
  | none => rw [d] at r1; cases r1
  | some v =>
    rw [d] at h2
    simp only [Option.map_some', Option.some.injEq]
    exact h2

theorem posOK_of_indexAt {s : State} (h : ∀ i, i < s.vh.length → indexAt s i = some (i : Int)) :
    PosOK s := by
  intro i p hp
  have hi := getElem?_lt hp
  have := h i hi
  unfold indexAt at this
  rw [hp] at this
  simp only [Option.some_bind] at this
  unfold idx
  cases d : s.deref p with
  | none => rw [d] at this; simp at this
  | some v =>
    rw [d] at this
    simpa using this

theorem heapInvariant_iff (s : State) :
    HeapInvariant s ↔ PosOK s ∧ HeapOn (kat s) 0 s.vh.length := by
  constructor
  · rintro ⟨hord, hidx⟩
    have hpos := posOK_of_indexAt hidx
    refine ⟨hpos, ?_⟩
    intro c hc0 hcn _
    obtain ⟨a, b, ha, hb, hab⟩ := hord c hc0 hcn
    rw [costAt_eq hpos (by omega)] at ha
    rw [costAt_eq hpos hcn] at hb
    cases ha; cases hb
    exact hab
  · rintro ⟨hpos, hheap⟩
    refine ⟨?_, fun i hi => indexAt_eq hpos hi⟩
    intro i hi0 hin
    exact ⟨_, _, costAt_eq hpos (by omega), costAt_eq hpos hin, hheap i hi0 hin (Nat.zero_le _)⟩

theorem HeapInv.heapInvariant {s : State} (h : HeapInv s) : HeapInvariant s :=
  (heapInvariant_iff s).2 ⟨h.1, h.2.2⟩

theorem HeapInv.indexIff {s : State} (h : HeapInv s) : IndexIff s := by
  intro p v hv
  have hix := idx_eq_of_deref hv
  constructor
  · rw [mem_iff_idx h.1 h.2.1, hix]
    omega
  · intro hp
    obtain ⟨i, hi, hii⟩ := idx_pos_of_mem h.1 hp
    rw [hix] at hii
    rw [hii]
    simpa using hi

/-! ### What the operations keep in every state -/

theorem downLoop_sameData (n : Nat) : ∀ (f : Nat) (s : State) (i : Nat) (t : State) (i' : Nat),
    downLoop n f s i = some (t, i') → SameData s t := by
  intro f
  induction f with
  | zero => intro s i t i' h; simp [downLoop] at h
  | succ f ih =>
    intro s i t i' h
    rw [downLoop] at h
    by_cases h1 : n ≤ 2 * i + 1
    · simp only [h1, if_true] at h
      cases h; exact SameData.same_refl s
    · simp only [h1, if_false, Option.bind_eq_bind, Option.bind_eq_some] at h
      obtain ⟨r, _, lt, _, h⟩ := h
      cases lt with
      | true =>
        simp only [if_true, Option.bind_eq_some] at h
        obtain ⟨s1, hs1, h⟩ := h
        exact (Swap_sameData hs1).same_trans (ih _ _ _ _ h)
      | false =>
        simp only [Bool.false_eq_true, if_false] at h
        cases h; exact SameData.same_refl s

theorem down_sameData {s t : State} {i0 n : Nat} {b : Bool} (h : down s i0 n = some (t, b)) :
    SameData s t := by
  unfold down at h
  simp only [Option.bind_eq_bind, Option.bind_eq_some, Option.pure_def, Option.some.injEq,
    Prod.mk.injEq] at h
  obtain ⟨r, hr, rfl, _⟩ := h
  exact downLoop_sameData n _ _ _ _ _ hr

theorem upLoop_sameData : ∀ (f : Nat) (s : State) (j : Nat) (t : State),
    upLoop f s j = some t → SameData s t := by
  intro f
  induction f with
  | zero => intro s j t h; simp [upLoop] at h
  | succ f ih =>
    intro s j t h
    rw [upLoop] at h
    by_cases h1 : (j - 1) / 2 = j
    · simp only [h1, if_true] at h
      cases h; exact SameData.same_refl s
    · simp only [h1, if_false, Option.bind_eq_bind, Option.bind_eq_some] at h
      obtain ⟨lt, _, h⟩ := h
      cases lt with
      | true =>
        simp only [if_true, Option.bind_eq_some] at h
        obtain ⟨s1, hs1, h⟩ := h
        exact (Swap_sameData hs1).same_trans (ih _ _ _ h)
      | false =>
        simp only [Bool.false_eq_true, if_false] at h
        cases h; exact SameData.same_refl s

theorem Fix_sameData {s t : State} {i : Nat} (h : Fix s i = some t) : SameData s t := by
  unfold Fix at h
  simp only [Option.bind_eq_bind, Option.bind_eq_some] at h
  obtain ⟨r, hr, h⟩ := h
  have h1 := down_sameData (b := r.2) (t := r.1) hr
  split_ifs at h with h2
  · cases h; exact h1
  · exact h1.same_trans (upLoop_sameData _ _ _ _ h)

theorem InitLoop_sameData (n : Nat) : ∀ (k : Nat) (s t : State),
    InitLoop n k s = some t → SameData s t := by
  intro k
  induction k with
  | zero => intro s t h; cases h; exact SameData.same_refl s
  | succ k ih =>
    intro s t h
    rw [InitLoop] at h
    simp only [Option.bind_eq_bind, Option.bind_eq_some] at h
    obtain ⟨r, hr, h⟩ := h
    exact (down_sameData (b := r.2) (t := r.1) hr).same_trans (ih _ _ h)

theorem makeVertexHeap_sameData {s t : State} {order : List Int}
    (h : makeVertexHeap s order = some t) : SameData s t := by
  unfold makeVertexHeap Init at h
  have h1 : SameData s ({ fillLoop order 0 s with vh := order } : State) :=
    fillLoop_sameData order 0 s
  exact h1.same_trans (InitLoop_sameData _ _ _ _ h)

theorem VertexHeapPop_sameData {s t : State} {w : Int} (h : VertexHeap.Pop s = some (t, w)) :
    SameData s t := by
  unfold VertexHeap.Pop at h
  simp only [] at h
  split_ifs at h with h1
  simp only [Option.bind_eq_bind, Option.bind_eq_some, Option.pure_def, Option.some.injEq,
    Prod.mk.injEq] at h
  obtain ⟨v, _, rfl, _⟩ := h
  exact SameData.setIndex s v (-1)

theorem heapPop_sameData {s t : State} {w : Int} (h : heapPop s = some (t, w)) :
    SameData s t := by
  unfold heapPop at h
  split_ifs at h with h1
  simp only [Option.bind_eq_bind, Option.bind_eq_some] at h
  obtain ⟨s1, hs1, r, hr, h⟩ := h
  exact ((Swap_sameData hs1).same_trans (down_sameData (b := r.2) (t := r.1) hr)).same_trans
    (VertexHeapPop_sameData h)

theorem relax_mono {s t : State} {far : Int} {c : Cost} (h : relax s far c = some t) :
    SameGraph s t ∧ ∀ p, key t p ≤ key s p := by
  unfold relax at h
  simp only [Option.bind_eq_bind, Option.bind_eq_some] at h
  obtain ⟨v, hv, h⟩ := h
  split_ifs at h with hc
  · have hd := Fix_sameData h
    refine ⟨(SameGraph.setCheapestEdge s far c).graph_trans hd.sameGraph, ?_⟩
    intro p
    rw [hd.key_eq, key_setCheapestEdge]
    split_ifs with hp
    · rw [hp.1, key_eq_of_deref hv]
      exact le_of_lt hc.2
    · exact le_refl _
  · cases h
    exact ⟨SameGraph.graph_refl s, fun _ => le_refl _⟩

theorem relaxAll_mono (L : List (Int × Cost)) : ∀ (s t : State), relaxAll L s = some t →
    SameGraph s t ∧ ∀ p, key t p ≤ key s p := by
  induction L with
  | nil =>
    intro s t h
    cases h
    exact ⟨SameGraph.graph_refl s, fun _ => le_refl _⟩
  | cons x L ih =>
    intro s t h
    obtain ⟨far, c⟩ := x
    rw [relaxAll] at h
    simp only [Option.bind_eq_bind, Option.bind_eq_some] at h
    obtain ⟨s1, hs1, h⟩ := h
    obtain ⟨g1, k1⟩ := relax_mono hs1
    obtain ⟨g2, k2⟩ := ih s1 t h
    exact ⟨g1.graph_trans g2, fun p => le_trans (k2 p) (k1 p)⟩

theorem UpdateHeap_mono {s t : State} {w : Int} (h : UpdateHeap s w = some t) :
    SameGraph s t ∧ ∀ p, key t p ≤ key s p := by
  cases hv : s.deref w with
  | none => unfold UpdateHeap at h; rw [hv] at h; simp at h
  | some v =>
    rw [UpdateHeap_eq hv] at h
    exact relaxAll_mono _ _ _ h

theorem deref_of_sameGraph {s t : State} (h : SameGraph s t) {p : Int} {v : Vertex}
    (hv : s.deref p = some v) : ∃ u, t.deref p = some u := by
  obtain ⟨u, hu, _⟩ := h.edges hv
  exact ⟨u, hu⟩

/-! ### The least cost of a list -/

theorem minCost_le {l : List Cost} {c : Cost} (h : c ∈ l) : minCost l ≤ c := by
  induction l with
  | nil => cases h
  | cons a l ih =>
    unfold minCost
    rw [List.foldr_cons]
    rcases List.mem_cons.1 h with h1 | h1
    · rw [h1]; exact min_le_left _ _
    · exact le_trans (min_le_right _ _) (ih h1)

theorem minCost_mem_or_top (l : List Cost) : minCost l = ⊤ ∨ minCost l ∈ l := by
  induction l with
  | nil => exact Or.inl rfl
  | cons a l ih =>
    have e : minCost (a :: l) = min a (minCost l) := rfl
    rw [e]
    rcases min_choice a (minCost l) with h | h
    · rw [h]; exact Or.inr (List.mem_cons_self _ _)
    · rw [h]
      rcases ih with h1 | h1
      · exact Or.inl h1
      · exact Or.inr (List.mem_cons_of_mem _ h1)

theorem eq_minCost {l : List Cost} {m : Cost} (h1 : ∀ c ∈ l, m ≤ c) (h2 : m = ⊤ ∨ m ∈ l) :
    m = minCost l := by
  apply le_antisymm
  · rcases minCost_mem_or_top l with h | h
    · rw [h]; exact le_top
    · exact h1 _ h
  · rcases h2 with h | h
    · rw [h]; exact le_top
    · exact minCost_le h

/-! ### The run of the whole program -/

theorem program_run {steps : List Step} {order : List Int}
    (hperm : order.Perm (readFile steps).ids) (hne : steps ≠ []) :
    ∃ s0 r0 out, makeVertexHeap (readFile steps) order = some s0 ∧ PrimInv steps s0 ∧
      (∀ p, ¬ popped steps s0 p) ∧ primRun s0 = some out ∧ prim s0 = some out.1 ∧
      Run steps s0 r0 out.2 := by
  obtain ⟨s0, hs0, hinv0, hp0, hpop0, _, _⟩ := init_inv hperm
  have hpos : 0 < s0.vh.length := by
    obtain ⟨e, l, rfl⟩ := List.exists_cons_of_ne_nil hne
    have : e.a ∈ s0.vh := by
      rw [hp0.mem_iff, hperm.mem_iff, mem_ids_iff, readFile_isSome]
      exact ⟨e, List.mem_cons_self _ _, Or.inl rfl⟩
    exact List.length_pos_of_mem this
  obtain ⟨t, w, s2, hstep⟩ := prim_step hinv0 hpos
  obtain ⟨r, tr, hrun, hloop⟩ := run_exists steps s2.vh.length s2 rfl hstep.inv
  exact ⟨s0, _, _, hs0, hinv0, hpop0, primRun_eq hstep hloop, prim_eq hstep hloop,
    Run.step hstep hrun⟩

theorem mem_getElem? {l : List Snapshot} {x : Snapshot} (h : x ∈ l) :
    ∃ k : Nat, l[k]? = some x :=
  List.mem_iff_getElem?.1 h

theorem mem_poppedUpTo {tr : List Snapshot} {k j : Nat} {sk : Snapshot}
    (hk : tr[k]? = some sk) (hkj : k ≤ j) : sk.popped ∈ poppedUpTo tr j := by
  unfold poppedUpTo
  apply List.mem_map_of_mem
  apply List.getElem?_mem (n := k)
  rw [List.getElem?_take, if_pos (by omega)]
  exact hk

theorem mem_costsInto {steps : List Step} {P : List Int} {p : Int} {c : Cost} :
    c ∈ costsInto steps P p ↔ ∃ e ∈ steps, (∃ u, joins e p u ∧ u ∈ P) ∧ e.c = c := by
  unfold costsInto joins
  simp only [List.mem_map, List.mem_filter, decide_eq_true_eq]
  constructor
  · rintro ⟨e, ⟨he, h⟩, hc⟩
    refine ⟨e, he, ?_, hc⟩
    rcases h with ⟨h1, h2⟩ | ⟨h1, h2⟩
    · exact ⟨e.b, Or.inl ⟨h1, rfl⟩, h2⟩
    · exact ⟨e.a, Or.inr ⟨rfl, h1⟩, h2⟩
  · rintro ⟨e, he, ⟨u, hj, hu⟩, hc⟩
    refine ⟨e, ⟨he, ?_⟩, hc⟩
    rcases hj with ⟨h1, h2⟩ | ⟨h1, h2⟩
    · exact Or.inl ⟨h1, h2 ▸ hu⟩
    · exact Or.inr ⟨h2, h1 ▸ hu⟩

theorem connects_congr {steps1 steps2 T : List Step}
    (h : ∀ p, Registered steps1 p ↔ Registered steps2 p) (hc : Connects steps1 T) :
    Connects steps2 T :=
  fun x y hx hy => hc x y ((h x).2 hx) ((h y).2 hy)

theorem computeMST_le {steps1 steps2 : List Step} {order1 order2 : List Int}
    (h1 : order1.Perm (readFile steps1).ids) (h2 : order2.Perm (readFile steps2).ids)
    (hne1 : steps1 ≠ []) (hne2 : steps2 ≠ [])
    (hreg : ∀ p, Registered steps1 p ↔ Registered steps2 p)
    (hdom : ∀ e ∈ steps2, ∃ d ∈ steps1, (∀ x y, joins e x y → joins d x y) ∧ d.c ≤ e.c) :
    ∃ r1 r2, computeMST steps1 order1 = some r1 ∧ computeMST steps2 order2 = some r2 ∧
      r1 ≤ r2 := by
  obtain ⟨r1, hr1, hlb1, _, _⟩ := computeMST_char h1 hne1
  obtain ⟨r2, hr2, _, hatt2, _⟩ := computeMST_char h2 hne2
  refine ⟨r1, r2, hr1, hr2, ?_⟩
  rcases hatt2 with h | ⟨T, ⟨hsub, hlen, hconn⟩, hw⟩
  · rw [h]; exact le_top
  · rw [hw]
    apply hlb1 T
    · intro e he
      exact hdom e (hsub.subset he)
    · rw [hlen, vertices_length_congr hreg]
    · exact connects_congr (fun p => (hreg p).symm) hconn

theorem run_key_le_start {steps : List Step} {s : State} {r : Cost} {tr : List Snapshot}
    (hrun : Run steps s r tr) (p : Int) :
    ∀ (k : Nat) (sk : Snapshot), tr[k]? = some sk → key sk.st p ≤ key s p := by
  induction hrun with
  | done _ => intro k sk h; simp at h
  | @step s t s2 w r tr hstep _ ih =>
    intro k sk hk
    have h1 : key t p = key s p := hstep.data.key_eq p
    have h2 : key s2 p ≤ key s p := h1 ▸ hstep.mono p
    match k with
    | 0 =>
      simp only [List.getElem?_cons_zero, Option.some.injEq] at hk
      subst hk
      exact le_of_eq h1
    | 1 =>
      simp only [List.getElem?_cons_succ, List.getElem?_cons_zero, Option.some.injEq] at hk
      subst hk
      exact h2
    | k + 2 =>
      simp only [List.getElem?_cons_succ] at hk
      exact le_trans (ih k sk hk) h2

theorem run_key_mono {steps : List Step} {s : State} {r : Cost} {tr : List Snapshot}
    (hrun : Run steps s r tr) (p : Int) :
    ∀ (k j : Nat) (sk sj : Snapshot), tr[k]? = some sk → tr[j]? = some sj → k ≤ j →
      key sj.st p ≤ key sk.st p := by
  induction hrun with
  | done _ => intro k j sk sj h; simp at h
  | @step s t s2 w r tr hstep hrest ih =>
    intro k j sk sj hk hj hkj
    have h2 : key s2 p ≤ key t p := hstep.mono p
    match k, j with
    | 0, 0 =>
      rw [hk] at hj
      cases hj
      exact le_refl _
    | 0, 1 =>
      simp only [List.getElem?_cons_zero, Option.some.injEq] at hk
      simp only [List.getElem?_cons_succ, List.getElem?_cons_zero, Option.some.injEq] at hj
      subst hk; subst hj
      exact h2
    | 0, j + 2 =>
      simp only [List.getElem?_cons_zero, Option.some.injEq] at hk
      simp only [List.getElem?_cons_succ] at hj
      subst hk
      exact le_trans (run_key_le_start hrest p j sj hj) h2
    | 1, 0 => omega
    | 1, 1 =>
      rw [hk] at hj
      cases hj
      exact le_refl _
    | 1, j + 2 =>
      simp only [List.getElem?_cons_succ, List.getElem?_cons_zero, Option.some.injEq] at hk
      simp only [List.getElem?_cons_succ] at hj
      subst hk
      exact run_key_le_start hrest p j sj hj
    | k + 2, 0 => omega
    | k + 2, 1 => omega
    | k + 2, j + 2 =>
      simp only [List.getElem?_cons_succ] at hk hj
      exact ih k j sk sj hk hj (by omega)

/-! ### The properties of the specification -/

theorem connects_single (a b : Int) (c : Cost) : Connects [⟨a, b, c⟩] [⟨a, b, c⟩] := by
  intro x y hx hy
  have hadj : Adj [(⟨a, b, c⟩ : Step)] a b := ⟨_, List.mem_singleton_self _, Or.inl ⟨rfl, rfl⟩⟩
  have hab : Relation.ReflTransGen (Adj [(⟨a, b, c⟩ : Step)]) a b :=
    Relation.ReflTransGen.single hadj
  have hba : Relation.ReflTransGen (Adj [(⟨a, b, c⟩ : Step)]) b a :=
    Relation.ReflTransGen.single (adj_symm _ hadj)
  obtain ⟨e, he, hx⟩ := hx
  obtain ⟨d, hd, hy⟩ := hy
  rw [List.mem_singleton] at he hd
  subst he; subst hd
  simp only at hx hy
  rcases hx with hx | hx <;> rcases hy with hy | hy <;> subst hx <;> subst hy
  · exact Relation.ReflTransGen.refl
  · exact hab
  · exact hba
  · exact Relation.ReflTransGen.refl

/-- With exact addition: for a connected graph with at least one vertex,
built by `connect` steps with finite costs (non-negative or not), and for
every order in which `makeVertexHeap` ranges over the registered vertices,
`prim` returns the least element of the set of the total costs of the spanning
trees of the graph. -/
theorem exact_total_is_least (steps : List Step) (order : List Int)
    (hperm : order.Perm (readFile steps).ids) (hne : steps ≠ [])
    (hcost : ∀ e ∈ steps, e.c ≠ ⊤) (hconn : Connects steps steps) :
    ∃ r, computeMST steps order = some r ∧
      IsLeast {x | ∃ T, IsSpanningTree steps T ∧ weight T = x} r := by
  obtain ⟨r, hr, hlb, hatt, hfin⟩ := computeMST_char hperm hne
  have hne_top : r ≠ ⊤ := hfin hcost hconn
  refine ⟨r, hr, ?_, ?_⟩
  · rcases hatt with h | ⟨T, hT, hw⟩
    · exact absurd h hne_top
    · exact ⟨T, hT, hw.symm⟩
  · rintro x ⟨T, ⟨hsub, hlen, hc⟩, rfl⟩
    exact hlb T (spanning_dominated hsub) hlen hc

/-- C2: on the graph with the vertices 1, 2, 3, 4 (for A, B, C, D) and the
edges A-B:1, B-C:2, C-D:1, A-D:5, B-D:4, `makeVertexHeap` followed by `prim`
returns exactly 4, for every one of the orderings of the four vertices in the
initial heap array. -/
theorem C2_four_vertex_graph_total (order : List Int) (hperm : order.Perm [1, 2, 3, 4]) :
    computeMST [⟨1, 2, 1⟩, ⟨2, 3, 2⟩, ⟨3, 4, 1⟩, ⟨1, 4, 5⟩, ⟨2, 4, 4⟩] order = some 4 := by
  have hall : ∀ o ∈ List.permutations' [(1 : Int), 2, 3, 4],
      computeMST [⟨1, 2, 1⟩, ⟨2, 3, 2⟩, ⟨3, 4, 1⟩, ⟨1, 4, 5⟩, ⟨2, 4, 4⟩] o = some 4 := by
    decide
  exact hall order (List.mem_permutations'.2 hperm)

theorem C2_witness :
    computeMST [⟨1, 2, 1⟩, ⟨2, 3, 2⟩, ⟨3, 4, 1⟩, ⟨1, 4, 5⟩, ⟨2, 4, 4⟩] [3, 1, 4, 2] = some 4 :=
  C2_four_vertex_graph_total [3, 1, 4, 2] (by decide)

theorem registered_single (a b : Int) (c : Cost) (p : Int) :
    Registered [⟨a, b, c⟩] p ↔ p = a ∨ p = b := by
  unfold Registered
  simp only [List.mem_singleton, exists_eq_left]
  constructor
  · rintro (h | h)
    · exact Or.inl h.symm
    · exact Or.inr h.symm
  · rintro (h | h)
    · exact Or.inl h.symm
    · exact Or.inr h.symm

theorem perm_ids_of_mem {steps : List Step} {order : List Int} (hnd : order.Nodup)
    (hmem : ∀ p, p ∈ order ↔ Registered steps p) : order.Perm (readFile steps).ids := by
  rw [List.perm_ext_iff_of_nodup hnd (readFile_ids_nodup steps)]
  intro p
  rw [hmem, mem_ids_iff, readFile_isSome]

/-- C3: for every finite cost `c` (non-negative or not) and every two
distinct vertex ids `a` and `b`, the graph built by the single step
`connect(a, b, c)` yields `prim = c`, for both orders of the two vertices in
the initial heap array. -/
theorem C3_single_edge_total (a b : Int) (c : ℤ) (hab : a ≠ b)
    (order : List Int) (horder : order = [a, b] ∨ order = [b, a]) :
    computeMST [⟨a, b, (c : Cost)⟩] order = some (c : Cost) := by
  have hnd : order.Nodup := by
    rcases horder with h | h <;> rw [h] <;> simp [hab, Ne.symm hab]
  have hmem : ∀ p, p ∈ order ↔ Registered [⟨a, b, (c : Cost)⟩] p := by
    intro p
    rw [registered_single]
    rcases horder with h | h <;> rw [h] <;> simp [or_comm]
  have hperm := perm_ids_of_mem hnd hmem
  have hlen : order.length = 2 := by
    rcases horder with h | h <;> rw [h] <;> rfl
  have hvert : (vertices [⟨a, b, (c : Cost)⟩]).length = 2 := by
    rw [(vertices_perm_ids _).length_eq, ← hperm.length_eq, hlen]
  obtain ⟨r, hr, hlb, hatt, _⟩ := computeMST_char hperm (by simp)
  rw [hr]
  congr 1
  have hle : r ≤ (c : Cost) := by
    have := hlb [⟨a, b, (c : Cost)⟩] (spanning_dominated (List.Subperm.refl _))
      (by rw [hvert]; rfl) (connects_single a b c)
    simpa [weight] using this
  rcases hatt with h | ⟨T, ⟨hsub, hTlen, _⟩, hw⟩
  · rw [h] at hle
    exact absurd (top_le_iff.1 hle) WithTop.coe_ne_top
  · rw [hvert] at hTlen
    obtain ⟨x, rfl⟩ : ∃ x, T = [x] := List.length_eq_one.1 (by omega)
    have hx : x = ⟨a, b, (c : Cost)⟩ :=
      List.mem_singleton.1 (hsub.subset (List.mem_singleton_self x))
    rw [hw, hx]
    simp [weight]

theorem C3_witness : computeMST [⟨1, 2, ((5 : ℤ) : Cost)⟩] [2, 1] = some ((5 : ℤ) : Cost) :=
  C3_single_edge_total 1 2 5 (by decide) [2, 1] (Or.inr rfl)

theorem registered_insert {pre post : List Step} {x y : Step}
    (hy : y ∈ pre ++ post) (hab : ∀ p, (x.a = p ∨ x.b = p) → (y.a = p ∨ y.b = p)) (p : Int) :
    Registered (pre ++ x :: post) p ↔ Registered (pre ++ post) p := by
  unfold Registered
  constructor
  · rintro ⟨e, he, h⟩
    rw [List.mem_append, List.mem_cons] at he
    rcases he with he | rfl | he
    · exact ⟨e, List.mem_append_left _ he, h⟩
    · exact ⟨y, hy, hab p h⟩
    · exact ⟨e, List.mem_append_right _ he, h⟩
  · rintro ⟨e, he, h⟩
    rw [List.mem_append] at he
    rcases he with he | he
    · exact ⟨e, List.mem_append_left _ he, h⟩
    · exact ⟨e, List.mem_append_right _ (List.mem_cons_of_mem _ he), h⟩

/-- With exact addition: for every graph, every pair of vertices `a`, `b`
(distinct or not) and all finite costs `c1 <= c2`, the input that contains
both `connect(a, b, c1)` and `connect(a, b, c2)` yields the same `prim` total
as the input without the step `connect(a, b, c2)`, all other steps being the
same, whatever the orders of the initial heap arrays. -/
theorem exact_parallel_edge_keeps_total (pre post : List Step) (a b : Int) (c1 c2 : ℤ)
    (hle : c1 ≤ c2) (hmem : (⟨a, b, (c1 : Cost)⟩ : Step) ∈ pre ++ post)
    (order1 order2 : List Int)
    (h1 : order1.Perm (readFile (pre ++ ⟨a, b, (c2 : Cost)⟩ :: post)).ids)
    (h2 : order2.Perm (readFile (pre ++ post)).ids) :
    computeMST (pre ++ ⟨a, b, (c2 : Cost)⟩ :: post) order1 = computeMST (pre ++ post) order2 := by
  have hne1 : pre ++ (⟨a, b, (c2 : Cost)⟩ : Step) :: post ≠ [] := by simp
  have hne2 : pre ++ post ≠ [] := List.ne_nil_of_mem hmem
  have hreg : ∀ p, Registered (pre ++ (⟨a, b, (c2 : Cost)⟩ : Step) :: post) p ↔
      Registered (pre ++ post) p :=
    registered_insert hmem (fun _ h => h)
  obtain ⟨r1, r2, hr1, hr2, h12⟩ := computeMST_le h1 h2 hne1 hne2 hreg (by
    intro e he
    refine ⟨e, ?_, fun _ _ h => h, le_refl _⟩
    rw [List.mem_append] at he ⊢
    rcases he with he | he
    · exact Or.inl he
    · exact Or.inr (List.mem_cons_of_mem _ he))
  obtain ⟨r2', r1', hr2', hr1', h21⟩ := computeMST_le h2 h1 hne2 hne1 (fun p => (hreg p).symm)
    (by
      intro e he
      rw [List.mem_append, List.mem_cons] at he
      rcases he with he | rfl | he
      · exact ⟨e, List.mem_append_left _ he, fun _ _ h => h, le_refl _⟩
      · exact ⟨_, hmem, fun _ _ h => h, WithTop.coe_le_coe.2 hle⟩
      · exact ⟨e, List.mem_append_right _ he, fun _ _ h => h, le_refl _⟩)
  rw [hr1] at hr1'
  rw [hr2] at hr2'
  cases hr1'
  cases hr2'
  rw [hr1, hr2, le_antisymm h12 h21]

/-- With exact addition: for every graph built by `connect` steps (whatever
the costs) and for any two orders in which `makeVertexHeap` may range over the
registered vertices, `prim` returns the same total. -/
theorem exact_total_independent_of_order (steps : List Step) (order1 order2 : List Int)
    (h1 : order1.Perm (readFile steps).ids) (h2 : order2.Perm (readFile steps).ids) :
    computeMST steps order1 = computeMST steps order2 := by
  by_cases hne : steps = []
  · subst hne
    have e1 : order1 = [] := List.Perm.eq_nil h1
    have e2 : order2 = [] := List.Perm.eq_nil h2
    rw [e1, e2]
  · obtain ⟨r1, r2, hr1, hr2, h12⟩ := computeMST_le h1 h2 hne hne (fun _ => Iff.rfl)
      (fun e he => ⟨e, he, fun _ _ h => h, le_refl _⟩)
    obtain ⟨r2', r1', hr2', hr1', h21⟩ := computeMST_le h2 h1 hne hne (fun _ => Iff.rfl)
      (fun e he => ⟨e, he, fun _ _ h => h, le_refl _⟩)
    rw [hr1] at hr1'
    rw [hr2] at hr2'
    cases hr1'
    cases hr2'
    rw [hr1, hr2, le_antisymm h12 h21]

/-- C6: after `makeVertexHeap`, and after every later `heap.Pop` and every
completed `UpdateHeap` call of `prim`, the heap invariant holds: for every
array position `i > 0`, `vh[(i-1)/2].CheapestEdge <= vh[i].CheapestEdge`, and
for every position `i`, `vh[i].Index = i`. -/
theorem C6_heap_invariant_along_run (steps : List Step) (order : List Int)
    (hperm : order.Perm (readFile steps).ids) :
    ∃ s0, makeVertexHeap (readFile steps) order = some s0 ∧ HeapInvariant s0 ∧
      (steps ≠ [] → ∃ out, primRun s0 = some out ∧ prim s0 = some out.1 ∧
        ∀ snap ∈ out.2, HeapInvariant snap.st) := by
  obtain ⟨s0, hs0, hinv0, _⟩ := init_inv hperm
  refine ⟨s0, hs0, hinv0.heap.heapInvariant, ?_⟩
  intro hne
  obtain ⟨s0', r0, out, hs0', hinv, _, hrun, hprim, hR⟩ := program_run hperm hne
  rw [hs0] at hs0'
  cases hs0'
  refine ⟨out, hrun, hprim, ?_⟩
  intro snap hsnap
  obtain ⟨k, hk⟩ := mem_getElem? hsnap
  exact (run_snap hR hinv k snap hk).heap.heapInvariant

theorem C6_witness :
    ∃ s0, makeVertexHeap (readFile [⟨1, 2, 3⟩, ⟨2, 3, 1⟩]) [3, 1, 2] = some s0 ∧
      HeapInvariant s0 ∧
      ([⟨1, 2, 3⟩, ⟨2, 3, 1⟩] ≠ ([] : List Step) → ∃ out, primRun s0 = some out ∧
        prim s0 = some out.1 ∧ ∀ snap ∈ out.2, HeapInvariant snap.st) :=
  C6_heap_invariant_along_run [⟨1, 2, 3⟩, ⟨2, 3, 1⟩] [3, 1, 2] (by decide)

/-- C7: after the seed's `UpdateHeap` and after every `UpdateHeap` in the
loop of `prim`, for every vertex still in the heap, `CheapestEdge` is the
least cost of the edges that join it to a vertex popped so far, and `⊤` when
there is no such edge. -/
theorem C7_frontier_cost_invariant (steps : List Step) (order : List Int)
    (hperm : order.Perm (readFile steps).ids) (hne : steps ≠ []) :
    ∃ s0 out, makeVertexHeap (readFile steps) order = some s0 ∧ primRun s0 = some out ∧
      ∀ (k : Nat) (snap : Snapshot), out.2[k]? = some snap → snap.phase = Phase.afterUpdate →
        ∀ p ∈ snap.st.vh, ∃ v, snap.st.deref p = some v ∧
          v.CheapestEdge = minCost (costsInto steps (poppedUpTo out.2 k) p) := by
  obtain ⟨s0, r0, out, hs0, hinv, hpop0, hrun, _, hR⟩ := program_run hperm hne
  refine ⟨s0, out, hs0, hrun, ?_⟩
  intro k snap hk hphase p hp
  have hsnap := run_snap hR hinv k snap hk
  have hpinv := hsnap.inv hphase
  have hpopped : ∀ u, popped steps snap.st u ↔ u ∈ poppedUpTo out.2 k := by
    intro u
    rw [hsnap.pop]
    constructor
    · rintro (h | h)
      · exact absurd h (hpop0 u)
      · exact h
    · exact Or.inr
  have hsome := hsnap.heap.1.mem_isSome hp
  cases hv : snap.st.deref p with
  | none => rw [hv] at hsome; cases hsome
  | some v =>
    refine ⟨v, rfl, ?_⟩
    rw [← key_eq_of_deref hv]
    apply eq_minCost
    · intro c hc
      obtain ⟨e, he, ⟨u, hj, hu⟩, rfl⟩ := mem_costsInto.1 hc
      exact hpinv.low p hp e he u hj ((hpopped u).2 hu)
    · rcases hpinv.att p hp with h | ⟨e, he, u, hj, hu, hk⟩
      · exact Or.inl h
      · right
        rw [hk]
        exact mem_costsInto.2 ⟨e, he, ⟨u, hj, (hpopped u).1 hu⟩, rfl⟩

theorem C7_witness :
    ∃ s0 out, makeVertexHeap (readFile [⟨1, 2, 3⟩, ⟨2, 3, 1⟩]) [3, 1, 2] = some s0 ∧
      primRun s0 = some out ∧
      ∀ (k : Nat) (snap : Snapshot), out.2[k]? = some snap → snap.phase = Phase.afterUpdate →
        ∀ p ∈ snap.st.vh, ∃ v, snap.st.deref p = some v ∧
          v.CheapestEdge =
            minCost (costsInto [⟨1, 2, 3⟩, ⟨2, 3, 1⟩] (poppedUpTo out.2 k) p) :=
  C7_frontier_cost_invariant [⟨1, 2, 3⟩, ⟨2, 3, 1⟩] [3, 1, 2] (by decide) (by simp)

/-- C8: on a non-empty heap that satisfies the heap invariant, `heap.Pop`
returns a vertex whose `CheapestEdge` is at most that of every vertex that was
in the heap, sets the `Index` of that vertex to `-1`, and leaves a heap that
is one shorter, holds exactly the other vertices, and satisfies the heap
invariant again. -/
theorem C8_heap_pop_returns_minimum (s : State) (hinv : HeapInvariant s)
    (hne : 0 < s.vh.length) :
    ∃ t w, heapPop s = some (t, w) ∧
      (∃ vw, s.deref w = some vw ∧
        ∀ p ∈ s.vh, ∃ vp, s.deref p = some vp ∧ vw.CheapestEdge ≤ vp.CheapestEdge) ∧
      (∃ u, t.deref w = some u ∧ u.Index = -1) ∧
      t.vh.length + 1 = s.vh.length ∧ (w :: t.vh).Perm s.vh ∧ HeapInvariant t := by
  obtain ⟨hpos, hheap⟩ := (heapInvariant_iff s).1 hinv
  obtain ⟨t, w, hpop, hroot, hdata, hperm, hpost, hheapt, _, hgone, hleast⟩ :=
    heapPop_spec hpos hheap hne
  have hwmem : w ∈ s.vh := List.getElem?_mem hroot
  have hperm2 : (w :: t.vh).Perm s.vh := (List.perm_append_singleton w t.vh).symm.trans hperm
  refine ⟨t, w, hpop, ?_, ?_, ?_, hperm2, (heapInvariant_iff t).2 ⟨hpost, hheapt⟩⟩
  · have hsw := hpos.mem_isSome hwmem
    cases hvw : s.deref w with
    | none => rw [hvw] at hsw; cases hsw
    | some vw =>
      refine ⟨vw, rfl, ?_⟩
      intro p hp
      have hsp := hpos.mem_isSome hp
      cases hvp : s.deref p with
      | none => rw [hvp] at hsp; cases hsp
      | some vp =>
        refine ⟨vp, rfl, ?_⟩
        rw [← key_eq_of_deref hvw, ← key_eq_of_deref hvp]
        exact hleast p hp
  · have hsw : (t.deref w).isSome := by
      rw [hdata.isSome_eq]; exact hpos.mem_isSome hwmem
    cases hu : t.deref w with
    | none => rw [hu] at hsw; cases hsw
    | some u =>
      refine ⟨u, rfl, ?_⟩
      rw [← idx_eq_of_deref hu]
      exact hgone
  · have := hperm2.length_eq
    simpa using this

theorem C8_witness :
    ∃ t w, heapPop ⟨[⟨1, [], [], 5, 0⟩, ⟨2, [], [], 7, 1⟩], [1, 2]⟩ = some (t, w) ∧
      (∃ vw, (⟨[⟨1, [], [], 5, 0⟩, ⟨2, [], [], 7, 1⟩], [1, 2]⟩ : State).deref w = some vw ∧
        ∀ p ∈ (⟨[⟨1, [], [], 5, 0⟩, ⟨2, [], [], 7, 1⟩], [1, 2]⟩ : State).vh,
          ∃ vp, (⟨[⟨1, [], [], 5, 0⟩, ⟨2, [], [], 7, 1⟩], [1, 2]⟩ : State).deref p = some vp ∧
            vw.CheapestEdge ≤ vp.CheapestEdge) ∧
      (∃ u, t.deref w = some u ∧ u.Index = -1) ∧
      t.vh.length + 1 = (⟨[⟨1, [], [], 5, 0⟩, ⟨2, [], [], 7, 1⟩], [1, 2]⟩ : State).vh.length ∧
      (w :: t.vh).Perm (⟨[⟨1, [], [], 5, 0⟩, ⟨2, [], [], 7, 1⟩], [1, 2]⟩ : State).vh ∧
      HeapInvariant t :=
  C8_heap_pop_returns_minimum ⟨[⟨1, [], [], 5, 0⟩, ⟨2, [], [], 7, 1⟩], [1, 2]⟩
    (by
      constructor
      · intro i hi0 hin
        have hi : i = 1 := by
          have : i < 2 := hin
          omega
        subst hi
        exact ⟨5, 7, rfl, rfl, by decide⟩
      · intro i hin
        have hi : i = 0 ∨ i = 1 := by
          have : i < 2 := hin
          omega
        rcases hi with hi | hi <;> subst hi <;> rfl)
    (by decide)

/-- C9: at every step of `prim` after `makeVertexHeap`, a registered vertex
has `Index >= 0` exactly when it is in the heap array, and then `vh[Index]` is
that vertex; and a vertex that has been popped has `Index = -1` and is not in
the heap array in the state after its pop and in every later state. -/
theorem C9_index_tracks_heap_membership (steps : List Step) (order : List Int)
    (hperm : order.Perm (readFile steps).ids) (hne : steps ≠ []) :
    ∃ s0 out, makeVertexHeap (readFile steps) order = some s0 ∧ primRun s0 = some out ∧
      IndexIff s0 ∧ (∀ snap ∈ out.2, IndexIff snap.st) ∧
      ∀ (k j : Nat) (sk sj : Snapshot), out.2[k]? = some sk → out.2[j]? = some sj → k ≤ j →
        sk.popped ∉ sj.st.vh ∧ ∃ v, sj.st.deref sk.popped = some v ∧ v.Index = -1 := by
  obtain ⟨s0, r0, out, hs0, hinv, _, hrun, _, hR⟩ := program_run hperm hne
  refine ⟨s0, out, hs0, hrun, hinv.heap.indexIff, ?_, ?_⟩
  · intro snap hsnap
    obtain ⟨k, hk⟩ := mem_getElem? hsnap
    exact (run_snap hR hinv k snap hk).heap.indexIff
  · intro k j sk sj hk hj hkj
    have hsj := run_snap hR hinv j sj hj
    have hp : popped steps sj.st sk.popped :=
      (hsj.pop _).2 (Or.inr (mem_poppedUpTo hk hkj))
    refine ⟨hp.2, ?_⟩
    have hsome := (hsj.reg sk.popped).2 hp.1
    cases hv : sj.st.deref sk.popped with
    | none => rw [hv] at hsome; cases hsome
    | some v =>
      refine ⟨v, rfl, ?_⟩
      rw [← idx_eq_of_deref hv]
      exact hsj.heap.2.1 _ hp.2

theorem C9_witness :
    ∃ s0 out, makeVertexHeap (readFile [⟨1, 2, 3⟩, ⟨2, 3, 1⟩]) [3, 1, 2] = some s0 ∧
      primRun s0 = some out ∧ IndexIff s0 ∧ (∀ snap ∈ out.2, IndexIff snap.st) ∧
      ∀ (k j : Nat) (sk sj : Snapshot), out.2[k]? = some sk → out.2[j]? = some sj → k ≤ j →
        sk.popped ∉ sj.st.vh ∧ ∃ v, sj.st.deref sk.popped = some v ∧ v.Index = -1 :=
  C9_index_tracks_heap_membership [⟨1, 2, 3⟩, ⟨2, 3, 1⟩] [3, 1, 2] (by decide) (by simp)

theorem cost_of_key {s t : State} {p : Int} {v : Vertex} (hv : s.deref p = some v)
    (hg : SameGraph s t) : ∃ u, t.deref p = some u ∧ u.CheapestEdge = key t p := by
  obtain ⟨u, hu⟩ := deref_of_sameGraph hg hv
  exact ⟨u, hu, (key_eq_of_deref hu).symm⟩

/-- C10: the field `CheapestEdge` of a vertex never increases.  In every
state, `makeVertexHeap` and `heap.Pop` leave it as it is and `UpdateHeap`
leaves it equal or strictly smaller; and along the run of `makeVertexHeap` and
`prim` on an input, the cost behind a pointer `p` in a later state is at most
the one in an earlier state, which is at most the one `readFile` left. -/
theorem C10_cheapest_edge_never_increases (steps : List Step) (order : List Int)
    (hperm : order.Perm (readFile steps).ids) (p : Int) :
    (∀ (s : State) (v : Vertex), s.deref p = some v →
      (∀ o t, makeVertexHeap s o = some t →
        ∃ u, t.deref p = some u ∧ u.CheapestEdge = v.CheapestEdge) ∧
      (∀ t w, heapPop s = some (t, w) →
        ∃ u, t.deref p = some u ∧ u.CheapestEdge = v.CheapestEdge) ∧
      (∀ w t, UpdateHeap s w = some t →
        ∃ u, t.deref p = some u ∧ u.CheapestEdge ≤ v.CheapestEdge)) ∧
    (steps ≠ [] → ∃ s0 out, makeVertexHeap (readFile steps) order = some s0 ∧
      primRun s0 = some out ∧ key s0 p = key (readFile steps) p ∧
      ∀ (k j : Nat) (sk sj : Snapshot), out.2[k]? = some sk → out.2[j]? = some sj → k ≤ j →
        key sj.st p ≤ key sk.st p ∧ key sk.st p ≤ key s0 p) := by
  constructor
  · intro s v hv
    have hk := key_eq_of_deref hv
    refine ⟨?_, ?_, ?_⟩
    · intro o t h
      have hd := makeVertexHeap_sameData h
      obtain ⟨u, hu, huk⟩ := cost_of_key hv hd.sameGraph
      exact ⟨u, hu, by rw [huk, hd.key_eq, hk]⟩
    · intro t w h
      have hd := heapPop_sameData h
      obtain ⟨u, hu, huk⟩ := cost_of_key hv hd.sameGraph
      exact ⟨u, hu, by rw [huk, hd.key_eq, hk]⟩
    · intro w t h
      obtain ⟨hg, hle⟩ := UpdateHeap_mono h
      obtain ⟨u, hu, huk⟩ := cost_of_key hv hg
      exact ⟨u, hu, by rw [huk, ← hk]; exact hle p⟩
  · intro hne
    obtain ⟨s0, r0, out, hs0, _, _, hrun, _, hR⟩ := program_run hperm hne
    refine ⟨s0, out, hs0, hrun, (makeVertexHeap_sameData hs0).key_eq p, ?_⟩
    intro k j sk sj hk hj hkj
    exact ⟨run_key_mono hR p k j sk sj hk hj hkj, run_key_le_start hR p k sk hk⟩

theorem C10_witness :
    (∀ (s : State) (v : Vertex), s.deref 2 = some v →
      (∀ o t, makeVertexHeap s o = some t →
        ∃ u, t.deref 2 = some u ∧ u.CheapestEdge = v.CheapestEdge) ∧
      (∀ t w, heapPop s = some (t, w) →
        ∃ u, t.deref 2 = some u ∧ u.CheapestEdge = v.CheapestEdge) ∧
      (∀ w t, UpdateHeap s w = some t →
        ∃ u, t.deref 2 = some u ∧ u.CheapestEdge ≤ v.CheapestEdge)) ∧
    ([⟨1, 2, 3⟩, ⟨2, 3, 1⟩] ≠ ([] : List Step) →
      ∃ s0 out, makeVertexHeap (readFile [⟨1, 2, 3⟩, ⟨2, 3, 1⟩]) [3, 1, 2] = some s0 ∧
      primRun s0 = some out ∧ key s0 2 = key (readFile [⟨1, 2, 3⟩, ⟨2, 3, 1⟩]) 2 ∧
      ∀ (k j : Nat) (sk sj : Snapshot), out.2[k]? = some sk → out.2[j]? = some sj → k ≤ j →
        key sj.st 2 ≤ key sk.st 2 ∧ key sk.st 2 ≤ key s0 2) :=
  C10_cheapest_edge_never_increases [⟨1, 2, 3⟩, ⟨2, 3, 1⟩] [3, 1, 2] (by decide) 2

/-! ### Properties that every exchange of two slots keeps -/

theorem downLoop_keeps (P : State → Prop)
    (hP : ∀ (s : State) (i j : Nat) (t : State), Swap s i j = some t → P s → P t) (n : Nat) :
    ∀ (f : Nat) (s : State) (i : Nat) (t : State) (i' : Nat),
      downLoop n f s i = some (t, i') → P s → P t := by
  intro f
  induction f with
  | zero => intro s i t i' h; simp [downLoop] at h
  | succ f ih =>
    intro s i t i' h hs
    rw [downLoop] at h
    by_cases h1 : n ≤ 2 * i + 1
    · simp only [h1, if_true] at h
      cases h; exact hs
    · simp only [h1, if_false, Option.bind_eq_bind, Option.bind_eq_some] at h
      obtain ⟨r, _, lt, _, h⟩ := h
      cases lt with
      | true =>
        simp only [if_true, Option.bind_eq_some] at h
        obtain ⟨s1, hs1, h⟩ := h
        exact ih _ _ _ _ h (hP _ _ _ _ hs1 hs)
      | false =>
        simp only [Bool.false_eq_true, if_false] at h
        cases h; exact hs

theorem down_keeps (P : State → Prop)
    (hP : ∀ (s : State) (i j : Nat) (t : State), Swap s i j = some t → P s → P t)
    {s t : State} {i0 n : Nat} {b : Bool} (h : down s i0 n = some (t, b)) (hs : P s) : P t := by
  unfold down at h
  simp only [Option.bind_eq_bind, Option.bind_eq_some, Option.pure_def, Option.some.injEq,
    Prod.mk.injEq] at h
  obtain ⟨r, hr, rfl, _⟩ := h
  exact downLoop_keeps P hP n _ _ _ _ _ hr hs

theorem upLoop_keeps (P : State → Prop)
    (hP : ∀ (s : State) (i j : Nat) (t : State), Swap s i j = some t → P s → P t) :
    ∀ (f : Nat) (s : State) (j : Nat) (t : State), upLoop f s j = some t → P s → P t := by
  intro f
  induction f with
  | zero => intro s j t h; simp [upLoop] at h
  | succ f ih =>
    intro s j t h hs
    rw [upLoop] at h
    by_cases h1 : (j - 1) / 2 = j
    · simp only [h1, if_true] at h
      cases h; exact hs
    · simp only [h1, if_false, Option.bind_eq_bind, Option.bind_eq_some] at h
      obtain ⟨lt, _, h⟩ := h
      cases lt with
      | true =>
        simp only [if_true, Option.bind_eq_some] at h
        obtain ⟨s1, hs1, h⟩ := h
        exact ih _ _ _ h (hP _ _ _ _ hs1 hs)
      | false =>
        simp only [Bool.false_eq_true, if_false] at h
        cases h; exact hs

theorem Fix_keeps (P : State → Prop)
    (hP : ∀ (s : State) (i j : Nat) (t : State), Swap s i j = some t → P s → P t)
    {s t : State} {i : Nat} (h : Fix s i = some t) (hs : P s) : P t := by
  unfold Fix at h
  simp only [Option.bind_eq_bind, Option.bind_eq_some] at h
  obtain ⟨r, hr, h⟩ := h
  have h1 := down_keeps P hP (b := r.2) (t := r.1) hr hs
  split_ifs at h with h2
  · cases h; exact h1
  · exact upLoop_keeps P hP _ _ _ _ h h1

/-! ### Vertices outside the heap array are out of reach of the heap -/

theorem Swap_outside (p : Int) (d : Option Vertex) (s : State) (i j : Nat) (t : State)
    (h : Swap s i j = some t) (hs : Outside p d s) : Outside p d t := by
  obtain ⟨hp, hd⟩ := hs
  refine ⟨fun hm => hp ((Swap_mem h p).1 hm), ?_⟩
  unfold Swap at h
  simp only [Option.bind_eq_bind, Option.bind_eq_some, Option.pure_def, Option.some.injEq] at h
  obtain ⟨a, ha, b, hb, rfl⟩ := h
  have hpa : p ≠ a := fun e => hp (e ▸ List.getElem?_mem ha)
  have hpb : p ≠ b := fun e => hp (e ▸ List.getElem?_mem hb)
  rw [deref_setIndex, if_neg hpa, deref_setIndex, if_neg hpb]
  exact hd

theorem Fix_outside {p : Int} {d : Option Vertex} {s t : State} {i : Nat}
    (h : Fix s i = some t) (hs : Outside p d s) : Outside p d t :=
  Fix_keeps (Outside p d) (Swap_outside p d) h hs

theorem VertexHeapPop_outside {p : Int} {d : Option Vertex} {s t : State} {w : Int}
    (h : VertexHeap.Pop s = some (t, w)) (hs : Outside p d s) : Outside p d t := by
  obtain ⟨hp, hd⟩ := hs
  unfold VertexHeap.Pop at h
  simp only [] at h
  split_ifs at h with h1
  simp only [Option.bind_eq_bind, Option.bind_eq_some, Option.pure_def, Option.some.injEq,
    Prod.mk.injEq] at h
  obtain ⟨v, hv, rfl, _⟩ := h
  have hpv : p ≠ v := fun e => hp (e ▸ List.getElem?_mem hv)
  refine ⟨fun hm => hp (List.mem_of_mem_take hm), ?_⟩
  show (s.setIndex v (-1)).deref p = d
  rw [deref_setIndex, if_neg hpv]
  exact hd

theorem heapPop_outside {p : Int} {d : Option Vertex} {s t : State} {w : Int}
    (h : heapPop s = some (t, w)) (hs : Outside p d s) : Outside p d t := by
  unfold heapPop at h
  split_ifs at h with h1
  simp only [Option.bind_eq_bind, Option.bind_eq_some] at h
  obtain ⟨s1, hs1, r, hr, h⟩ := h
  exact VertexHeapPop_outside h
    (down_keeps (Outside p d) (Swap_outside p d) (b := r.2) (t := r.1) hr
      (Swap_outside p d _ _ _ _ hs1 hs))

theorem relax_popped {s : State} {p : Int} {v : Vertex} (hv : s.deref p = some v)
    (hi : v.Index = -1) (c : Cost) : relax s p c = some s := by
  unfold relax
  simp [hv, hi]

theorem relax_outside {p : Int} {v : Vertex} {s t : State} {far : Int} {c : Cost}
    (hi : v.Index = -1) (h : relax s far c = some t) (hs : Outside p (some v) s) :
    Outside p (some v) t := by
  by_cases hfp : far = p
  · subst hfp
    rw [relax_popped hs.2 hi] at h
    cases h; exact hs
  · unfold relax at h
    simp only [Option.bind_eq_bind, Option.bind_eq_some] at h
    obtain ⟨u, _, h⟩ := h
    split_ifs at h with hc
    · refine Fix_outside h ⟨hs.1, ?_⟩
      rw [deref_setCheapestEdge, if_neg (Ne.symm hfp)]
      exact hs.2
    · cases h; exact hs

theorem relaxAll_outside {p : Int} {v : Vertex} (hi : v.Index = -1) (L : List (Int × Cost)) :
    ∀ (s t : State), relaxAll L s = some t → Outside p (some v) s → Outside p (some v) t := by
  induction L with
  | nil => intro s t h hs; cases h; exact hs
  | cons x L ih =>
    intro s t h hs
    obtain ⟨far, c⟩ := x
    rw [relaxAll] at h
    simp only [Option.bind_eq_bind, Option.bind_eq_some] at h
    obtain ⟨s1, hs1, h⟩ := h
    exact ih s1 t h (relax_outside hi hs1 hs)

theorem UpdateHeap_outside {p : Int} {v : Vertex} {s t : State} {w : Int}
    (hi : v.Index = -1) (h : UpdateHeap s w = some t) (hs : Outside p (some v) s) :
    Outside p (some v) t := by
  cases hw : s.deref w with
  | none => unfold UpdateHeap at h; rw [hw] at h; simp at h
  | some u =>
    rw [UpdateHeap_eq hw] at h
    exact relaxAll_outside hi _ _ _ h hs

theorem run_outside {steps : List Step} {s : State} {r : Cost} {tr : List Snapshot}
    (hrun : Run steps s r tr) {p : Int} {v : Vertex} (hi : v.Index = -1) :
    Outside p (some v) s → ∀ (k : Nat) (sk : Snapshot), tr[k]? = some sk →
      Outside p (some v) sk.st := by
  induction hrun with
  | done _ => intro _ k sk h; simp at h
  | @step s t s2 w r tr hstep _ ih =>
    intro hs k sk hk
    have ht := heapPop_outside hstep.pop hs
    have h2 := UpdateHeap_outside hi hstep.upd ht
    match k with
    | 0 =>
      simp only [List.getElem?_cons_zero, Option.some.injEq] at hk
      subst hk
      exact ht
    | 1 =>
      simp only [List.getElem?_cons_succ, List.getElem?_cons_zero, Option.some.injEq] at hk
      subst hk
      exact h2
    | k + 2 =>
      simp only [List.getElem?_cons_succ] at hk
      exact ih h2 k sk hk

theorem run_frozen {steps : List Step} {s : State} {r : Cost} {tr : List Snapshot}
    (hrun : Run steps s r tr) : PosOK s →
    ∀ (k j : Nat) (sk sj : Snapshot), tr[k]? = some sk → tr[j]? = some sj → k ≤ j →
      ∃ v, sk.st.deref sk.popped = some v ∧ v.Index = -1 ∧
        sj.st.deref sk.popped = some v := by
  induction hrun with
  | done _ => intro _ k j sk sj h; simp at h
  | @step s t s2 w r tr hstep hrest ih =>
    intro hpos k j sk sj hk hj hkj
    obtain ⟨v, hv, _⟩ := hstep.key_popped
    have hi : v.Index = -1 := by
      rw [← idx_eq_of_deref hv]
      exact hstep.gone
    have hwt : w ∉ t.vh := fun h => ((hstep.mem_mid hpos w).1 h).2 rfl
    have ht : Outside w (some v) t := ⟨hwt, hv⟩
    have h2 : Outside w (some v) s2 := UpdateHeap_outside hi hstep.upd ht
    match k, j with
    | 0, 0 =>
      simp only [List.getElem?_cons_zero, Option.some.injEq] at hk hj
      subst hk; subst hj
      exact ⟨v, hv, hi, hv⟩
    | 0, 1 =>
      simp only [List.getElem?_cons_zero, Option.some.injEq] at hk
      simp only [List.getElem?_cons_succ, List.getElem?_cons_zero, Option.some.injEq] at hj
      subst hk; subst hj
      exact ⟨v, hv, hi, h2.2⟩
    | 0, j + 2 =>
      simp only [List.getElem?_cons_zero, Option.some.injEq] at hk
      simp only [List.getElem?_cons_succ] at hj
      subst hk
      exact ⟨v, hv, hi, (run_outside hrest hi h2 j sj hj).2⟩
    | 1, 0 => omega
    | 1, 1 =>
      simp only [List.getElem?_cons_succ, List.getElem?_cons_zero, Option.some.injEq] at hk hj
      subst hk; subst hj
      exact ⟨v, h2.2, hi, h2.2⟩
    | 1, j + 2 =>
      simp only [List.getElem?_cons_succ, List.getElem?_cons_zero, Option.some.injEq] at hk
      simp only [List.getElem?_cons_succ] at hj
      subst hk
      exact ⟨v, h2.2, hi, (run_outside hrest hi h2 j sj hj).2⟩
    | k + 2, 0 => omega
    | k + 2, 1 => omega
    | k + 2, j + 2 =>
      simp only [List.getElem?_cons_succ] at hk hj
      exact ih hstep.inv.heap.1 k j sk sj hk hj (by omega)

/-- C11: a popped vertex is out of reach of `UpdateHeap`.  In every state, for
a vertex whose `Index` is `-1`, the body of either loop of `UpdateHeap` is a
no-op whatever the cost of the edge, also a cost below its `CheapestEdge`; and
when the vertex is not in the heap array, a whole call of `UpdateHeap` leaves
its record, so its `CheapestEdge` and its `Index`, as it was.  Along the run
of `makeVertexHeap` and `prim` on an input, the record of a popped vertex in
every later state is the one it had right after its pop, with `Index = -1`. -/
theorem C11_popped_vertex_is_frozen (steps : List Step) (order : List Int)
    (hperm : order.Perm (readFile steps).ids) (hne : steps ≠ []) :
    (∀ (s : State) (p : Int) (v : Vertex), s.deref p = some v → v.Index = -1 →
      (∀ c, relax s p c = some s) ∧
      (p ∉ s.vh → ∀ w t, UpdateHeap s w = some t → t.deref p = some v)) ∧
    ∃ s0 out, makeVertexHeap (readFile steps) order = some s0 ∧ primRun s0 = some out ∧
      ∀ (k j : Nat) (sk sj : Snapshot), out.2[k]? = some sk → out.2[j]? = some sj → k ≤ j →
        ∃ v, sk.st.deref sk.popped = some v ∧ v.Index = -1 ∧
          sj.st.deref sk.popped = some v := by
  constructor
  · intro s p v hv hi
    refine ⟨fun c => relax_popped hv hi c, ?_⟩
    intro hp w t h
    exact (UpdateHeap_outside hi h ⟨hp, hv⟩).2
  · obtain ⟨s0, r0, out, hs0, hinv, _, hrun, _, hR⟩ := program_run hperm hne
    exact ⟨s0, out, hs0, hrun, run_frozen hR hinv.heap.1⟩

theorem C11_witness :
    (∀ (s : State) (p : Int) (v : Vertex), s.deref p = some v → v.Index = -1 →
      (∀ c, relax s p c = some s) ∧
      (p ∉ s.vh → ∀ w t, UpdateHeap s w = some t → t.deref p = some v)) ∧
    ∃ s0 out, makeVertexHeap (readFile [⟨1, 2, 3⟩, ⟨2, 3, 1⟩]) [3, 1, 2] = some s0 ∧
      primRun s0 = some out ∧
      ∀ (k j : Nat) (sk sj : Snapshot), out.2[k]? = some sk → out.2[j]? = some sj → k ≤ j →
        ∃ v, sk.st.deref sk.popped = some v ∧ v.Index = -1 ∧
          sj.st.deref sk.popped = some v :=
  C11_popped_vertex_is_frozen [⟨1, 2, 3⟩, ⟨2, 3, 1⟩] [3, 1, 2] (by decide) (by simp)

/-! ### The adjacency lists that `readFile` builds -/

theorem mem_edgesTo_connect (s : State) (h t : Int) (c : Cost) (q : Int) (e : Edge) :
    e ∈ edgesTo (connect s h t c) q ↔
      e ∈ edgesTo s q ∨ (q = h ∧ e = ⟨h, t, c⟩) ∨ (q = t ∧ e = ⟨t, h, c⟩) := by
  unfold edgesTo
  rw [deref_connect]
  cases hq : s.deref q with
  | some u =>
    simp only [Option.map_some']
    by_cases e1 : q = h
    · subst e1
      by_cases e2 : q = t
      · subst e2
        simp only [if_true, asHead, asTail, List.mem_append, List.mem_singleton]
        tauto
      · simp only [e2, if_true, if_false, id, asHead, List.mem_append, List.mem_singleton]
        tauto
    · by_cases e2 : q = t
      · subst e2
        simp only [e1, if_true, if_false, id, asTail, List.mem_append, List.mem_singleton]
        tauto
      · simp only [e1, e2, if_false, id]
        tauto
  | none =>
    by_cases e1 : q = h
    · subst e1
      by_cases e2 : q = t
      · subst e2
        simp only [or_self, if_true, Option.map_some', asHead, asTail, freshVertex,
          List.mem_append, List.mem_singleton, List.not_mem_nil, List.nil_append]
        tauto
      · simp only [e2, or_false, if_true, if_false, id, Option.map_some', asHead, freshVertex,
          List.mem_append, List.mem_singleton, List.not_mem_nil, List.nil_append]
        tauto
    · by_cases e2 : q = t
      · subst e2
        simp only [e1, false_or, if_true, if_false, id, Option.map_some', asTail, freshVertex,
          List.mem_append, List.mem_singleton, List.not_mem_nil, List.nil_append]
        tauto
      · simp only [e1, e2, or_self, if_false, Option.map_none', List.not_mem_nil]
        tauto

theorem mem_edgesFrom_connect (s : State) (h t : Int) (c : Cost) (q : Int) (e : Edge) :
    e ∈ edgesFrom (connect s h t c) q ↔
      e ∈ edgesFrom s q ∨ (q = h ∧ e = ⟨t, h, c⟩) ∨ (q = t ∧ e = ⟨h, t, c⟩) := by
  unfold edgesFrom
  rw [deref_connect]
  cases hq : s.deref q with
  | some u =>
    simp only [Option.map_some']
    by_cases e1 : q = h
    · subst e1
      by_cases e2 : q = t
      · subst e2
        simp only [if_true, asHead, asTail, List.mem_append, List.mem_singleton]
        tauto
      · simp only [e2, if_true, if_false, id, asHead, List.mem_append, List.mem_singleton]
        tauto
    · by_cases e2 : q = t
      · subst e2
        simp only [e1, if_true, if_false, id, asTail, List.mem_append, List.mem_singleton]
        tauto
      · simp only [e1, e2, if_false, id]
        tauto
  | none =>
    by_cases e1 : q = h
    · subst e1
      by_cases e2 : q = t
      · subst e2
        simp only [or_self, if_true, Option.map_some', asHead, asTail, freshVertex,
          List.mem_append, List.mem_singleton, List.not_mem_nil, List.nil_append]
        tauto
      · simp only [e2, or_false, if_true, if_false, id, Option.map_some', asHead, freshVertex,
          List.mem_append, List.mem_singleton, List.not_mem_nil, List.nil_append]
        tauto
    · by_cases e2 : q = t
      · subst e2
        simp only [e1, false_or, if_true, if_false, id, Option.map_some', asTail, freshVertex,
          List.mem_append, List.mem_singleton, List.not_mem_nil, List.nil_append]
        tauto
      · simp only [e1, e2, or_self, if_false, Option.map_none', List.not_mem_nil]
        tauto

theorem readFile_edgesTo (steps : List Step) (p : Int) (e : Edge) :
    e ∈ edgesTo (readFile steps) p ↔
      e.HeadVertexID = p ∧ ∃ st ∈ steps, joins st p e.TailVertexID ∧ st.c = e.Cost := by
  induction steps using List.reverseRecOn with
  | nil => simp [readFile, State.empty, edgesTo, State.deref, lookup]
  | append_singleton l d ih =>
    rw [readFile_append, mem_edgesTo_connect, ih]
    obtain ⟨eh, et, ec⟩ := e
    simp only [List.mem_append, List.mem_singleton, Edge.mk.injEq]
    constructor
    · rintro (⟨hh, d', hd', h⟩ | ⟨h1, h2, h3, h4⟩ | ⟨h1, h2, h3, h4⟩)
      · exact ⟨hh, d', Or.inl hd', h⟩
      · exact ⟨by rw [h1, h2], d, Or.inr rfl, Or.inl ⟨h1.symm, h3.symm⟩, h4.symm⟩
      · exact ⟨by rw [h1, h2], d, Or.inr rfl, Or.inr ⟨h3.symm, h1.symm⟩, h4.symm⟩
    · rintro ⟨hh, d', hd' | hd', h, hc⟩
      · exact Or.inl ⟨hh, d', hd', h, hc⟩
      · subst hd'
        rcases h with ⟨h1, h2⟩ | ⟨h1, h2⟩
        · exact Or.inr (Or.inl ⟨h1.symm, by rw [hh, h1], h2.symm, hc.symm⟩)
        · exact Or.inr (Or.inr ⟨h2.symm, by rw [hh, h2], h1.symm, hc.symm⟩)

theorem readFile_edgesFrom (steps : List Step) (p : Int) (e : Edge) :
    e ∈ edgesFrom (readFile steps) p ↔
      e.TailVertexID = p ∧ ∃ st ∈ steps, joins st p e.HeadVertexID ∧ st.c = e.Cost := by
  induction steps using List.reverseRecOn with
  | nil => simp [readFile, State.empty, edgesFrom, State.deref, lookup]
  | append_singleton l d ih =>
    rw [readFile_append, mem_edgesFrom_connect, ih]
    obtain ⟨eh, et, ec⟩ := e
    simp only [List.mem_append, List.mem_singleton, Edge.mk.injEq]
    constructor
    · rintro (⟨hh, d', hd', h⟩ | ⟨h1, h2, h3, h4⟩ | ⟨h1, h2, h3, h4⟩)
      · exact ⟨hh, d', Or.inl hd', h⟩
      · exact ⟨by rw [h1, h3], d, Or.inr rfl, Or.inl ⟨h1.symm, h2.symm⟩, h4.symm⟩
      · exact ⟨by rw [h1, h3], d, Or.inr rfl, Or.inr ⟨h2.symm, h1.symm⟩, h4.symm⟩
    · rintro ⟨hh, d', hd' | hd', h, hc⟩
      · exact Or.inl ⟨hh, d', hd', h, hc⟩
      · subst hd'
        rcases h with ⟨h1, h2⟩ | ⟨h1, h2⟩
        · exact Or.inr (Or.inl ⟨h1.symm, h2.symm, by rw [hh, h1], hc.symm⟩)
        · exact Or.inr (Or.inr ⟨h2.symm, h1.symm, by rw [hh, h2], hc.symm⟩)

theorem edgesTo_of_deref {s : State} {p : Int} {v : Vertex} (hv : s.deref p = some v) :
    edgesTo s p = v.EdgesTo := by
  unfold edgesTo
  rw [hv]

theorem edgesFrom_of_deref {s : State} {p : Int} {v : Vertex} (hv : s.deref p = some v) :
    edgesFrom s p = v.EdgesFrom := by
  unfold edgesFrom
  rw [hv]

theorem connect_head (s : State) (a b : Int) (c : Cost) (hab : a ≠ b) :
    (connect s a b c).deref a = some (asHead a b c (recordOr s a)) := by
  rw [deref_connect]
  unfold recordOr
  cases hq : s.deref a with
  | some u => simp [hab]
  | none => simp [hab]

theorem connect_tail (s : State) (a b : Int) (c : Cost) (hab : a ≠ b) :
    (connect s a b c).deref b = some (asTail a b c (recordOr s b)) := by
  rw [deref_connect]
  unfold recordOr
  cases hq : s.deref b with
  | some u => simp [Ne.symm hab]
  | none => simp [Ne.symm hab]

theorem connect_other (s : State) (a b : Int) (c : Cost) (q : Int) (ha : q ≠ a) (hb : q ≠ b) :
    (connect s a b c).deref q = s.deref q := by
  rw [deref_connect]
  cases hq : s.deref q with
  | some u => simp [ha, hb]
  | none => simp [ha, hb]

/-- C12: one `connect(a, b, c)` step with `a ≠ b`, from any state.  Both
endpoints are registered afterwards; the record of `a` is its record before
the step (the new record `{a, nil, nil, +Inf, -1}` when `a` was not
registered) with `a -> b` appended to `EdgesTo` and `b -> a` appended to
`EdgesFrom`, and the record of `b` is its record before the step with
`b -> a` appended to `EdgesTo` and `a -> b` appended to `EdgesFrom`, every
appended record of cost `c`; so nothing is removed or merged, and
`CheapestEdge` and `Index` stay.  The record of every other vertex and the
heap array are unchanged, and a second, equal step leaves two parallel
records in each of the four lists. -/
theorem C12_connect_appends_and_keeps_the_rest (s : State) (a b : Int) (c : Cost)
    (hab : a ≠ b) :
    (∃ va, (connect s a b c).deref a = some va ∧ va.ID = (recordOr s a).ID ∧
      va.EdgesTo = (recordOr s a).EdgesTo ++ [⟨a, b, c⟩] ∧
      va.EdgesFrom = (recordOr s a).EdgesFrom ++ [⟨b, a, c⟩] ∧
      va.CheapestEdge = (recordOr s a).CheapestEdge ∧ va.Index = (recordOr s a).Index) ∧
    (∃ vb, (connect s a b c).deref b = some vb ∧ vb.ID = (recordOr s b).ID ∧
      vb.EdgesTo = (recordOr s b).EdgesTo ++ [⟨b, a, c⟩] ∧
      vb.EdgesFrom = (recordOr s b).EdgesFrom ++ [⟨a, b, c⟩] ∧
      vb.CheapestEdge = (recordOr s b).CheapestEdge ∧ vb.Index = (recordOr s b).Index) ∧
    (s.deref a = none → recordOr s a = ⟨a, [], [], ⊤, -1⟩) ∧
    (s.deref b = none → recordOr s b = ⟨b, [], [], ⊤, -1⟩) ∧
    (∀ v, s.deref a = some v → recordOr s a = v) ∧
    (∀ v, s.deref b = some v → recordOr s b = v) ∧
    (∀ q, q ≠ a → q ≠ b → (connect s a b c).deref q = s.deref q) ∧
    (connect s a b c).vh = s.vh ∧
    (∃ va vb, (connect (connect s a b c) a b c).deref a = some va ∧
      (connect (connect s a b c) a b c).deref b = some vb ∧
      va.EdgesTo = (recordOr s a).EdgesTo ++ [⟨a, b, c⟩, ⟨a, b, c⟩] ∧
      va.EdgesFrom = (recordOr s a).EdgesFrom ++ [⟨b, a, c⟩, ⟨b, a, c⟩] ∧
      vb.EdgesTo = (recordOr s b).EdgesTo ++ [⟨b, a, c⟩, ⟨b, a, c⟩] ∧
      vb.EdgesFrom = (recordOr s b).EdgesFrom ++ [⟨a, b, c⟩, ⟨a, b, c⟩]) := by
  have h1 := connect_head s a b c hab
  have h2 := connect_tail s a b c hab
  refine ⟨⟨_, h1, rfl, rfl, rfl, rfl, rfl⟩, ⟨_, h2, rfl, rfl, rfl, rfl, rfl⟩, ?_, ?_, ?_, ?_,
    fun q ha hb => connect_other s a b c q ha hb, rfl, ?_⟩
  · intro h; unfold recordOr; rw [h]; rfl
  · intro h; unfold recordOr; rw [h]; rfl
  · intro v h; unfold recordOr; rw [h]
  · intro v h; unfold recordOr; rw [h]
  · have e1 : recordOr (connect s a b c) a = asHead a b c (recordOr s a) := by
      unfold recordOr at h1 ⊢; rw [h1]
    have e2 : recordOr (connect s a b c) b = asTail a b c (recordOr s b) := by
      unfold recordOr at h2 ⊢; rw [h2]
    refine ⟨_, _, connect_head _ a b c hab, connect_tail _ a b c hab, ?_, ?_, ?_, ?_⟩
    · rw [e1]; simp [asHead]
    · rw [e1]; simp [asHead]
    · rw [e2]; simp [asTail]
    · rw [e2]; simp [asTail]

theorem C12_witness :
    (∃ va, (connect (readFile [⟨1, 2, 3⟩]) 2 3 1).deref 2 = some va ∧
      va.ID = (recordOr (readFile [⟨1, 2, 3⟩]) 2).ID ∧
      va.EdgesTo = (recordOr (readFile [⟨1, 2, 3⟩]) 2).EdgesTo ++ [⟨2, 3, 1⟩] ∧
      va.EdgesFrom = (recordOr (readFile [⟨1, 2, 3⟩]) 2).EdgesFrom ++ [⟨3, 2, 1⟩] ∧
      va.CheapestEdge = (recordOr (readFile [⟨1, 2, 3⟩]) 2).CheapestEdge ∧
      va.Index = (recordOr (readFile [⟨1, 2, 3⟩]) 2).Index) ∧
    (∃ vb, (connect (readFile [⟨1, 2, 3⟩]) 2 3 1).deref 3 = some vb ∧
      vb.ID = (recordOr (readFile [⟨1, 2, 3⟩]) 3).ID ∧
      vb.EdgesTo = (recordOr (readFile [⟨1, 2, 3⟩]) 3).EdgesTo ++ [⟨3, 2, 1⟩] ∧
      vb.EdgesFrom = (recordOr (readFile [⟨1, 2, 3⟩]) 3).EdgesFrom ++ [⟨2, 3, 1⟩] ∧
      vb.CheapestEdge = (recordOr (readFile [⟨1, 2, 3⟩]) 3).CheapestEdge ∧
      vb.Index = (recordOr (readFile [⟨1, 2, 3⟩]) 3).Index) ∧
    ((readFile [⟨1, 2, 3⟩]).deref 2 = none →
      recordOr (readFile [⟨1, 2, 3⟩]) 2 = ⟨2, [], [], ⊤, -1⟩) ∧
    ((readFile [⟨1, 2, 3⟩]).deref 3 = none →
      recordOr (readFile [⟨1, 2, 3⟩]) 3 = ⟨3, [], [], ⊤, -1⟩) ∧
    (∀ v, (readFile [⟨1, 2, 3⟩]).deref 2 = some v → recordOr (readFile [⟨1, 2, 3⟩]) 2 = v) ∧
    (∀ v, (readFile [⟨1, 2, 3⟩]).deref 3 = some v → recordOr (readFile [⟨1, 2, 3⟩]) 3 = v) ∧
    (∀ q, q ≠ 2 → q ≠ 3 →
      (connect (readFile [⟨1, 2, 3⟩]) 2 3 1).deref q = (readFile [⟨1, 2, 3⟩]).deref q) ∧
    (connect (readFile [⟨1, 2, 3⟩]) 2 3 1).vh = (readFile [⟨1, 2, 3⟩]).vh ∧
    (∃ va vb, (connect (connect (readFile [⟨1, 2, 3⟩]) 2 3 1) 2 3 1).deref 2 = some va ∧
      (connect (connect (readFile [⟨1, 2, 3⟩]) 2 3 1) 2 3 1).deref 3 = some vb ∧
      va.EdgesTo = (recordOr (readFile [⟨1, 2, 3⟩]) 2).EdgesTo ++ [⟨2, 3, 1⟩, ⟨2, 3, 1⟩] ∧
      va.EdgesFrom = (recordOr (readFile [⟨1, 2, 3⟩]) 2).EdgesFrom ++ [⟨3, 2, 1⟩, ⟨3, 2, 1⟩] ∧
      vb.EdgesTo = (recordOr (readFile [⟨1, 2, 3⟩]) 3).EdgesTo ++ [⟨3, 2, 1⟩, ⟨3, 2, 1⟩] ∧
      vb.EdgesFrom = (recordOr (readFile [⟨1, 2, 3⟩]) 3).EdgesFrom ++ [⟨2, 3, 1⟩, ⟨2, 3, 1⟩]) :=
  C12_connect_appends_and_keeps_the_rest (readFile [⟨1, 2, 3⟩]) 2 3 1 (by decide)

/-- C13: the lists `readFile` builds.  For every registered vertex `p` with
record `v`: every record of `v.EdgesTo` has head `p` and every record of
`v.EdgesFrom` has tail `p`; a record `p -> B` of cost `c` in `v.EdgesTo` is
also in `B.EdgesFrom`, and its reverse `B -> p` of cost `c` is in `B.EdgesTo`
and in `v.EdgesFrom`; likewise for a record of `v.EdgesFrom`; and the (far
endpoint, cost) pairs that `UpdateHeap(v)` visits over both lists are the
pairs (neighbour, cost) of the steps that join `p` to that neighbour. -/
theorem C13_adjacency_lists_are_paired (steps : List Step) (p : Int) (v : Vertex)
    (hv : (readFile steps).deref p = some v) :
    (∀ e ∈ v.EdgesTo, e.HeadVertexID = p) ∧ (∀ e ∈ v.EdgesFrom, e.TailVertexID = p) ∧
    (∀ e ∈ v.EdgesTo, (⟨e.TailVertexID, e.HeadVertexID, e.Cost⟩ : Edge) ∈ v.EdgesFrom ∧
      ∃ u, (readFile steps).deref e.TailVertexID = some u ∧ e ∈ u.EdgesFrom ∧
        (⟨e.TailVertexID, e.HeadVertexID, e.Cost⟩ : Edge) ∈ u.EdgesTo) ∧
    (∀ e ∈ v.EdgesFrom, (⟨e.TailVertexID, e.HeadVertexID, e.Cost⟩ : Edge) ∈ v.EdgesTo ∧
      ∃ u, (readFile steps).deref e.HeadVertexID = some u ∧ e ∈ u.EdgesTo ∧
        (⟨e.TailVertexID, e.HeadVertexID, e.Cost⟩ : Edge) ∈ u.EdgesFrom) ∧
    (∀ x, x ∈ incident v ↔ ∃ st ∈ steps, joins st p x.1 ∧ st.c = x.2) := by
  have hT : ∀ e, e ∈ v.EdgesTo ↔
      e.HeadVertexID = p ∧ ∃ st ∈ steps, joins st p e.TailVertexID ∧ st.c = e.Cost := by
    intro e; rw [← edgesTo_of_deref hv]; exact readFile_edgesTo steps p e
  have hF : ∀ e, e ∈ v.EdgesFrom ↔
      e.TailVertexID = p ∧ ∃ st ∈ steps, joins st p e.HeadVertexID ∧ st.c = e.Cost := by
    intro e; rw [← edgesFrom_of_deref hv]; exact readFile_edgesFrom steps p e
  have hreg : ∀ st ∈ steps, ∀ q, joins st p q → ∃ u, (readFile steps).deref q = some u := by
    intro st hst q hj
    have : ((readFile steps).deref q).isSome := by
      rw [readFile_isSome]
      refine ⟨st, hst, ?_⟩
      rcases hj with ⟨_, h⟩ | ⟨h, _⟩
      · exact Or.inr h
      · exact Or.inl h
    cases hu : (readFile steps).deref q with
    | none => rw [hu] at this; cases this
    | some u => exact ⟨u, rfl⟩
  refine ⟨fun e he => ((hT e).1 he).1, fun e he => ((hF e).1 he).1, ?_, ?_, ?_⟩
  · intro e he
    obtain ⟨hh, st, hst, hj, hc⟩ := (hT e).1 he
    refine ⟨(hF _).2 ⟨hh, st, hst, hj, hc⟩, ?_⟩
    obtain ⟨u, hu⟩ := hreg st hst _ hj
    refine ⟨u, hu, ?_, ?_⟩
    · rw [← edgesFrom_of_deref hu, readFile_edgesFrom]
      exact ⟨rfl, st, hst, hh ▸ joins_symm hj, hc⟩
    · rw [← edgesTo_of_deref hu, readFile_edgesTo]
      exact ⟨rfl, st, hst, hh ▸ joins_symm hj, hc⟩
  · intro e he
    obtain ⟨hh, st, hst, hj, hc⟩ := (hF e).1 he
    refine ⟨(hT _).2 ⟨hh, st, hst, hj, hc⟩, ?_⟩
    obtain ⟨u, hu⟩ := hreg st hst _ hj
    refine ⟨u, hu, ?_, ?_⟩
    · rw [← edgesTo_of_deref hu, readFile_edgesTo]
      exact ⟨rfl, st, hst, hh ▸ joins_symm hj, hc⟩
    · rw [← edgesFrom_of_deref hu, readFile_edgesFrom]
      exact ⟨rfl, st, hst, hh ▸ joins_symm hj, hc⟩
  · intro x
    have := readFile_pairs steps p x
    unfold pairs at this
    rw [hv] at this
    exact this

theorem C13_witness :
    (readFile [⟨1, 2, 3⟩, ⟨2, 3, 1⟩]).deref 2 =
        some ⟨2, [⟨1, 2, 3⟩, ⟨3, 2, 1⟩], [⟨2, 1, 3⟩, ⟨2, 3, 1⟩], ⊤, -1⟩ ∧
    ((∀ e ∈ [(⟨2, 1, 3⟩ : Edge), ⟨2, 3, 1⟩], e.HeadVertexID = 2) ∧
    (∀ e ∈ [(⟨1, 2, 3⟩ : Edge), ⟨3, 2, 1⟩], e.TailVertexID = 2) ∧
    (∀ e ∈ [(⟨2, 1, 3⟩ : Edge), ⟨2, 3, 1⟩],
      (⟨e.TailVertexID, e.HeadVertexID, e.Cost⟩ : Edge) ∈ [(⟨1, 2, 3⟩ : Edge), ⟨3, 2, 1⟩] ∧
      ∃ u, (readFile [⟨1, 2, 3⟩, ⟨2, 3, 1⟩]).deref e.TailVertexID = some u ∧
        e ∈ u.EdgesFrom ∧ (⟨e.TailVertexID, e.HeadVertexID, e.Cost⟩ : Edge) ∈ u.EdgesTo) ∧
    (∀ e ∈ [(⟨1, 2, 3⟩ : Edge), ⟨3, 2, 1⟩],
      (⟨e.TailVertexID, e.HeadVertexID, e.Cost⟩ : Edge) ∈ [(⟨2, 1, 3⟩ : Edge), ⟨2, 3, 1⟩] ∧
      ∃ u, (readFile [⟨1, 2, 3⟩, ⟨2, 3, 1⟩]).deref e.HeadVertexID = some u ∧
        e ∈ u.EdgesTo ∧ (⟨e.TailVertexID, e.HeadVertexID, e.Cost⟩ : Edge) ∈ u.EdgesFrom) ∧
    (∀ x, x ∈ incident ⟨2, [⟨1, 2, 3⟩, ⟨3, 2, 1⟩], [⟨2, 1, 3⟩, ⟨2, 3, 1⟩], ⊤, -1⟩ ↔
      ∃ st ∈ [(⟨1, 2, 3⟩ : Step), ⟨2, 3, 1⟩], joins st 2 x.1 ∧ st.c = x.2)) :=
  ⟨rfl, C13_adjacency_lists_are_paired [⟨1, 2, 3⟩, ⟨2, 3, 1⟩] 2
    ⟨2, [⟨1, 2, 3⟩, ⟨3, 2, 1⟩], [⟨2, 1, 3⟩, ⟨2, 3, 1⟩], ⊤, -1⟩ rfl⟩

/-- C16, the claim as stated fails: the step `connect(1, 2, -5)` from the
empty registry does not fail and registers both vertices with the records of
cost `-5` in their lists, and `prim` on the graph of that one line returns
`-5`. -/
theorem C16_negative_cost_is_accepted :
    ((-5 : Cost) < 0) ∧
    (connect State.empty 1 2 (-5)).deref 1 = some ⟨1, [⟨2, 1, -5⟩], [⟨1, 2, -5⟩], ⊤, -1⟩ ∧
    (connect State.empty 1 2 (-5)).deref 2 = some ⟨2, [⟨1, 2, -5⟩], [⟨2, 1, -5⟩], ⊤, -1⟩ ∧
    readFile [⟨1, 2, -5⟩] = connect State.empty 1 2 (-5) ∧
    computeMST [⟨1, 2, -5⟩] [1, 2] = some (-5) :=
  ⟨by decide, rfl, rfl, rfl, by decide⟩

/-- C16, amended: `readFile` has no check of the sign of a cost.  For every
input and every line `a b c` of it, whatever the cost `c` (negative, zero or
positive), both endpoints are registered after `readFile` and the records
`a -> b` and `b -> a` of cost `c` are in the adjacency lists of both
endpoints, as for any other line. -/
theorem C16_every_cost_is_appended (steps : List Step) (e : Step) (he : e ∈ steps) :
    ∃ va vb, (readFile steps).deref e.a = some va ∧ (readFile steps).deref e.b = some vb ∧
      (⟨e.a, e.b, e.c⟩ : Edge) ∈ va.EdgesTo ∧ (⟨e.b, e.a, e.c⟩ : Edge) ∈ va.EdgesFrom ∧
      (⟨e.a, e.b, e.c⟩ : Edge) ∈ vb.EdgesFrom ∧ (⟨e.b, e.a, e.c⟩ : Edge) ∈ vb.EdgesTo := by
  have ha : ((readFile steps).deref e.a).isSome :=
    (readFile_isSome steps e.a).2 ⟨e, he, Or.inl rfl⟩
  have hb : ((readFile steps).deref e.b).isSome :=
    (readFile_isSome steps e.b).2 ⟨e, he, Or.inr rfl⟩
  cases hva : (readFile steps).deref e.a with
  | none => rw [hva] at ha; cases ha
  | some va =>
    cases hvb : (readFile steps).deref e.b with
    | none => rw [hvb] at hb; cases hb
    | some vb =>
      refine ⟨va, vb, rfl, rfl, ?_, ?_, ?_, ?_⟩
      · rw [← edgesTo_of_deref hva, readFile_edgesTo]
        exact ⟨rfl, e, he, Or.inl ⟨rfl, rfl⟩, rfl⟩
      · rw [← edgesFrom_of_deref hva, readFile_edgesFrom]
        exact ⟨rfl, e, he, Or.inl ⟨rfl, rfl⟩, rfl⟩
      · rw [← edgesFrom_of_deref hvb, readFile_edgesFrom]
        exact ⟨rfl, e, he, Or.inr ⟨rfl, rfl⟩, rfl⟩
      · rw [← edgesTo_of_deref hvb, readFile_edgesTo]
        exact ⟨rfl, e, he, Or.inr ⟨rfl, rfl⟩, rfl⟩

theorem C16_witness :
    (⟨1, 2, -5⟩ : Step) ∈ [(⟨1, 2, -5⟩ : Step), ⟨2, 3, 1⟩] ∧
    ∃ va vb, (readFile [⟨1, 2, -5⟩, ⟨2, 3, 1⟩]).deref 1 = some va ∧
      (readFile [⟨1, 2, -5⟩, ⟨2, 3, 1⟩]).deref 2 = some vb ∧
      (⟨1, 2, -5⟩ : Edge) ∈ va.EdgesTo ∧ (⟨2, 1, -5⟩ : Edge) ∈ va.EdgesFrom ∧
      (⟨1, 2, -5⟩ : Edge) ∈ vb.EdgesFrom ∧ (⟨2, 1, -5⟩ : Edge) ∈ vb.EdgesTo :=
  ⟨by simp, C16_every_cost_is_appended [⟨1, 2, -5⟩, ⟨2, 3, 1⟩] ⟨1, 2, -5⟩ (by simp)⟩

/-! ### The first pop and the rest of the run -/

theorem program_split {steps : List Step} {order : List Int}
    (hperm : order.Perm (readFile steps).ids) (hne : steps ≠ []) :
    ∃ s0 t w s2 r tr, makeVertexHeap (readFile steps) order = some s0 ∧ PrimInv steps s0 ∧
      s0.vh.Perm order ∧ (∀ p, ¬ popped steps s0 p) ∧ (∀ p, key s0 p = ⊤) ∧
      PrimStep steps s0 t w s2 ∧ Run steps s2 r tr ∧
      primRun s0 = some (r, ⟨Phase.afterPop, w, t⟩ :: ⟨Phase.afterUpdate, w, s2⟩ :: tr) ∧
      prim s0 = some r ∧ computeMST steps order = some r := by
  obtain ⟨s0, hs0, hinv0, hp0, hpop0, hkey0, _⟩ := init_inv hperm
  have hpos : 0 < s0.vh.length := by
    obtain ⟨e, l, rfl⟩ := List.exists_cons_of_ne_nil hne
    have : e.a ∈ s0.vh := by
      rw [hp0.mem_iff, hperm.mem_iff, mem_ids_iff, readFile_isSome]
      exact ⟨e, List.mem_cons_self _ _, Or.inl rfl⟩
    exact List.length_pos_of_mem this
  obtain ⟨t, w, s2, hstep⟩ := prim_step hinv0 hpos
  obtain ⟨r, tr, hrun, hloop⟩ := run_exists steps s2.vh.length s2 rfl hstep.inv
  refine ⟨s0, t, w, s2, r, tr, hs0, hinv0, hp0, hpop0, hkey0, hstep, hrun,
    primRun_eq hstep hloop, prim_eq hstep hloop, ?_⟩
  unfold computeMST
  rw [hs0]
  exact prim_eq hstep hloop

theorem mem_of_not_popped {steps : List Step} {s : State} {y : Int}
    (hr : Registered steps y) (hy : ¬ popped steps s y) : y ∈ s.vh := by
  by_contra h
  exact hy ⟨hr, h⟩

theorem run_top_pop {steps : List Step} {s : State} {r : Cost} {tr : List Snapshot}
    (hrun : Run steps s r tr) (hfin : ∀ e ∈ steps, e.c ≠ ⊤) :
    PrimInv steps s → r = ⊤ →
    ∃ (k : Nat) (sk : Snapshot), tr[k]? = some sk ∧ sk.phase = Phase.afterPop ∧
      (∃ v, sk.st.deref sk.popped = some v ∧ v.CheapestEdge = ⊤) ∧
      ∀ u, popped steps s u → ¬ Relation.ReflTransGen (Adj steps) sk.popped u := by
  induction hrun with
  | done _ => intro _ h; exact absurd h WithTop.zero_ne_top
  | @step s t s2 w r tr hstep _ ih =>
    intro hinv htop
    by_cases hw : key s w = ⊤
    · obtain ⟨v, hv, hvk⟩ := hstep.key_popped
      refine ⟨0, ⟨Phase.afterPop, w, t⟩, rfl, rfl, ⟨v, hv, hvk.trans hw⟩, ?_⟩
      intro u hu hpath
      have hwin : w ∈ s.vh := hstep.root_mem
      have hnp : ¬ popped steps s w := fun h => h.2 hwin
      obtain ⟨f, hf, y, x, hj, hy, hx, _⟩ := hits_cross (rtg_hits hpath hu) hnp
      have hyr : Registered steps y := by
        refine ⟨f, hf, ?_⟩
        rcases hj with ⟨h, _⟩ | ⟨_, h⟩
        · exact Or.inl h
        · exact Or.inr h
      have hyin : y ∈ s.vh := mem_of_not_popped hyr hy
      have h1 : key s y ≤ f.c := hinv.low y hyin f hf x hj hx
      have h2 : key s w ≤ key s y := hstep.least y hyin
      rw [hw] at h2
      exact hfin f hf (top_le_iff.1 (le_trans h2 h1))
    · have hr : r = ⊤ := by
        rcases WithTop.add_eq_top.1 htop with h | h
        · exact absurd h hw
        · exact h
      obtain ⟨k, sk, hk, hph, hv, hno⟩ := ih hstep.inv hr
      refine ⟨k + 2, sk, ?_, hph, hv, ?_⟩
      · simp only [List.getElem?_cons_succ]
        exact hk
      · intro u hu
        exact hno u ((hstep.popped_iff hinv u).2 (Or.inl hu))

theorem connects_of_spanning {steps T : List Step} (h : IsSpanningTree steps T) :
    Connects steps steps := by
  intro x y hx hy
  refine Relation.ReflTransGen.mono ?_ (h.2.2 x y hx hy)
  rintro a b ⟨e, he, hj⟩
  exact ⟨e, h.1.subset he, hj⟩

/-! ### The total as a sum over the pops -/

theorem popCosts_step (w : Int) (t s2 : State) (tr : List Snapshot) :
    popCosts (⟨Phase.afterPop, w, t⟩ :: ⟨Phase.afterUpdate, w, s2⟩ :: tr) =
      key t w :: popCosts tr := by
  simp [popCosts, List.filter]

theorem primLoopRun_sum : ∀ (f : Nat) (s : State) (acc : Cost) (out : Cost × List Snapshot),
    primLoopRun f s acc = some out → out.1 = acc + (popCosts out.2).sum := by
  intro f
  induction f with
  | zero => intro s acc out h; simp [primLoopRun] at h
  | succ f ih =>
    intro s acc out h
    rw [primLoopRun] at h
    by_cases h0 : 0 < Len s
    · simp only [h0, if_true, Option.bind_eq_bind, Option.bind_eq_some, Option.pure_def,
        Option.some.injEq] at h
      obtain ⟨r, _, v, hv, s2, _, out1, hout1, rfl⟩ := h
      have := ih _ _ _ hout1
      simp only [popCosts_step, List.sum_cons]
      rw [this, key_eq_of_deref hv, add_assoc]
    · simp only [h0, if_false, Option.some.injEq] at h
      subst h
      simp [popCosts]

theorem primRun_sum {s : State} {out : Cost × List Snapshot} (h : primRun s = some out) :
    ∃ c, popCosts out.2 = c :: (popCosts out.2).tail ∧ out.1 = ((popCosts out.2).tail).sum := by
  unfold primRun at h
  simp only [Option.bind_eq_bind, Option.bind_eq_some, Option.pure_def, Option.some.injEq] at h
  obtain ⟨r, _, s2, _, out1, hout1, rfl⟩ := h
  have := primLoopRun_sum _ _ _ _ hout1
  simp only [popCosts_step, List.tail_cons]
  exact ⟨_, rfl, by rw [this, zero_add]⟩

theorem two_components_example :
    ¬ Connects [⟨1, 2, 3⟩, ⟨3, 4, 1⟩] [⟨1, 2, 3⟩, ⟨3, 4, 1⟩] := by
  intro h
  have hp := h 1 3 ⟨⟨1, 2, 3⟩, by simp, Or.inl rfl⟩ ⟨⟨3, 4, 1⟩, by simp, Or.inl rfl⟩
  have hclosed : ∀ y, Relation.ReflTransGen (Adj [⟨1, 2, 3⟩, ⟨3, 4, 1⟩]) 1 y →
      y = 1 ∨ y = 2 := by
    intro y hy
    induction hy with
    | refl => exact Or.inl rfl
    | tail _ hab ih =>
      obtain ⟨e, he, hj⟩ := hab
      simp only [List.mem_cons, List.mem_singleton, List.not_mem_nil, or_false] at he
      unfold joins at hj
      rcases he with rfl | rfl
      · simp only at hj
        omega
      · simp only at hj
        omega
  have := hclosed 3 hp
  omega

/-- With exact addition: on a graph with finite edge costs that is not
connected, whatever the initial order of the heap array, `prim` returns `⊤`;
and some pop after the first one returns a vertex whose `CheapestEdge` is
`+Inf` at that moment and which no path of edges joins to the first vertex
popped. -/
theorem exact_disconnected_total_top (steps : List Step) (order : List Int)
    (hperm : order.Perm (readFile steps).ids) (hfin : ∀ e ∈ steps, e.c ≠ ⊤)
    (hdis : ¬ Connects steps steps) :
    computeMST steps order = some ⊤ ∧
    ∃ s0 out seed k sk, makeVertexHeap (readFile steps) order = some s0 ∧
      primRun s0 = some out ∧ prim s0 = some ⊤ ∧ out.1 = ⊤ ∧
      out.2[0]? = some seed ∧ out.2[k]? = some sk ∧ 2 ≤ k ∧ sk.phase = Phase.afterPop ∧
      (∃ v, sk.st.deref sk.popped = some v ∧ v.CheapestEdge = ⊤) ∧
      ¬ Relation.ReflTransGen (Adj steps) sk.popped seed.popped := by
  have hne : steps ≠ [] := by
    rintro rfl
    apply hdis
    rintro x y ⟨e, he, _⟩ _
    cases he
  obtain ⟨s0, t, w, s2, r, tr, hs0, hinv0, _, _, _, hstep, hrun, hprun, hprim, hcomp⟩ :=
    program_split hperm hne
  have hr : r = ⊤ := by
    obtain ⟨r1, hr1, _, hchar, _⟩ := computeMST_char hperm hne
    rw [hcomp] at hr1
    cases hr1
    rcases hchar with h | ⟨T, hT, _⟩
    · exact h
    · exact absurd (connects_of_spanning hT) hdis
  subst hr
  obtain ⟨k, sk, hk, hph, hv, hno⟩ := run_top_pop hrun hfin hstep.inv rfl
  refine ⟨hcomp, s0, _, ⟨Phase.afterPop, w, t⟩, k + 2, sk, hs0, hprun, hprim, rfl, rfl, ?_,
    by omega, hph, hv, ?_⟩
  · simp only [List.getElem?_cons_succ]
    exact hk
  · exact hno w ((hstep.popped_iff hinv0 w).2 (Or.inr rfl))

/-- C15: popping from an empty heap fails.  On a state with an empty heap
array the method `Pop` and `heap.Pop` yield no vertex (in Go, an index out of
range), and so does `prim`; on the input with no line, `makeVertexHeap`
returns the empty heap and the program yields no total, for every order of
the (empty) map. -/
theorem C15_pop_from_empty_heap_fails (s : State) (h : s.vh = []) :
    VertexHeap.Pop s = none ∧ heapPop s = none ∧ prim s = none ∧ primRun s = none ∧
    ∀ order : List Int, order.Perm (readFile []).ids →
      makeVertexHeap (readFile []) order = some ⟨[], []⟩ ∧ computeMST [] order = none := by
  have h1 : heapPop s = none := by
    unfold heapPop
    simp [Len, h]
  refine ⟨?_, h1, ?_, ?_, ?_⟩
  · unfold VertexHeap.Pop
    simp [h]
  · unfold prim
    rw [h1]
    rfl
  · unfold primRun
    rw [h1]
    rfl
  · intro order ho
    have : order = [] := List.Perm.eq_nil ho
    subst this
    exact ⟨rfl, rfl⟩

theorem C15_witness :
    State.empty.vh = [] ∧
    (VertexHeap.Pop State.empty = none ∧ heapPop State.empty = none ∧
      prim State.empty = none ∧ primRun State.empty = none ∧
      ∀ order : List Int, order.Perm (readFile []).ids →
        makeVertexHeap (readFile []) order = some ⟨[], []⟩ ∧ computeMST [] order = none) :=
  ⟨rfl, C15_pop_from_empty_heap_fails State.empty rfl⟩

/-- C17: the result of `prim` is the sum of the values
`workingVertex.CheapestEdge` read right after each `heap.Pop` but the first.
This holds of every state on which `prim` returns.  On an input, the value
behind the first vertex popped is `+Inf` and is not part of the sum, and with
exactly one registered vertex the result is `0`. -/
theorem C17_total_is_sum_of_costs_after_seed (steps : List Step) (order : List Int)
    (hperm : order.Perm (readFile steps).ids) (hne : steps ≠ []) :
    (∀ (s : State) (out : Cost × List Snapshot), primRun s = some out →
      prim s = some out.1 ∧
      ∃ c, popCosts out.2 = c :: (popCosts out.2).tail ∧
        out.1 = ((popCosts out.2).tail).sum) ∧
    ∃ s0 out, makeVertexHeap (readFile steps) order = some s0 ∧ primRun s0 = some out ∧
      computeMST steps order = some out.1 ∧
      popCosts out.2 = ⊤ :: (popCosts out.2).tail ∧
      out.1 = ((popCosts out.2).tail).sum ∧
      ((readFile steps).ids.length = 1 → out.1 = 0) := by
  constructor
  · intro s out h
    refine ⟨?_, primRun_sum h⟩
    rw [prim_eq_run, h]
    rfl
  · obtain ⟨s0, t, w, s2, r, tr, hs0, hinv0, hp0, _, hkey0, hstep, hrun, hprun, hprim, hcomp⟩ :=
      program_split hperm hne
    obtain ⟨c, hc, hsum⟩ := primRun_sum hprun
    refine ⟨s0, _, hs0, hprun, hcomp, ?_, hsum, ?_⟩
    · simp only [popCosts_step, List.tail_cons]
      rw [hstep.data.key_eq, hkey0]
    · intro hone
      have hlen : s2.vh.length = 0 := by
        have h1 := hstep.step_length
        have h2 := hp0.length_eq
        have h3 := hperm.length_eq
        omega
      cases hrun with
      | done _ => rfl
      | step hstep2 _ =>
        have := List.length_pos_of_mem hstep2.root_mem
        omega

theorem C17_witness :
    (∀ (s : State) (out : Cost × List Snapshot), primRun s = some out →
      prim s = some out.1 ∧
      ∃ c, popCosts out.2 = c :: (popCosts out.2).tail ∧
        out.1 = ((popCosts out.2).tail).sum) ∧
    ∃ s0 out, makeVertexHeap (readFile [⟨1, 1, 5⟩]) [1] = some s0 ∧ primRun s0 = some out ∧
      computeMST [⟨1, 1, 5⟩] [1] = some out.1 ∧
      popCosts out.2 = ⊤ :: (popCosts out.2).tail ∧
      out.1 = ((popCosts out.2).tail).sum ∧
      ((readFile [⟨1, 1, 5⟩]).ids.length = 1 → out.1 = 0) :=
  C17_total_is_sum_of_costs_after_seed [⟨1, 1, 5⟩] [1] (by decide) (by simp)

/-! ### `Fix` after a cost was lowered -/

theorem lowered_shape {s : State} {far : Int} {c : Cost} {i : Nat} {v : Vertex}
    (hpos : PosOK s) (hheap : HeapOn (kat s) 0 s.vh.length) (hi : s.vh[i]? = some far)
    (hd : s.deref far = some v) (hc : c < v.CheapestEdge) :
    PosOK (s.setCheapestEdge far c) ∧
    UpInv (kat (s.setCheapestEdge far c)) (s.setCheapestEdge far c).vh.length i ∧
    (∀ k, 0 < k → k < (s.setCheapestEdge far c).vh.length → (k - 1) / 2 = i →
      kat (s.setCheapestEdge far c) i ≤ kat (s.setCheapestEdge far c) k) := by
  have hk := key_eq_of_deref hd
  have hreg : (s.deref far).isSome := by rw [hd]; rfl
  have hilt := getElem?_lt hi
  have hpos1 : PosOK (s.setCheapestEdge far c) := by
    intro k p hkp
    rw [idx_setCheapestEdge]
    exact hpos k p hkp
  have hkat : ∀ k, kat (s.setCheapestEdge far c) k = if k = i then c else kat s k := by
    intro k
    unfold kat
    rw [vh_setCheapestEdge]
    by_cases hki : k = i
    · subst hki
      rw [hi, if_pos rfl]
      show key (s.setCheapestEdge far c) far = c
      rw [key_setCheapestEdge, if_pos ⟨rfl, hreg⟩]
    · rw [if_neg hki]
      cases hkp : s.vh[k]? with
      | none => rfl
      | some p =>
        show key (s.setCheapestEdge far c) p = key s p
        rw [key_setCheapestEdge, if_neg]
        rintro ⟨e, _⟩
        exact hki (hpos.inj (e ▸ hkp) hi)
  have hci : c < kat s i := by rw [kat_eq_key hi, hk]; exact hc
  refine ⟨hpos1, ?_, ?_⟩
  · rw [vh_setCheapestEdge]
    constructor
    · intro k hk0 hkn hki
      rw [hkat, hkat, if_neg hki]
      have := hheap k hk0 hkn (Nat.zero_le _)
      split_ifs with h1
      · rw [h1] at this
        exact le_trans (le_of_lt hci) this
      · exact this
    · intro k hk0 hkn hpk hi0
      rw [hkat, hkat, if_neg (by omega), if_neg (by omega)]
      have h1 := hheap k hk0 hkn (Nat.zero_le _)
      have h2 := hheap i hi0 hilt (Nat.zero_le _)
      rw [hpk] at h1
      exact le_trans h2 h1
  · intro k hk0 hkn hpk
    rw [hkat, hkat, if_pos rfl, if_neg (by omega)]
    have h1 := hheap k hk0 hkn (Nat.zero_le _)
    rw [hpk] at h1
    exact le_trans (le_of_lt hci) h1

theorem upLoop_pos_le : ∀ (f : Nat) (s : State) (j : Nat) (t : State) (p : Int),
    s.vh[j]? = some p → upLoop f s j = some t → ∃ i, i ≤ j ∧ t.vh[i]? = some p := by
  intro f
  induction f with
  | zero => intro s j t p _ h; simp [upLoop] at h
  | succ f ih =>
    intro s j t p hp h
    rw [upLoop] at h
    by_cases h1 : (j - 1) / 2 = j
    · simp only [h1, if_true] at h
      cases h; exact ⟨j, le_refl _, hp⟩
    · simp only [h1, if_false, Option.bind_eq_bind, Option.bind_eq_some] at h
      obtain ⟨lt, _, h⟩ := h
      cases lt with
      | true =>
        simp only [if_true, Option.bind_eq_some] at h
        obtain ⟨s1, hs1, h⟩ := h
        obtain ⟨a, b, ha, hb, _⟩ := Swap_some_iff.1 hs1
        have hs1p : s1.vh[(j - 1) / 2]? = some p := by
          rw [Swap_vh_getElem? hs1 ha hb, if_neg h1, if_pos rfl, ← hp, hb]
        obtain ⟨i, hi, hti⟩ := ih _ _ _ _ hs1p h
        exact ⟨i, by omega, hti⟩
      | false =>
        simp only [Bool.false_eq_true, if_false] at h
        cases h; exact ⟨j, le_refl _, hp⟩

/-- C18: `heap.Fix` after a cost was lowered is a sift-up.  In a state that
satisfies the heap invariant, for a vertex `p` of the heap array whose
`CheapestEdge` is set to a strictly smaller value `c`: its `Index` is its
position; the `down` that `heap.Fix` tries first moves nothing and reports
`false`; `heap.Fix` returns the very state that `up` alone returns (the same
array and the same records, so every `Index` field); the heap invariant holds
in that state, the array holds the same vertices, and `p` ends at a position
that is not below the one it had, with cost `c`. -/
theorem C18_fix_after_lowering_is_sift_up (s : State) (p : Int) (v : Vertex) (c : Cost)
    (hinv : HeapInvariant s) (hp : p ∈ s.vh) (hv : s.deref p = some v)
    (hc : c < v.CheapestEdge) :
    0 ≤ v.Index ∧ s.vh[v.Index.toNat]? = some p ∧
    down (s.setCheapestEdge p c) v.Index.toNat (Len (s.setCheapestEdge p c)) =
      some (s.setCheapestEdge p c, false) ∧
    ∃ t, Fix (s.setCheapestEdge p c) v.Index.toNat = some t ∧
      up (s.setCheapestEdge p c) v.Index.toNat = some t ∧
      HeapInvariant t ∧ t.vh.Perm s.vh ∧
      ∃ u, t.deref p = some u ∧ 0 ≤ u.Index ∧ u.Index ≤ v.Index ∧ u.CheapestEdge = c := by
  obtain ⟨hpos, hheap⟩ := (heapInvariant_iff s).1 hinv
  obtain ⟨i, hi, hii⟩ := idx_pos_of_mem hpos hp
  have hix : v.Index = (i : Int) := by rw [← idx_eq_of_deref hv, hii]
  have hto : v.Index.toNat = i := by rw [hix]; simp
  have hilt := getElem?_lt hi
  obtain ⟨hpos1, hU, hle⟩ := lowered_shape (c := c) hpos hheap hi hv hc
  obtain ⟨t, hfix, hup, hrel, hheapt⟩ :=
    Fix_lowered (s := s.setCheapestEdge p c) (i := i) hilt hpos1 hU hle
  rw [hto]
  refine ⟨by rw [hix]; omega, hi, ?_, t, hfix, hup,
    (heapInvariant_iff t).2 ⟨hrel.2.2.1, hheapt⟩, hrel.2.1, ?_⟩
  · exact down_noop (s := s.setCheapestEdge p c) (le_refl _) hpos1 hle
  · obtain ⟨j, hj, htj⟩ := upLoop_pos_le _ _ _ _ p (by rw [vh_setCheapestEdge]; exact hi) hup
    have hsome := hrel.2.2.1.pos_isSome htj
    cases hu : t.deref p with
    | none => rw [hu] at hsome; cases hsome
    | some u =>
      have h1 : u.Index = (j : Int) := by rw [← idx_eq_of_deref hu]; exact hrel.2.2.1 j p htj
      refine ⟨u, rfl, by rw [h1]; omega, by rw [h1, hix]; omega, ?_⟩
      rw [← key_eq_of_deref hu, hrel.rel_key, key_setCheapestEdge, if_pos ⟨rfl, by rw [hv]; rfl⟩]

theorem C18_witness :
    (0 : Int) ≤ (⟨2, [], [], 7, 1⟩ : Vertex).Index ∧
    (⟨[⟨1, [], [], 5, 0⟩, ⟨2, [], [], 7, 1⟩], [1, 2]⟩ : State).vh[
      (⟨2, [], [], 7, 1⟩ : Vertex).Index.toNat]? = some 2 ∧
    down ((⟨[⟨1, [], [], 5, 0⟩, ⟨2, [], [], 7, 1⟩], [1, 2]⟩ : State).setCheapestEdge 2 3)
        (⟨2, [], [], 7, 1⟩ : Vertex).Index.toNat
        (Len ((⟨[⟨1, [], [], 5, 0⟩, ⟨2, [], [], 7, 1⟩], [1, 2]⟩ : State).setCheapestEdge 2 3)) =
      some ((⟨[⟨1, [], [], 5, 0⟩, ⟨2, [], [], 7, 1⟩], [1, 2]⟩ : State).setCheapestEdge 2 3,
        false) ∧
    ∃ t,
      Fix ((⟨[⟨1, [], [], 5, 0⟩, ⟨2, [], [], 7, 1⟩], [1, 2]⟩ : State).setCheapestEdge 2 3)
        (⟨2, [], [], 7, 1⟩ : Vertex).Index.toNat = some t ∧
      up ((⟨[⟨1, [], [], 5, 0⟩, ⟨2, [], [], 7, 1⟩], [1, 2]⟩ : State).setCheapestEdge 2 3)
        (⟨2, [], [], 7, 1⟩ : Vertex).Index.toNat = some t ∧
      HeapInvariant t ∧
      t.vh.Perm (⟨[⟨1, [], [], 5, 0⟩, ⟨2, [], [], 7, 1⟩], [1, 2]⟩ : State).vh ∧
      ∃ u, t.deref 2 = some u ∧ 0 ≤ u.Index ∧
        u.Index ≤ (⟨2, [], [], 7, 1⟩ : Vertex).Index ∧ u.CheapestEdge = 3 :=
  C18_fix_after_lowering_is_sift_up ⟨[⟨1, [], [], 5, 0⟩, ⟨2, [], [], 7, 1⟩], [1, 2]⟩ 2
    ⟨2, [], [], 7, 1⟩ 3
    (by
      constructor
      · intro i hi0 hin
        have hi : i = 1 := by
          have : i < 2 := hin
          omega
        subst hi
        exact ⟨5, 7, rfl, rfl, by decide⟩
      · intro i hin
        have hi : i = 0 ∨ i = 1 := by
          have : i < 2 := hin
          omega
        rcases hi with hi | hi <;> subst hi <;> rfl)
    (by decide) rfl (by decide)

/-! ### The vertices held in the heap, and the pops of a run -/

theorem Swap_keeps_perm (l : List Int) (s : State) (i j : Nat) (t : State)
    (h : Swap s i j = some t) (hs : s.vh.Perm l) : t.vh.Perm l :=
  (Swap_perm h).trans hs

theorem relax_perm {s t : State} {far : Int} {c : Cost} (h : relax s far c = some t) :
    t.vh.Perm s.vh := by
  unfold relax at h
  simp only [Option.bind_eq_bind, Option.bind_eq_some] at h
  obtain ⟨u, _, h⟩ := h
  split_ifs at h with hc
  · exact Fix_keeps (fun x => x.vh.Perm s.vh) (Swap_keeps_perm s.vh) h (List.Perm.refl _)
  · cases h; exact List.Perm.refl _

theorem relaxAll_perm (L : List (Int × Cost)) : ∀ (s t : State), relaxAll L s = some t →
    t.vh.Perm s.vh := by
  induction L with
  | nil => intro s t h; cases h; exact List.Perm.refl _
  | cons x L ih =>
    intro s t h
    obtain ⟨far, c⟩ := x
    rw [relaxAll] at h
    simp only [Option.bind_eq_bind, Option.bind_eq_some] at h
    obtain ⟨s1, hs1, h⟩ := h
    exact (ih s1 t h).trans (relax_perm hs1)

theorem UpdateHeap_perm {s t : State} {w : Int} (h : UpdateHeap s w = some t) :
    t.vh.Perm s.vh := by
  cases hw : s.deref w with
  | none => unfold UpdateHeap at h; rw [hw] at h; simp at h
  | some u =>
    rw [UpdateHeap_eq hw] at h
    exact relaxAll_perm _ _ _ h

theorem pops_step (w : Int) (t s2 : State) (tr : List Snapshot) :
    pops (⟨Phase.afterPop, w, t⟩ :: ⟨Phase.afterUpdate, w, s2⟩ :: tr) = w :: pops tr := by
  simp [pops, List.filter]

theorem run_pops {steps : List Step} {s : State} {r : Cost} {tr : List Snapshot}
    (hrun : Run steps s r tr) : (pops tr).Perm s.vh := by
  induction hrun with
  | done h => rw [h]; exact List.Perm.refl _
  | @step s t s2 w r tr hstep _ ih =>
    rw [pops_step]
    have h1 : (w :: pops tr).Perm (w :: t.vh) := (ih.trans hstep.permUpd).cons w
    have h2 : (w :: t.vh).Perm (t.vh ++ [w]) := List.perm_append_singleton w t.vh |>.symm
    exact (h1.trans h2).trans hstep.permPop

theorem run_last {steps : List Step} {s : State} {r : Cost} {tr : List Snapshot}
    (hrun : Run steps s r tr) : ∀ last, tr.getLast? = some last → last.st.vh = [] := by
  induction hrun with
  | done _ => intro last h; simp at h
  | @step s t s2 w r tr hstep hrest ih =>
    intro last h
    cases tr with
    | nil =>
      simp only [List.getLast?_cons_cons, List.getLast?_singleton, Option.some.injEq] at h
      subst h
      cases hrest with
      | done h0 => exact h0
    | cons c tr2 =>
      simp only [List.getLast?_cons_cons] at h
      exact ih last h

/-- C19: `prim` ends after one pop per registered vertex.  In every state a
call of `UpdateHeap` leaves the heap array a rearrangement of what it was, so
with the same vertices and the same length.  On an input with at least one
line, `makeVertexHeap` and `prim` return; the vertices popped, in order, are a
rearrangement of the registered vertices, each popped exactly once, so there
are as many pops as registered vertices and twice as many recorded states;
and the heap array is empty in the last state. -/
theorem C19_every_vertex_is_popped_once (steps : List Step) (order : List Int)
    (hperm : order.Perm (readFile steps).ids) (hne : steps ≠ []) :
    (∀ (s : State) (w : Int) (t : State), UpdateHeap s w = some t →
      t.vh.Perm s.vh ∧ t.vh.length = s.vh.length) ∧
    ∃ s0 out, makeVertexHeap (readFile steps) order = some s0 ∧ primRun s0 = some out ∧
      prim s0 = some out.1 ∧
      (pops out.2).Perm (readFile steps).ids ∧ (pops out.2).Nodup ∧
      (∀ p, Registered steps p → (pops out.2).count p = 1) ∧
      (pops out.2).length = (readFile steps).ids.length ∧
      out.2.length = 2 * (readFile steps).ids.length ∧
      1 ≤ (readFile steps).ids.length ∧
      (∀ last, out.2.getLast? = some last → last.st.vh = []) := by
  constructor
  · intro s w t h
    exact ⟨UpdateHeap_perm h, (UpdateHeap_perm h).length_eq⟩
  · obtain ⟨s0, t, w, s2, r, tr, hs0, hinv0, hp0, _, _, hstep, hrun, hprun, hprim, _⟩ :=
      program_split hperm hne
    have hR : Run steps s0 (key s0 w + r)
        (⟨Phase.afterPop, w, t⟩ :: ⟨Phase.afterUpdate, w, s2⟩ :: tr) := Run.step hstep hrun
    have hP : (pops (⟨Phase.afterPop, w, t⟩ :: ⟨Phase.afterUpdate, w, s2⟩ :: tr)).Perm
        (readFile steps).ids := ((run_pops hR).trans hp0).trans hperm
    have hnd := hP.nodup_iff.2 (readFile_ids_nodup steps)
    have hlen : s0.vh.length = (readFile steps).ids.length := by
      rw [hp0.length_eq, hperm.length_eq]
    refine ⟨s0, _, hs0, hprun, hprim, hP, hnd, ?_, hP.length_eq, ?_, ?_, run_last hR⟩
    · intro p hp
      apply List.count_eq_one_of_mem hnd
      rw [hP.mem_iff, mem_ids_iff, readFile_isSome]
      exact hp
    · rw [run_length hR, hlen]
    · rw [← hlen]
      exact List.length_pos_of_mem hstep.root_mem

theorem C19_witness :
    (∀ (s : State) (w : Int) (t : State), UpdateHeap s w = some t →
      t.vh.Perm s.vh ∧ t.vh.length = s.vh.length) ∧
    ∃ s0 out, makeVertexHeap (readFile [⟨1, 2, 3⟩, ⟨2, 3, 1⟩]) [3, 1, 2] = some s0 ∧
      primRun s0 = some out ∧ prim s0 = some out.1 ∧
      (pops out.2).Perm (readFile [⟨1, 2, 3⟩, ⟨2, 3, 1⟩]).ids ∧ (pops out.2).Nodup ∧
      (∀ p, Registered [⟨1, 2, 3⟩, ⟨2, 3, 1⟩] p → (pops out.2).count p = 1) ∧
      (pops out.2).length = (readFile [⟨1, 2, 3⟩, ⟨2, 3, 1⟩]).ids.length ∧
      out.2.length = 2 * (readFile [⟨1, 2, 3⟩, ⟨2, 3, 1⟩]).ids.length ∧
      1 ≤ (readFile [⟨1, 2, 3⟩, ⟨2, 3, 1⟩]).ids.length ∧
      (∀ last, out.2.getLast? = some last → last.st.vh = []) :=
  C19_every_vertex_is_popped_once [⟨1, 2, 3⟩, ⟨2, 3, 1⟩] [3, 1, 2] (by decide) (by simp)

/-! ### No array access out of range -/

theorem relax_eq_Fix {s : State} {far : Int} {c : Cost} {v : Vertex}
    (hd : s.deref far = some v) (hc : -1 < v.Index ∧ c < v.CheapestEdge) :
    relax s far c = Fix (s.setCheapestEdge far c) v.Index.toNat := by
  unfold relax
  rw [hd]
  simp only [Option.bind_eq_bind, Option.some_bind]
  rw [if_pos hc]

theorem relax_eq_self {s : State} {far : Int} {c : Cost} {v : Vertex}
    (hd : s.deref far = some v) (hc : ¬ (-1 < v.Index ∧ c < v.CheapestEdge)) :
    relax s far c = some s := by
  unfold relax
  rw [hd]
  simp only [Option.bind_eq_bind, Option.some_bind]
  rw [if_neg hc]

theorem fixCalls_ok (L : List (Int × Cost)) : ∀ (s : State), HeapInv s →
    (∀ x ∈ L, (s.deref x.1).isSome) → ∀ call ∈ fixCalls L s, FixCallOK call := by
  induction L with
  | nil => intro s _ _ call h; simp [fixCalls] at h
  | cons x L ih =>
    intro s h hreg call hcall
    obtain ⟨far, c⟩ := x
    have hreg0 := hreg (far, c) (List.mem_cons_self _ _)
    obtain ⟨s1, hs1, hinv1, _, hg1, _⟩ := relax_spec (c := c) h hreg0
    have hreg1 : ∀ y ∈ L, (s1.deref y.1).isSome := by
      intro y hy
      rw [hg1.graph_isSome]
      exact hreg y (List.mem_cons_of_mem _ hy)
    cases hd : s.deref far with
    | none => rw [hd] at hreg0; cases hreg0
    | some v =>
      rw [fixCalls] at hcall
      simp only [hd] at hcall
      by_cases hc : -1 < v.Index ∧ c < v.CheapestEdge
      · have hFix : Fix (s.setCheapestEdge far c) v.Index.toNat = some s1 := by
          rw [← relax_eq_Fix hd hc]; exact hs1
        rw [if_pos hc, hFix] at hcall
        rcases List.mem_cons.1 hcall with hcall | hcall
        · subst hcall
          have hmem : far ∈ s.vh :=
            (mem_iff_idx h.1 h.2.1 far).2 (by rw [idx_eq_of_deref hd]; exact hc.1)
          obtain ⟨i, hi, hii⟩ := idx_pos_of_mem h.1 hmem
          have hix : v.Index = (i : Int) := by rw [← idx_eq_of_deref hd, hii]
          have hto : v.Index.toNat = i := by rw [hix]; simp
          refine ⟨?_, ?_, ?_, ?_⟩
          · show 0 ≤ v.Index
            rw [hix]; omega
          · show v.Index.toNat < (s.setCheapestEdge far c).vh.length
            rw [hto, vh_setCheapestEdge]
            exact getElem?_lt hi
          · show (s.setCheapestEdge far c).vh[v.Index.toNat]? = some far
            rw [hto, vh_setCheapestEdge]
            exact hi
          · show (Fix (s.setCheapestEdge far c) v.Index.toNat).isSome
            rw [hFix]; rfl
        · exact ih s1 hinv1 hreg1 call hcall
      · rw [if_neg hc] at hcall
        have : s1 = s := by
          rw [relax_eq_self hd hc] at hs1
          cases hs1; rfl
        subst this
        exact ih s1 hinv1 hreg1 call hcall

theorem run_safe {steps : List Step} {s : State} {r : Cost} {tr : List Snapshot}
    (hrun : Run steps s r tr) : PrimInv steps s → ∀ prev : Snapshot, prev.st = s →
    ∀ (k : Nat) (a b : Snapshot), (prev :: tr)[k]? = some a → (prev :: tr)[k + 1]? = some b →
      StepOK a b := by
  induction hrun with
  | done _ => intro _ prev _ k a b _ hb; simp at hb
  | @step s t s2 w r tr hstep _ ih =>
    intro hinv prev hprev k a b ha hb
    match k with
    | 0 =>
      simp only [List.getElem?_cons_zero, Option.some.injEq] at ha
      simp only [List.getElem?_cons_succ, List.getElem?_cons_zero, Option.some.injEq] at hb
      subst ha; subst hb
      constructor
      · intro _
        rw [hprev]
        exact ⟨List.length_pos_of_mem hstep.root_mem, hstep.pop⟩
      · intro h; cases h
    | 1 =>
      simp only [List.getElem?_cons_succ, List.getElem?_cons_zero, Option.some.injEq] at ha hb
      subst ha; subst hb
      constructor
      · intro h; cases h
      · intro _
        refine ⟨hstep.upd, ?_⟩
        obtain ⟨v, hv, _⟩ := hstep.key_popped
        show ∀ call ∈ UpdateHeapFixCalls t w, FixCallOK call
        unfold UpdateHeapFixCalls
        rw [hv]
        apply fixCalls_ok (incident v) t hstep.mid
        intro x hx
        rw [← pairs_eq_incident hv, ← hstep.graph.pairs, hstep.inv.adj] at hx
        obtain ⟨e, he, hj, _⟩ := hx
        rw [← hstep.graph.graph_isSome, hstep.inv.reg]
        exact joins_registered_right he hj
    | k + 2 =>
      simp only [List.getElem?_cons_succ] at ha hb
      exact ih hstep.inv ⟨Phase.afterUpdate, w, s2⟩ rfl k a b
        (by simpa using ha) (by simpa using hb)

/-- C20: `makeVertexHeap` followed by `prim` reaches no failing array access.
On every input with at least one line (self-loops and parallel edges
included) and every order of the map, `makeVertexHeap` and `prim` return.  The
first `heap.Pop` is made on a non-empty heap; and for every two consecutive
recorded states, a `heap.Pop` between them was made on a non-empty heap and
returned, and an `UpdateHeap` between them returned, each `heap.Fix` it made
being called with an index `i`, `0 <= i < len(vh)`, at which `vh[i]` is the
vertex whose cost was just set, and returning. -/
theorem C20_no_failing_array_access (steps : List Step) (order : List Int)
    (hperm : order.Perm (readFile steps).ids) (hne : steps ≠ []) :
    ∃ s0 out, makeVertexHeap (readFile steps) order = some s0 ∧ primRun s0 = some out ∧
      prim s0 = some out.1 ∧ computeMST steps order = some out.1 ∧
      0 < s0.vh.length ∧
      (∃ first, out.2[0]? = some first ∧ first.phase = Phase.afterPop ∧
        heapPop s0 = some (first.st, first.popped)) ∧
      ∀ (k : Nat) (a b : Snapshot), out.2[k]? = some a → out.2[k + 1]? = some b →
        StepOK a b := by
  obtain ⟨s0, t, w, s2, r, tr, hs0, hinv0, _, _, _, hstep, hrun, hprun, hprim, hcomp⟩ :=
    program_split hperm hne
  have hR : Run steps s0 (key s0 w + r)
      (⟨Phase.afterPop, w, t⟩ :: ⟨Phase.afterUpdate, w, s2⟩ :: tr) := Run.step hstep hrun
  refine ⟨s0, _, hs0, hprun, hprim, hcomp, List.length_pos_of_mem hstep.root_mem,
    ⟨_, rfl, rfl, hstep.pop⟩, ?_⟩
  intro k a b ha hb
  exact run_safe hR hinv0 ⟨Phase.afterUpdate, w, s0⟩ rfl (k + 1) a b
    (by simpa using ha) (by simpa using hb)

theorem C20_witness :
    ∃ s0 out,
      makeVertexHeap (readFile [⟨1, 1, 5⟩, ⟨1, 2, 3⟩, ⟨1, 2, 3⟩, ⟨2, 3, 1⟩]) [3, 1, 2] =
        some s0 ∧
      primRun s0 = some out ∧ prim s0 = some out.1 ∧
      computeMST [⟨1, 1, 5⟩, ⟨1, 2, 3⟩, ⟨1, 2, 3⟩, ⟨2, 3, 1⟩] [3, 1, 2] = some out.1 ∧
      0 < s0.vh.length ∧
      (∃ first, out.2[0]? = some first ∧ first.phase = Phase.afterPop ∧
        heapPop s0 = some (first.st, first.popped)) ∧
      ∀ (k : Nat) (a b : Snapshot), out.2[k]? = some a → out.2[k + 1]? = some b →
        StepOK a b :=
  C20_no_failing_array_access [⟨1, 1, 5⟩, ⟨1, 2, 3⟩, ⟨1, 2, 3⟩, ⟨2, 3, 1⟩] [3, 1, 2]
    (by decide) (by simp)

/-! ### The `float64` total -/

theorem bitLen_le : ∀ (f k m : Nat), m < 2 ^ k → bitLen f m ≤ k := by
  intro f
  induction f with
  | zero => intro k m _; exact Nat.zero_le _
  | succ f ih =>
    intro k m hm
    rw [bitLen]
    by_cases h0 : m = 0
    · rw [if_pos h0]; exact Nat.zero_le _
    · rw [if_neg h0]
      cases k with
      | zero =>
        simp only [pow_zero] at hm
        omega
      | succ k =>
        have : m / 2 < 2 ^ k := by
          rw [pow_succ] at hm
          omega
        have := ih k (m / 2) this
        omega

theorem roundNat_small {m : Nat} (hm : m < 2 ^ 53) : roundNat m = m := by
  unfold roundNat
  simp only []
  rw [if_pos (bitLen_le 1024 53 m hm)]

theorem overflowF64_gt : 2 ^ 53 < overflowF64 := by
  unfold overflowF64
  norm_num

theorem roundF64_exact {n : ℤ} (h : n.natAbs < 2 ^ 53) : roundF64 n = F64.fin n := by
  unfold roundF64
  have h1 : ¬ overflowF64 ≤ n.natAbs := by
    have := overflowF64_gt
    omega
  rw [if_neg h1, roundNat_small h]
  congr 1
  split_ifs with hn <;> omega

theorem toF64_top : toF64 ⊤ = F64.posInf := rfl

theorem toF64_coe (a : ℤ) : toF64 (a : Cost) = F64.fin a := rfl

theorem add_toF64_top_left (k : Cost) : F64.add F64.posInf (toF64 k) = F64.posInf := by
  cases k using WithTop.recTopCoe with
  | top => rfl
  | coe a => rfl

theorem add_toF64_top_right (a : Cost) : F64.add (toF64 a) F64.posInf = F64.posInf := by
  cases a using WithTop.recTopCoe with
  | top => rfl
  | coe a => rfl

theorem add_toF64_exact {a z : ℤ} (h : (a + z).natAbs < 2 ^ 53) :
    F64.add (toF64 (a : Cost)) (toF64 (z : Cost)) = toF64 (((a + z : ℤ)) : Cost) := by
  show roundF64 (a + z) = F64.fin (a + z)
  exact roundF64_exact h

theorem nonNegF_add {x : F64} {k : Cost} (hx : NonNegF x) (hk : 0 ≤ k) :
    NonNegF (F64.add x (toF64 k)) ∧
      ((x = F64.posInf ∨ k = ⊤) → F64.add x (toF64 k) = F64.posInf) := by
  cases k using WithTop.recTopCoe with
  | top =>
    cases x with
    | fin a => exact ⟨trivial, fun _ => rfl⟩
    | posInf => exact ⟨trivial, fun _ => rfl⟩
    | negInf => exact absurd hx (by simp [NonNegF])
    | nan => exact absurd hx (by simp [NonNegF])
  | coe z =>
    have hz : 0 ≤ z := WithTop.coe_le_coe.1 (by simpa using hk)
    cases x with
    | fin a =>
      have ha : 0 ≤ a := hx
      have hn : ¬ (a + z < 0) := by omega
      refine ⟨?_, ?_⟩
      · show NonNegF (roundF64 (a + z))
        unfold roundF64
        rw [if_neg hn, if_neg hn]
        split_ifs
        · trivial
        · show (0 : ℤ) ≤ (roundNat (a + z).natAbs : ℤ)
          exact Int.natCast_nonneg _
      · rintro (h | h)
        · cases h
        · exact absurd h (WithTop.coe_ne_top)
    | posInf => exact ⟨trivial, fun _ => rfl⟩
    | negInf => exact absurd hx (by simp [NonNegF])
    | nan => exact absurd hx (by simp [NonNegF])

theorem primLoopFloat_done {s : State} (f : Nat) (x : F64) (h : s.vh = []) :
    primLoopFloat (f + 1) s x = some x := by
  rw [primLoopFloat]
  simp [Len, h]

theorem primLoopFloat_step {steps : List Step} {s t s2 : State} {w : Int}
    (h : PrimStep steps s t w s2) (f : Nat) (x : F64) :
    primLoopFloat (f + 1) s x = primLoopFloat f s2 (F64.add x (toF64 (key s w))) := by
  obtain ⟨v, hv, hk⟩ := h.key_popped
  have hne : 0 < Len s := by
    have := h.step_length
    unfold Len; omega
  rw [primLoopFloat, if_pos hne, h.pop]
  simp only [Option.bind_eq_bind, Option.some_bind, hv, h.upd, hk]

theorem key_root_cases {steps : List Step} {s t s2 : State} {w : Int}
    (h : PrimStep steps s t w s2) (hinv : PrimInv steps s) :
    key s w = ⊤ ∨ ∃ e ∈ steps, key s w = e.c := by
  rcases hinv.att w h.root_mem with h1 | ⟨e, he, _, _, _, hk⟩
  · exact Or.inl h1
  · exact Or.inr ⟨e, he, hk⟩

theorem run_float_exact {steps : List Step} (B : Nat)
    (hB : ∀ e ∈ steps, ∃ z : ℤ, e.c = z ∧ z.natAbs ≤ B)
    {s : State} {r : Cost} {tr : List Snapshot} (hrun : Run steps s r tr) :
    PrimInv steps s → ∀ (f : Nat) (acc : Cost), s.vh.length < f →
      (acc = ⊤ ∨ ∃ a : ℤ, acc = a ∧ a.natAbs + B * s.vh.length < 2 ^ 53) →
      primLoopFloat f s (toF64 acc) = some (toF64 (acc + r)) := by
  induction hrun with
  | @done s h =>
    intro _ f acc hf _
    obtain ⟨f, rfl⟩ : ∃ g, f = g + 1 := ⟨f - 1, by omega⟩
    rw [primLoopFloat_done f _ h, add_zero]
  | @step s t s2 w r tr hstep _ ih =>
    intro hinv f acc hf hacc
    obtain ⟨f, rfl⟩ : ∃ g, f = g + 1 := ⟨f - 1, by omega⟩
    have hlen := hstep.step_length
    rw [primLoopFloat_step hstep, ← add_assoc]
    have hf2 : s2.vh.length < f := by omega
    rcases hacc with rfl | ⟨a, rfl, ha⟩
    · rw [toF64_top, add_toF64_top_left, ← toF64_top, top_add]
      exact ih hstep.inv f ⊤ hf2 (Or.inl rfl)
    · rcases key_root_cases hstep hinv with hk | ⟨e, he, hk⟩
      · rw [hk, toF64_top, add_toF64_top_right, ← toF64_top, add_top]
        exact ih hstep.inv f ⊤ hf2 (Or.inl rfl)
      · obtain ⟨z, hz, hzB⟩ := hB e he
        rw [hk, hz]
        have hmul : B * s.vh.length = B * s2.vh.length + B := by
          rw [← hlen, Nat.mul_succ]
        have hsum : (a + z).natAbs ≤ a.natAbs + z.natAbs := Int.natAbs_add_le a z
        rw [add_toF64_exact (by omega), ← WithTop.coe_add]
        exact ih hstep.inv f _ hf2 (Or.inr ⟨a + z, rfl, by omega⟩)

theorem run_float_nonneg {steps : List Step} (hnn : ∀ e ∈ steps, 0 ≤ e.c)
    {s : State} {r : Cost} {tr : List Snapshot} (hrun : Run steps s r tr) :
    PrimInv steps s → ∀ (f : Nat) (x : F64), s.vh.length < f → NonNegF x →
      ∃ y, primLoopFloat f s x = some y ∧ NonNegF y ∧
        ((x = F64.posInf ∨ r = ⊤) → y = F64.posInf) := by
  induction hrun with
  | @done s h =>
    intro _ f x hf hx
    obtain ⟨f, rfl⟩ : ∃ g, f = g + 1 := ⟨f - 1, by omega⟩
    refine ⟨x, primLoopFloat_done f _ h, hx, ?_⟩
    rintro (h1 | h1)
    · exact h1
    · exact absurd h1 WithTop.zero_ne_top
  | @step s t s2 w r tr hstep _ ih =>
    intro hinv f x hf hx
    obtain ⟨f, rfl⟩ : ∃ g, f = g + 1 := ⟨f - 1, by omega⟩
    have hlen := hstep.step_length
    have hk : 0 ≤ key s w := by
      rcases key_root_cases hstep hinv with h1 | ⟨e, he, h1⟩
      · rw [h1]; exact le_top
      · rw [h1]; exact hnn e he
    obtain ⟨hx2, htop⟩ := nonNegF_add hx hk
    obtain ⟨y, hy, hyn, hytop⟩ := ih hstep.inv f _ (by omega) hx2
    refine ⟨y, ?_, hyn, ?_⟩
    · rw [primLoopFloat_step hstep]
      exact hy
    · rintro (h1 | h1)
      · exact hytop (Or.inl (htop (Or.inl h1)))
      · rcases WithTop.add_eq_top.1 h1 with h2 | h2
        · exact hytop (Or.inl (htop (Or.inr h2)))
        · exact hytop (Or.inr h2)

theorem primFloat_of_step {steps : List Step} {s t s2 : State} {w : Int}
    (hstep : PrimStep steps s t w s2) :
    primFloat s = primLoopFloat (s2.vh.length + 1) s2 (F64.fin 0) := by
  unfold primFloat
  rw [hstep.pop]
  simp only [Option.bind_eq_bind, Option.some_bind, hstep.upd]
  rfl

theorem computeMSTFloat_of_heap {steps : List Step} {order : List Int} {s0 : State}
    (h : makeVertexHeap (readFile steps) order = some s0) :
    computeMSTFloat steps order = primFloat s0 := by
  unfold computeMSTFloat
  rw [h]
  rfl

theorem heap_length {steps : List Step} {order : List Int} {s0 : State}
    (hperm : order.Perm (readFile steps).ids) (hp0 : s0.vh.Perm order) :
    s0.vh.length = (vertices steps).length := by
  rw [hp0.length_eq, hperm.length_eq, (vertices_perm_ids steps).length_eq]

theorem computeMSTFloat_exact {steps : List Step} {order : List Int}
    (hperm : order.Perm (readFile steps).ids) (hne : steps ≠ []) (B : Nat)
    (hB : ∀ e ∈ steps, ∃ z : ℤ, e.c = z ∧ z.natAbs ≤ B)
    (hsafe : B * (vertices steps).length < 2 ^ 53) :
    ∃ r, computeMST steps order = some r ∧ computeMSTFloat steps order = some (toF64 r) := by
  obtain ⟨s0, t, w, s2, r, tr, hs0, hinv0, hp0, _, _, hstep, hrun, _, _, hcomp⟩ :=
    program_split hperm hne
  refine ⟨r, hcomp, ?_⟩
  rw [computeMSTFloat_of_heap hs0, primFloat_of_step hstep]
  have hlen := hstep.step_length
  have hl0 := heap_length hperm hp0
  have hle : B * s2.vh.length ≤ B * (vertices steps).length :=
    Nat.mul_le_mul_left B (by omega)
  have := run_float_exact B hB hrun hstep.inv (s2.vh.length + 1) 0 (by omega)
    (Or.inr ⟨0, rfl, by simp only [Int.natAbs_zero]; omega⟩)
  rw [zero_add] at this
  exact this

theorem computeMSTFloat_nonneg {steps : List Step} {order : List Int}
    (hperm : order.Perm (readFile steps).ids) (hne : steps ≠ [])
    (hnn : ∀ e ∈ steps, 0 ≤ e.c) :
    ∃ r y, computeMST steps order = some r ∧ computeMSTFloat steps order = some y ∧
      NonNegF y ∧ (r = ⊤ → y = F64.posInf) := by
  obtain ⟨s0, t, w, s2, r, tr, hs0, hinv0, hp0, _, _, hstep, hrun, _, _, hcomp⟩ :=
    program_split hperm hne
  obtain ⟨y, hy, hyn, hytop⟩ :=
    run_float_nonneg hnn hrun hstep.inv (s2.vh.length + 1) (F64.fin 0) (by omega)
      (le_refl (0 : ℤ))
  refine ⟨r, y, hcomp, ?_, hyn, fun h => hytop (Or.inr h)⟩
  rw [computeMSTFloat_of_heap hs0, primFloat_of_step hstep]
  exact hy

theorem connects_of_hub {steps T : List Step} (h : Int)
    (hall : ∀ x, Registered steps x → Relation.ReflTransGen (Adj T) h x) :
    Connects steps T := by
  intro x y hx hy
  have hxh : Relation.ReflTransGen (Adj T) x h :=
    Relation.ReflTransGen.symmetric (adj_symm T) (hall x hx)
  exact hxh.trans (hall y hy)

/-! ### The total of the program, with the `float64` addition -/

theorem path_example_connects :
    Connects [⟨1, 2, 10000000000000000⟩, ⟨2, 3, 1⟩, ⟨3, 4, 1⟩]
      [⟨1, 2, 10000000000000000⟩, ⟨2, 3, 1⟩, ⟨3, 4, 1⟩] := by
  have h12 : Adj [(⟨1, 2, 10000000000000000⟩ : Step), ⟨2, 3, 1⟩, ⟨3, 4, 1⟩] 1 2 :=
    ⟨⟨1, 2, 10000000000000000⟩, by simp, Or.inl ⟨rfl, rfl⟩⟩
  have h23 : Adj [(⟨1, 2, 10000000000000000⟩ : Step), ⟨2, 3, 1⟩, ⟨3, 4, 1⟩] 2 3 :=
    ⟨⟨2, 3, 1⟩, by simp, Or.inl ⟨rfl, rfl⟩⟩
  have h34 : Adj [(⟨1, 2, 10000000000000000⟩ : Step), ⟨2, 3, 1⟩, ⟨3, 4, 1⟩] 3 4 :=
    ⟨⟨3, 4, 1⟩, by simp, Or.inl ⟨rfl, rfl⟩⟩
  apply connects_of_hub 1
  rintro x ⟨e, he, hx⟩
  simp only [List.mem_cons, List.mem_singleton, List.not_mem_nil, or_false] at he
  have p2 := Relation.ReflTransGen.single h12
  have p3 := p2.tail h23
  have p4 := p3.tail h34
  rcases he with rfl | rfl | rfl <;> rcases hx with hx | hx <;> subst hx
  · exact Relation.ReflTransGen.refl
  · exact p2
  · exact p2
  · exact p3
  · exact p3
  · exact p4

theorem triangle_example_connects :
    Connects [⟨1, 2, 1⟩, ⟨2, 3, 2⟩, ⟨1, 3, 3⟩] [⟨1, 2, 1⟩, ⟨2, 3, 2⟩, ⟨1, 3, 3⟩] := by
  have h12 : Adj [(⟨1, 2, 1⟩ : Step), ⟨2, 3, 2⟩, ⟨1, 3, 3⟩] 1 2 :=
    ⟨⟨1, 2, 1⟩, by simp, Or.inl ⟨rfl, rfl⟩⟩
  have h13 : Adj [(⟨1, 2, 1⟩ : Step), ⟨2, 3, 2⟩, ⟨1, 3, 3⟩] 1 3 :=
    ⟨⟨1, 3, 3⟩, by simp, Or.inl ⟨rfl, rfl⟩⟩
  apply connects_of_hub 1
  rintro x ⟨e, he, hx⟩
  simp only [List.mem_cons, List.mem_singleton, List.not_mem_nil, or_false] at he
  have p2 := Relation.ReflTransGen.single h12
  have p3 := Relation.ReflTransGen.single h13
  rcases he with rfl | rfl | rfl <;> rcases hx with hx | hx <;> subst hx
  · exact Relation.ReflTransGen.refl
  · exact p2
  · exact p2
  · exact p3
  · exact Relation.ReflTransGen.refl
  · exact p3

theorem finite_of_bound {steps : List Step} {B : Nat}
    (hB : ∀ e ∈ steps, ∃ z : ℤ, e.c = z ∧ z.natAbs ≤ B) : ∀ e ∈ steps, e.c ≠ ⊤ := by
  intro e he
  obtain ⟨z, hz, _⟩ := hB e he
  rw [hz]
  exact WithTop.coe_ne_top

/-- C1, the claim as stated fails: on the connected graph with the edges
1-2 of cost `10^16`, 2-3 of cost `1` and 3-4 of cost `1` (finite,
non-negative, each a `float64`), with the vertices in the order 1, 2, 3, 4,
`prim` returns `10^16`, because `10^16 + 1` rounds to `10^16` twice, while the
least total cost of a spanning tree is `10^16 + 2`. -/
theorem C1_rounding_loses_the_small_edges :
    [1, 2, 3, 4].Perm (readFile [⟨1, 2, 10000000000000000⟩, ⟨2, 3, 1⟩, ⟨3, 4, 1⟩]).ids ∧
    roundF64 10000000000000000 = F64.fin 10000000000000000 ∧
    Connects [⟨1, 2, 10000000000000000⟩, ⟨2, 3, 1⟩, ⟨3, 4, 1⟩]
      [⟨1, 2, 10000000000000000⟩, ⟨2, 3, 1⟩, ⟨3, 4, 1⟩] ∧
    computeMSTFloat [⟨1, 2, 10000000000000000⟩, ⟨2, 3, 1⟩, ⟨3, 4, 1⟩] [1, 2, 3, 4] =
      some (F64.fin 10000000000000000) ∧
    IsLeast {x | ∃ T, IsSpanningTree [⟨1, 2, 10000000000000000⟩, ⟨2, 3, 1⟩, ⟨3, 4, 1⟩] T ∧
      weight T = x} 10000000000000002 := by
  refine ⟨by decide, by decide, path_example_connects, by decide, ?_⟩
  obtain ⟨r, hr, hleast⟩ := exact_total_is_least
    [⟨1, 2, 10000000000000000⟩, ⟨2, 3, 1⟩, ⟨3, 4, 1⟩] [1, 2, 3, 4] (by decide) (by simp)
    (by decide) path_example_connects
  have h2 : computeMST [⟨1, 2, 10000000000000000⟩, ⟨2, 3, 1⟩, ⟨3, 4, 1⟩] [1, 2, 3, 4] =
      some 10000000000000002 := by decide
  rw [h2] at hr
  cases hr
  exact hleast

/-- C1, amended: for a connected graph with at least one vertex, built by
`connect` steps whose costs are integers of absolute value at most `B`, where
`B` times the number of vertices is below `2^53` (so that no `float64`
addition of `prim` rounds), and for every order in which `makeVertexHeap`
ranges over the registered vertices, `prim` returns the least element of the
set of the total costs of the spanning trees of the graph. -/
theorem C1_exact_range_total_is_least (steps : List Step) (order : List Int) (B : Nat)
    (hperm : order.Perm (readFile steps).ids) (hne : steps ≠ [])
    (hB : ∀ e ∈ steps, ∃ z : ℤ, e.c = z ∧ z.natAbs ≤ B)
    (hsafe : B * (vertices steps).length < 2 ^ 53) (hconn : Connects steps steps) :
    ∃ z : ℤ, computeMSTFloat steps order = some (F64.fin z) ∧
      IsLeast {x | ∃ T, IsSpanningTree steps T ∧ weight T = x} (z : Cost) := by
  obtain ⟨r, hr, hfloat⟩ := computeMSTFloat_exact hperm hne B hB hsafe
  obtain ⟨r1, hr1, hleast⟩ := exact_total_is_least steps order hperm hne (finite_of_bound hB) hconn
  rw [hr] at hr1
  cases hr1
  have hne_top : r ≠ ⊤ := by
    obtain ⟨r2, hr2, _, _, hfin⟩ := computeMST_char hperm hne
    rw [hr] at hr2
    cases hr2
    exact hfin (finite_of_bound hB) hconn
  obtain ⟨z, rfl⟩ := WithTop.ne_top_iff_exists.1 hne_top
  exact ⟨z, hfloat, hleast⟩

theorem C1_witness :
    ∃ z : ℤ, computeMSTFloat [⟨1, 2, 1⟩, ⟨2, 3, 2⟩, ⟨1, 3, 3⟩] [3, 1, 2] = some (F64.fin z) ∧
      IsLeast {x | ∃ T, IsSpanningTree [⟨1, 2, 1⟩, ⟨2, 3, 2⟩, ⟨1, 3, 3⟩] T ∧ weight T = x}
        (z : Cost) :=
  C1_exact_range_total_is_least [⟨1, 2, 1⟩, ⟨2, 3, 2⟩, ⟨1, 3, 3⟩] [3, 1, 2] 3 (by decide)
    (by simp)
    (by
      intro e he
      simp only [List.mem_cons, List.mem_singleton, List.not_mem_nil, or_false] at he
      rcases he with rfl | rfl | rfl
      · exact ⟨1, rfl, by decide⟩
      · exact ⟨2, rfl, by decide⟩
      · exact ⟨3, rfl, by decide⟩)
    (by decide) triangle_example_connects

/-- C4, the claim as stated fails: with the edges 1-2 of cost `10^16`, 2-3 of
cost `1` and 3-4 of cost `1`, the graph that also contains the parallel edge
3-4 of cost `7` yields the total `10^16` when the map is ranged over in the
order 1, 2, 3, 4, and the graph without it yields `10^16 + 2` in the order
4, 3, 2, 1: the total of either graph depends on the order, so the two need
not agree. -/
theorem C4_parallel_edge_totals_differ :
    ((1 : ℤ) ≤ 7) ∧
    (⟨3, 4, ((1 : ℤ) : Cost)⟩ : Step) ∈
      [(⟨1, 2, 10000000000000000⟩ : Step), ⟨2, 3, 1⟩, ⟨3, 4, ((1 : ℤ) : Cost)⟩] ++ [] ∧
    [1, 2, 3, 4].Perm (readFile ([⟨1, 2, 10000000000000000⟩, ⟨2, 3, 1⟩,
      ⟨3, 4, ((1 : ℤ) : Cost)⟩] ++ ⟨3, 4, ((7 : ℤ) : Cost)⟩ :: [])).ids ∧
    [4, 3, 2, 1].Perm (readFile ([⟨1, 2, 10000000000000000⟩, ⟨2, 3, 1⟩,
      ⟨3, 4, ((1 : ℤ) : Cost)⟩] ++ [])).ids ∧
    computeMSTFloat ([⟨1, 2, 10000000000000000⟩, ⟨2, 3, 1⟩, ⟨3, 4, ((1 : ℤ) : Cost)⟩] ++
      ⟨3, 4, ((7 : ℤ) : Cost)⟩ :: []) [1, 2, 3, 4] = some (F64.fin 10000000000000000) ∧
    computeMSTFloat ([⟨1, 2, 10000000000000000⟩, ⟨2, 3, 1⟩, ⟨3, 4, ((1 : ℤ) : Cost)⟩] ++ [])
      [4, 3, 2, 1] = some (F64.fin 10000000000000002) :=
  ⟨by decide, by decide, by decide, by decide, by decide, by decide⟩

/-- C4, amended: for every graph, every pair of vertices `a`, `b` and all
integer costs `c1 <= c2`, when the costs of the graph are integers of
absolute value at most `B` and `B` times the number of vertices is below
`2^53` (so that no `float64` addition of `prim` rounds), the input that
contains both `connect(a, b, c1)` and `connect(a, b, c2)` and the input
without the step `connect(a, b, c2)` yield one and the same `prim` total,
whatever the orders of the initial heap arrays. -/
theorem C4_exact_range_parallel_edge_keeps_total (pre post : List Step) (a b : Int)
    (c1 c2 : ℤ) (B : Nat) (hle : c1 ≤ c2)
    (hmem : (⟨a, b, (c1 : Cost)⟩ : Step) ∈ pre ++ post)
    (order1 order2 : List Int)
    (h1 : order1.Perm (readFile (pre ++ ⟨a, b, (c2 : Cost)⟩ :: post)).ids)
    (h2 : order2.Perm (readFile (pre ++ post)).ids)
    (hB : ∀ e ∈ pre ++ ⟨a, b, (c2 : Cost)⟩ :: post, ∃ z : ℤ, e.c = z ∧ z.natAbs ≤ B)
    (hsafe : B * (vertices (pre ++ ⟨a, b, (c2 : Cost)⟩ :: post)).length < 2 ^ 53) :
    ∃ y : F64, computeMSTFloat (pre ++ ⟨a, b, (c2 : Cost)⟩ :: post) order1 = some y ∧
      computeMSTFloat (pre ++ post) order2 = some y := by
  have hne1 : pre ++ (⟨a, b, (c2 : Cost)⟩ : Step) :: post ≠ [] := by simp
  have hne2 : pre ++ post ≠ [] := List.ne_nil_of_mem hmem
  have hreg : ∀ p, Registered (pre ++ (⟨a, b, (c2 : Cost)⟩ : Step) :: post) p ↔
      Registered (pre ++ post) p :=
    registered_insert hmem (fun _ h => h)
  have hB2 : ∀ e ∈ pre ++ post, ∃ z : ℤ, e.c = z ∧ z.natAbs ≤ B := by
    intro e he
    apply hB e
    rw [List.mem_append] at he ⊢
    rcases he with he | he
    · exact Or.inl he
    · exact Or.inr (List.mem_cons_of_mem _ he)
  have hsafe2 : B * (vertices (pre ++ post)).length < 2 ^ 53 := by
    rw [← vertices_length_congr hreg]
    exact hsafe
  obtain ⟨r1, hr1, hf1⟩ := computeMSTFloat_exact h1 hne1 B hB hsafe
  obtain ⟨r2, hr2, hf2⟩ := computeMSTFloat_exact h2 hne2 B hB2 hsafe2
  have heq := exact_parallel_edge_keeps_total pre post a b c1 c2 hle hmem order1 order2 h1 h2
  rw [hr1, hr2] at heq
  cases heq
  exact ⟨toF64 r1, hf1, hf2⟩

theorem C4_witness :
    ∃ y : F64, computeMSTFloat ([⟨1, 2, ((3 : ℤ) : Cost)⟩] ++ ⟨1, 2, ((7 : ℤ) : Cost)⟩ :: [])
        [1, 2] = some y ∧
      computeMSTFloat ([⟨1, 2, ((3 : ℤ) : Cost)⟩] ++ []) [2, 1] = some y :=
  C4_exact_range_parallel_edge_keeps_total [⟨1, 2, ((3 : ℤ) : Cost)⟩] [] 1 2 3 7 7
    (by decide) (by simp) [1, 2] [2, 1] (by decide) (by decide)
    (by
      intro e he
      simp only [List.singleton_append, List.mem_cons, List.mem_singleton, List.not_mem_nil,
        or_false] at he
      rcases he with rfl | rfl
      · exact ⟨3, rfl, by decide⟩
      · exact ⟨7, rfl, by decide⟩)
    (by decide)

/-- C5, the claim as stated fails: on the graph with the edges 1-2 of cost
`10^16`, 2-3 of cost `1` and 3-4 of cost `1` (finite, non-negative, each a
`float64`), `prim` returns `10^16` when `makeVertexHeap` ranges over the
vertices in the order 1, 2, 3, 4 and `10^16 + 2` in the order 4, 3, 2, 1. -/
theorem C5_total_depends_on_order :
    [1, 2, 3, 4].Perm (readFile [⟨1, 2, 10000000000000000⟩, ⟨2, 3, 1⟩, ⟨3, 4, 1⟩]).ids ∧
    [4, 3, 2, 1].Perm (readFile [⟨1, 2, 10000000000000000⟩, ⟨2, 3, 1⟩, ⟨3, 4, 1⟩]).ids ∧
    roundF64 10000000000000000 = F64.fin 10000000000000000 ∧
    computeMSTFloat [⟨1, 2, 10000000000000000⟩, ⟨2, 3, 1⟩, ⟨3, 4, 1⟩] [1, 2, 3, 4] =
      some (F64.fin 10000000000000000) ∧
    computeMSTFloat [⟨1, 2, 10000000000000000⟩, ⟨2, 3, 1⟩, ⟨3, 4, 1⟩] [4, 3, 2, 1] =
      some (F64.fin 10000000000000002) :=
  ⟨by decide, by decide, by decide, by decide, by decide⟩

/-- C5, amended: for every graph with at least one vertex, built by `connect`
steps whose costs are integers of absolute value at most `B`, where `B` times
the number of vertices is below `2^53` (so that no `float64` addition of
`prim` rounds), and for any two orders in which `makeVertexHeap` may range
over the registered vertices, `prim` returns a total and it is the same for
both orders, also when several edges or vertices tie on cost. -/
theorem C5_exact_range_total_independent_of_order (steps : List Step)
    (order1 order2 : List Int) (B : Nat)
    (h1 : order1.Perm (readFile steps).ids) (h2 : order2.Perm (readFile steps).ids)
    (hne : steps ≠ []) (hB : ∀ e ∈ steps, ∃ z : ℤ, e.c = z ∧ z.natAbs ≤ B)
    (hsafe : B * (vertices steps).length < 2 ^ 53) :
    ∃ y : F64, computeMSTFloat steps order1 = some y ∧
      computeMSTFloat steps order2 = some y := by
  obtain ⟨r1, hr1, hf1⟩ := computeMSTFloat_exact h1 hne B hB hsafe
  obtain ⟨r2, hr2, hf2⟩ := computeMSTFloat_exact h2 hne B hB hsafe
  have heq := exact_total_independent_of_order steps order1 order2 h1 h2
  rw [hr1, hr2] at heq
  cases heq
  exact ⟨toF64 r1, hf1, hf2⟩

theorem C5_witness :
    ∃ y : F64, computeMSTFloat [⟨1, 2, 2⟩, ⟨2, 3, 2⟩, ⟨1, 3, 2⟩] [1, 2, 3] = some y ∧
      computeMSTFloat [⟨1, 2, 2⟩, ⟨2, 3, 2⟩, ⟨1, 3, 2⟩] [3, 1, 2] = some y :=
  C5_exact_range_total_independent_of_order [⟨1, 2, 2⟩, ⟨2, 3, 2⟩, ⟨1, 3, 2⟩] [1, 2, 3]
    [3, 1, 2] 2 (by decide) (by decide) (by simp)
    (by
      intro e he
      simp only [List.mem_cons, List.mem_singleton, List.not_mem_nil, or_false] at he
      rcases he with rfl | rfl | rfl <;> exact ⟨2, rfl, by decide⟩)
    (by decide)

theorem overflow_example_not_connected :
    ¬ Connects [⟨1, 2, ((-(((2 ^ 128) ^ 7 * 2 ^ 127 : ℕ) : ℤ) : ℤ) : Cost)⟩,
      ⟨2, 3, ((-(((2 ^ 128) ^ 7 * 2 ^ 127 : ℕ) : ℤ) : ℤ) : Cost)⟩, ⟨4, 5, 1⟩]
      [⟨1, 2, ((-(((2 ^ 128) ^ 7 * 2 ^ 127 : ℕ) : ℤ) : ℤ) : Cost)⟩,
      ⟨2, 3, ((-(((2 ^ 128) ^ 7 * 2 ^ 127 : ℕ) : ℤ) : ℤ) : Cost)⟩, ⟨4, 5, 1⟩] := by
  intro h
  have hp := h 1 4 ⟨_, List.mem_cons_self _ _, Or.inl rfl⟩
    ⟨⟨4, 5, 1⟩, List.mem_cons_of_mem _ (List.mem_cons_of_mem _ (List.mem_singleton_self _)),
      Or.inl rfl⟩
  have hclosed : ∀ y, Relation.ReflTransGen (Adj [⟨1, 2, ((-(((2 ^ 128) ^ 7 * 2 ^ 127 : ℕ) : ℤ) : ℤ) : Cost)⟩,
      ⟨2, 3, ((-(((2 ^ 128) ^ 7 * 2 ^ 127 : ℕ) : ℤ) : ℤ) : Cost)⟩, ⟨4, 5, 1⟩]) 1 y →
      y = 1 ∨ y = 2 ∨ y = 3 := by
    intro y hy
    induction hy with
    | refl => exact Or.inl rfl
    | tail _ hab ih =>
      obtain ⟨e, he, hj⟩ := hab
      simp only [List.mem_cons, List.mem_singleton, List.not_mem_nil, or_false] at he
      unfold joins at hj
      rcases he with rfl | rfl | rfl
      · simp only at hj
        omega
      · simp only at hj
        omega
      · simp only at hj
        omega
  have := hclosed 4 hp
  omega

set_option maxRecDepth 100000 in
set_option exponentiation.threshold 2000 in
/-- C14, the claim as stated fails: on the graph with the edges 1-2 and 2-3,
both of the finite cost `-2^1023` (a `float64`), and 4-5 of cost `1`, which
has two components, with the vertices in the order 1, 2, 3, 4, 5, the total
of `prim` is `-2^1023`, then `-Inf` by overflow, then `-Inf + +Inf`, so `prim`
returns `NaN` and not `+Inf`. -/
theorem C14_negative_overflow_gives_nan :
    [1, 2, 3, 4, 5].Perm (readFile [⟨1, 2, ((-(((2 ^ 128) ^ 7 * 2 ^ 127 : ℕ) : ℤ) : ℤ) : Cost)⟩,
      ⟨2, 3, ((-(((2 ^ 128) ^ 7 * 2 ^ 127 : ℕ) : ℤ) : ℤ) : Cost)⟩, ⟨4, 5, 1⟩]).ids ∧
    ¬ Connects [⟨1, 2, ((-(((2 ^ 128) ^ 7 * 2 ^ 127 : ℕ) : ℤ) : ℤ) : Cost)⟩,
      ⟨2, 3, ((-(((2 ^ 128) ^ 7 * 2 ^ 127 : ℕ) : ℤ) : ℤ) : Cost)⟩, ⟨4, 5, 1⟩]
      [⟨1, 2, ((-(((2 ^ 128) ^ 7 * 2 ^ 127 : ℕ) : ℤ) : ℤ) : Cost)⟩,
      ⟨2, 3, ((-(((2 ^ 128) ^ 7 * 2 ^ 127 : ℕ) : ℤ) : ℤ) : Cost)⟩, ⟨4, 5, 1⟩] ∧
    roundF64 (-(((2 ^ 128) ^ 7 * 2 ^ 127 : ℕ) : ℤ) : ℤ) = F64.fin (-(((2 ^ 128) ^ 7 * 2 ^ 127 : ℕ) : ℤ) : ℤ) ∧
    computeMSTFloat [⟨1, 2, ((-(((2 ^ 128) ^ 7 * 2 ^ 127 : ℕ) : ℤ) : ℤ) : Cost)⟩,
      ⟨2, 3, ((-(((2 ^ 128) ^ 7 * 2 ^ 127 : ℕ) : ℤ) : ℤ) : Cost)⟩, ⟨4, 5, 1⟩] [1, 2, 3, 4, 5] = some F64.nan :=
  ⟨by decide, overflow_example_not_connected, by decide, by decide⟩

/-- C14, amended: on a graph with finite non-negative integer edge costs that
is not connected, whatever the initial order of the heap array, `prim` returns
`+Inf`; and some pop after the first one returns a vertex whose `CheapestEdge`
is `+Inf` at that moment and which no path of edges joins to the first vertex
popped. -/
theorem C14_nonneg_disconnected_total_is_inf (steps : List Step) (order : List Int)
    (hperm : order.Perm (readFile steps).ids) (hfin : ∀ e ∈ steps, e.c ≠ ⊤)
    (hnn : ∀ e ∈ steps, 0 ≤ e.c) (hdis : ¬ Connects steps steps) :
    computeMSTFloat steps order = some F64.posInf ∧
    ∃ s0 out seed k sk, makeVertexHeap (readFile steps) order = some s0 ∧
      primRun s0 = some out ∧ primFloat s0 = some F64.posInf ∧
      out.2[0]? = some seed ∧ out.2[k]? = some sk ∧ 2 ≤ k ∧ sk.phase = Phase.afterPop ∧
      (∃ v, sk.st.deref sk.popped = some v ∧ v.CheapestEdge = ⊤) ∧
      ¬ Relation.ReflTransGen (Adj steps) sk.popped seed.popped := by
  have hne : steps ≠ [] := by
    rintro rfl
    apply hdis
    rintro x y ⟨e, he, _⟩ _
    cases he
  obtain ⟨htop, s0, out, seed, k, sk, hs0, hprun, _, _, hseed, hk, hk2, hph, hv, hno⟩ :=
    exact_disconnected_total_top steps order hperm hfin hdis
  obtain ⟨r, y, hr, hy, _, hytop⟩ := computeMSTFloat_nonneg hperm hne hnn
  rw [htop] at hr
  cases hr
  have hinf : computeMSTFloat steps order = some F64.posInf := by
    rw [hy, hytop rfl]
  refine ⟨hinf, s0, out, seed, k, sk, hs0, hprun, ?_, hseed, hk, hk2, hph, hv, hno⟩
  rw [← computeMSTFloat_of_heap hs0]
  exact hinf

theorem C14_witness :
    computeMSTFloat [⟨1, 2, 3⟩, ⟨3, 4, 1⟩] [1, 2, 3, 4] = some F64.posInf ∧
    ∃ s0 out seed k sk,
      makeVertexHeap (readFile [⟨1, 2, 3⟩, ⟨3, 4, 1⟩]) [1, 2, 3, 4] = some s0 ∧
      primRun s0 = some out ∧ primFloat s0 = some F64.posInf ∧
      out.2[0]? = some seed ∧ out.2[k]? = some sk ∧ 2 ≤ k ∧ sk.phase = Phase.afterPop ∧
      (∃ v, sk.st.deref sk.popped = some v ∧ v.CheapestEdge = ⊤) ∧
      ¬ Relation.ReflTransGen (Adj [⟨1, 2, 3⟩, ⟨3, 4, 1⟩]) sk.popped seed.popped :=
  C14_nonneg_disconnected_total_is_inf [⟨1, 2, 3⟩, ⟨3, 4, 1⟩] [1, 2, 3, 4] (by decide)
    (by decide) (by decide) two_components_example

end Prim
